import Mathlib

/-!
# pasec: a TF-IDF vector-space index

A shallow embedding of `collections.cpp` / `utils.cpp`:

* `std::string` is a list of characters, `std::map` a key-sorted association
  list, `std::vector` a list;
* an operation whose behaviour is undefined in C++ (dereferencing `end()`,
  indexing a vector past its size, building a `std::string` from `NULL`)
  returns `none`;
* `float`/`double` values are modelled by `Fl F`: exact values of an ordered
  field `F` together with the IEEE results `+inf`, `-inf` and `NaN` of
  dividing by zero; `log2` and `sqrt` on finite values are parameters. The
  methods are modelled under exact arithmetic; `dwCalcR` is `dwCalc` with the
  roundings to `float` and `double` as parameters, and `binary32`, `binary64`
  are the roundings of IEEE 754;
* the library algorithm `std::partial_sort` is a parameter `psort`, held to
  the contract `PartialSort` of the standard.
-/

namespace Pasec

/-- The type `std::string`. -/
abbrev Str := List Char

/-- The type `std::map<K, V>`: an association list kept sorted by key. -/
abbrev SMap (K V : Type) := List (K × V)

namespace SMap

variable {K V : Type}

/-- The call `m.find(k)`; `none` stands for `m.end()`. -/
def find [LinearOrder K] : SMap K V → K → Option V
  | [], _ => none
  | (k', v) :: rest, k => if k' = k then some v else find rest k

/-- The call `m.count(k)`. -/
def count [LinearOrder K] (m : SMap K V) (k : K) : Nat :=
  if (m.find k).isSome then 1 else 0

/-- The call `m.size()`. -/
def size (m : SMap K V) : Nat := m.length

/-- The assignment `m[k] = v`. -/
def assign [LinearOrder K] : SMap K V → K → V → SMap K V
  | [], k, v => [(k, v)]
  | (k', v') :: rest, k, v =>
    if k < k' then (k, v) :: (k', v') :: rest
    else if k = k' then (k, v) :: rest
    else (k', v') :: assign rest k v

/-- The calls `m.emplace(k, v)` and `m.insert(make_pair(k, v))`: nothing
happens when the key is already present. -/
def emplace [LinearOrder K] (m : SMap K V) (k : K) (v : V) : SMap K V :=
  match m.find k with
  | some _ => m
  | none => m.assign k v

/-- The expression `m[k]` on a non-const map: the value stored under `k`,
after inserting the value-initialised `dflt` when `k` is absent. -/
def index [LinearOrder K] (m : SMap K V) (k : K) (dflt : V) : V × SMap K V :=
  match m.find k with
  | some v => (v, m)
  | none => (dflt, m.assign k dflt)

/-- The keys in iteration order. -/
def keys (m : SMap K V) : List K := m.map Prod.fst

/-- Well-formedness of a `std::map`: keys strictly increasing. -/
def WF [LinearOrder K] (m : SMap K V) : Prop := m.Pairwise (fun a b => a.1 < b.1)

end SMap

/-- A `float` under exact arithmetic: a finite value of the field `F`, or one
of the IEEE special values. Zeros are positive zeros. -/
inductive Fl (F : Type) where
  | fin : F → Fl F
  | pinf : Fl F
  | ninf : Fl F
  | nan : Fl F
  deriving DecidableEq

namespace Fl

variable {F : Type} [LinearOrderedField F]

/-- Conversion of a `std::size_t`. -/
def ofNat (n : Nat) : Fl F := fin (n : F)

/-- The infinity with the sign of `a`, `NaN` for zero. -/
def infOfSign (a : F) : Fl F :=
  if 0 < a then pinf else if a < 0 then ninf else nan

/-- IEEE addition. -/
def add : Fl F → Fl F → Fl F
  | fin a, fin b => fin (a + b)
  | fin _, pinf => pinf
  | fin _, ninf => ninf
  | pinf, fin _ => pinf
  | ninf, fin _ => ninf
  | pinf, pinf => pinf
  | ninf, ninf => ninf
  | pinf, ninf => nan
  | ninf, pinf => nan
  | nan, _ => nan
  | _, nan => nan

/-- IEEE multiplication. -/
def mul : Fl F → Fl F → Fl F
  | fin a, fin b => fin (a * b)
  | fin a, pinf => infOfSign a
  | fin a, ninf => infOfSign (-a)
  | pinf, fin b => infOfSign b
  | ninf, fin b => infOfSign (-b)
  | pinf, pinf => pinf
  | ninf, ninf => pinf
  | pinf, ninf => ninf
  | ninf, pinf => ninf
  | nan, _ => nan
  | _, nan => nan

/-- IEEE division: a finite value divided by zero is an infinity or `NaN`. -/
def div : Fl F → Fl F → Fl F
  | fin a, fin b => if b = 0 then infOfSign a else fin (a / b)
  | fin _, pinf => fin 0
  | fin _, ninf => fin 0
  | pinf, fin b => if 0 ≤ b then pinf else ninf
  | ninf, fin b => if 0 ≤ b then ninf else pinf
  | pinf, pinf => nan
  | ninf, ninf => nan
  | pinf, ninf => nan
  | ninf, pinf => nan
  | nan, _ => nan
  | _, nan => nan

/-- The function `std::log2`, given the logarithm `lg` on positive values. -/
def log2 (lg : F → F) : Fl F → Fl F
  | fin a => if 0 < a then fin (lg a) else if a = 0 then ninf else nan
  | pinf => pinf
  | ninf => nan
  | nan => nan

/-- The function `std::sqrt`, given the root `sq` on non-negative values. -/
def sqrt (sq : F → F) : Fl F → Fl F
  | fin a => if 0 ≤ a then fin (sq a) else nan
  | pinf => pinf
  | ninf => nan
  | nan => nan

/-- The call `std::pow(x, 2)`. -/
def pow2 (x : Fl F) : Fl F := mul x x

/-- The comparison `x > y`; false when either side is `NaN`. -/
def gt : Fl F → Fl F → Bool
  | fin a, fin b => decide (b < a)
  | pinf, fin _ => true
  | pinf, ninf => true
  | fin _, ninf => true
  | _, _ => false

/-- The field value of a finite value, 0 for the special values. -/
def val : Fl F → F
  | fin a => a
  | _ => 0

/-- A value that is neither an infinity nor `NaN`. -/
def isFinite : Fl F → Bool
  | fin _ => true
  | _ => false

end Fl

/-! ## Rounding to float and double -/

section Rounding

variable {F : Type} [LinearOrderedField F]

/-- The rounding of a computed value to a floating type, given the rounding
`r` of the type on field values: infinities and `NaN` stay as they are. -/
def Fl.round (r : F → Fl F) : Fl F → Fl F
  | Fl.fin a => r a
  | x => x

/-- The properties of a rounding that the statements use: 0 and 1 are not
changed, and a positive `std::size_t` value is converted to a positive finite
value, which the rounding does not change. -/
structure Rounding (r : F → Fl F) : Prop where
  zero : r 0 = Fl.fin 0
  one : r 1 = Fl.fin 1
  size : ∀ n : Nat, 0 < n → n < 2 ^ 64 →
    ∃ y, r (n : F) = Fl.fin y ∧ 0 < y ∧ r y = Fl.fin y

variable [FloorRing F]

/-- The integer nearest to `x`, the even one of the two when `x` lies halfway
between them. -/
def roundHalfEven (x : F) : ℤ :=
  if x - (⌊x⌋ : F) < 1 / 2 then ⌊x⌋
  else if 1 / 2 < x - (⌊x⌋ : F) then ⌊x⌋ + 1
  else if ⌊x⌋ % 2 = 0 then ⌊x⌋ else ⌊x⌋ + 1

/-- Rounding to the nearest value of the IEEE 754 binary format with `p`
significand bits and the exponents `emin` to `emax`, ties to even: values
below the normal range are rounded on the subnormal grid, and a result past
the largest finite value is an infinity. -/
def roundBinary (p : Nat) (emin emax : ℤ) (x : F) : Fl F :=
  if x = 0 then Fl.fin 0
  else
    let e : ℤ := max (Int.log 2 |x|) emin
    let ulp : F := (2 : F) ^ (e - ((p : ℤ) - 1))
    let y : F := (roundHalfEven (|x| / ulp) : F) * ulp
    if (2 : F) ^ (emax + 1) ≤ y then (if 0 < x then Fl.pinf else Fl.ninf)
    else Fl.fin (if 0 < x then y else -y)

/-- Rounding to `float`: IEEE 754 binary32. -/
def binary32 (x : F) : Fl F := roundBinary 24 (-126) 127 x

/-- Rounding to `double`: IEEE 754 binary64. -/
def binary64 (x : F) : Fl F := roundBinary 53 (-1022) 1023 x

end Rounding

/-! ## utils.cpp -/

/-- The function `not_stopword`; the list `stopwords` of `utils.hpp` is a
parameter. -/
def not_stopword (stopwords : List Str) (word : Str) : Bool :=
  match stopwords with
  | [] => true
  | stopword :: rest => if stopword = word then false else not_stopword rest word

/-! ## collections.cpp: Document -/

/-- The delimiter set of `Document::Document` and `QueryCollection`. -/
def delim : List Char := " !\"#$%&'()*+,-./:;<=>?@[\\]^_`\x7b|\x7d~".toList

/-- Tokens of the C string `s` after the pending token `cur` (reversed). -/
def strtokFrom (cur : Str) : Str → List Str
  | [] => if cur = [] then [] else [cur.reverse]
  | c :: cs =>
    if c = Char.ofNat 0 then (if cur = [] then [] else [cur.reverse])
    else if c ∈ delim then
      (if cur = [] then strtokFrom [] cs else cur.reverse :: strtokFrom [] cs)
    else strtokFrom (c :: cur) cs

/-- The tokens that `std::strtok(&str[0], delim)` followed by repeated
`std::strtok(NULL, delim)` returns before it returns `NULL`. -/
def strtokAll (str : Str) : List Str := strtokFrom [] str

/-- The alias `Document::TermList`. -/
abbrev TermList := SMap Str (List Nat)

/-- The alias `TextCollection::Dictionary`. -/
abbrev Dictionary := SMap Str Nat

/-- The class `Document`. -/
structure Document where
  terms : TermList
  deriving DecidableEq

/-- The variables of the loop of `Document::Document`. -/
structure DocState where
  dict : Dictionary
  terms : TermList
  word_count : Nat
  deriving DecidableEq

/-- The statement `if (word.back() == 's') word.pop_back();`. -/
def stripS (word : Str) : Str :=
  if word.getLast? = some 's' then word.dropLast else word

/-- The test `word.length() > 3 && not_stopword(word)`. -/
def accepted (stopwords : List Str) (word : Str) : Bool :=
  decide (word.length > 3) && not_stopword stopwords word

/-- One iteration of the do-while loop of `Document::Document`, for the token
`word`. -/
def Document.step (stopwords : List Str) (st : DocState) (word : Str) : DocState :=
  if accepted stopwords word then
    let word := stripS word
    let dict :=
      if st.dict.count word = 0 then st.dict.assign word st.dict.size else st.dict
    let terms :=
      if st.terms.find word = none then st.terms.emplace word [] else st.terms
    let terms := terms.assign word ((terms.index word []).1 ++ [st.word_count])
    { dict := dict, terms := terms, word_count := st.word_count + 1 }
  else st

/-- The loop of `Document::Document` over a token sequence. -/
def Document.ofTokens (stopwords : List Str) (tokens : List Str) (dict : Dictionary) :
    DocState :=
  tokens.foldl (Document.step stopwords) { dict := dict, terms := [], word_count := 0 }

/-- The constructor `Document::Document(str, dict)`: the document and the
updated dictionary. When `str` holds no token the first `strtok` returns
`NULL` and `std::string word(otoken)` is undefined. -/
def Document.new (stopwords : List Str) (str : Str) (dict : Dictionary) :
    Option (Document × Dictionary) :=
  match strtokAll str with
  | [] => none
  | tokens =>
    let st := Document.ofTokens stopwords tokens dict
    some ({ terms := st.terms }, st.dict)

/-- The algorithm `std::max_element(first, last, comp)`; `none` stands for
`last`, returned on an empty range. -/
def max_element {α : Type} (comp : α → α → Bool) : List α → Option α
  | [] => none
  | x :: xs => some (xs.foldl (fun largest y => if comp largest y then y else largest) x)

/-- The method `Document::maxTermVal`; dereferencing `end()` is `none`. -/
def Document.maxTermVal (doc : Document) : Option Nat :=
  let tfvec : SMap Str Nat :=
    doc.terms.foldl (fun tfvec term => tfvec.emplace term.1 term.2.length) []
  (max_element (fun p1 p2 => decide (p1.2 < p2.2)) tfvec).map Prod.snd

/-! ## collections.cpp: TextCollection -/

/-- The alias `TextCollection::PostingList`. -/
abbrev PostingList := SMap Nat Nat

/-- The alias `TextCollection::DocWeights`. -/
abbrev DocWeights (F : Type) := SMap Str (Fl F)

/-- The class `TextCollection`. -/
structure TextCollection (F : Type) where
  documents : List Document
  dictionary : Dictionary
  plists : List PostingList
  weights : List (DocWeights F)
  dnorms : List (Fl F)

/-- The loading loop of the constructor `TextCollection::TextCollection`, over
the paragraphs `read_paragraph` yields. -/
def loadDocuments (stopwords : List Str) (paras : List Str) :
    Option (List Document × Dictionary) :=
  paras.foldlM
    (fun (acc : List Document × Dictionary) para =>
      (Document.new stopwords para acc.2).map (fun r => (acc.1 ++ [r.1], r.2)))
    ([], [])

/-- The statement `plists[index][j] = v`. -/
def plistsAssign (plists : List PostingList) (index j v : Nat) : Option (List PostingList) :=
  (plists[index]?).map (fun plist => plists.set index (plist.assign j v))

/-- The inner loop of `TextCollection::invDoc` for one dictionary entry. -/
def invDocTerm (documents : List Document) (str : Str) (index : Nat)
    (plists : List PostingList) : Option (List PostingList) :=
  (List.range documents.length).foldlM
    (fun plists j =>
      (documents[j]?).bind (fun doc =>
        match doc.terms.find str with
        | some positions => plistsAssign plists index j positions.length
        | none => some plists))
    plists

/-- The method `TextCollection::invDoc`. -/
def invDoc (documents : List Document) (dictionary : Dictionary) : Option (List PostingList) :=
  dictionary.foldlM
    (fun plists term => invDocTerm documents term.1 term.2 plists)
    (List.replicate dictionary.size [])

section Weights

variable {F : Type} [LinearOrderedField F]

/-- The lambda `idf_calc` of `TextCollection::dwCalc`. -/
def idf_calc (lg : F → F) (ndocs : Nat) (plist : PostingList) : Fl F :=
  Fl.log2 lg (Fl.div (Fl.mul (Fl.fin 1) (Fl.ofNat ndocs)) (Fl.ofNat plist.size))

/-- The body of the inner loop of `TextCollection::dwCalc` for one entry of
the term map of document `i`. -/
def dwCalcTerm (idfvec : List (Fl F)) (mval : Fl F)
    (acc : DocWeights F × Dictionary) (term : Str × List Nat) :
    Option (DocWeights F × Dictionary) :=
  let word := term.1
  let tf := term.2.length
  let r := acc.2.index word 0
  (idfvec[r.1]?).map (fun idf =>
    (acc.1.emplace word (Fl.div (Fl.mul (Fl.ofNat tf) idf) mval), r.2))

/-- The method `TextCollection::dwCalc`: the weight vectors, and the
dictionary (which `dictionary[word]` may extend). -/
def dwCalc (lg : F → F) (documents : List Document) (dictionary : Dictionary)
    (plists : List PostingList) : Option (List (DocWeights F) × Dictionary) :=
  let ndocs := documents.length
  let idfvec : List (Fl F) := plists.map (idf_calc lg ndocs)
  (documents.mapM (fun (doc : Document) => doc.maxTermVal.map (fun m => (Fl.ofNat m : Fl F)))).bind
    (fun mvals =>
      (List.range documents.length).foldlM
        (fun (acc : List (DocWeights F) × Dictionary) i =>
          (documents[i]?).bind (fun doc =>
          (mvals[i]?).bind (fun mval =>
          (acc.1[i]?).bind (fun wi =>
            (doc.terms.foldlM (dwCalcTerm idfvec mval) (wi, acc.2)).map
              (fun r => (acc.1.set i r.1, r.2))))))
        (List.replicate documents.length [], dictionary))

/-- The body of the loop of `TextCollection::l2norms` for one weight vector:
the root of the sum of the squared weights. -/
def l2norm (sq : F → F) (dw : DocWeights F) : Fl F :=
  Fl.sqrt sq (dw.foldl (fun sum term => Fl.add sum (Fl.pow2 term.2)) (Fl.fin 0))

/-- The method `TextCollection::l2norms`. -/
def l2norms (sq : F → F) (ndocs : Nat) (weights : List (DocWeights F)) :
    Option (List (Fl F)) :=
  (List.range ndocs).foldlM
    (fun dnorms i =>
      (weights[i]?).map (fun dw => dnorms.set i (l2norm sq dw)))
    (List.replicate ndocs (Fl.fin 0))

/-- The constructor `TextCollection::TextCollection`, from the paragraphs of
the collection file. -/
def TextCollection.new (lg sq : F → F) (stopwords : List Str) (paras : List Str) :
    Option (TextCollection F) :=
  (loadDocuments stopwords paras).bind (fun ld =>
  (invDoc ld.1 ld.2).bind (fun plists =>
  (dwCalc lg ld.1 ld.2 plists).bind (fun dw =>
  (l2norms sq ld.1.length dw.1).map (fun dnorms =>
    { documents := ld.1, dictionary := dw.2, plists := plists,
      weights := dw.1, dnorms := dnorms }))))

/-- The alias `Query`: a `std::set<std::string>` in iteration order. -/
abbrev Query := List Str

/-- The body of the inner loop of `TextCollection::similarity`, for one
posting of the query term `word`. -/
def similarityPosting (tc : TextCollection F) (qnorm : Fl F) (word : Str)
    (sim : SMap Nat (Fl F)) (posting : Nat × Nat) : Option (SMap Nat (Fl F)) :=
  let did := posting.1
  (tc.weights[did]?).bind (fun wv =>
  (wv.find word).bind (fun w =>
  (tc.dnorms[did]?).map (fun dnorm =>
    let weight := Fl.div w (Fl.mul dnorm qnorm)
    match sim.find did with
    | some s => sim.assign did (Fl.add s weight)
    | none => sim.assign did weight)))

/-- The body of the outer loop of `TextCollection::similarity`. -/
def similarityWord (tc : TextCollection F) (qnorm : Fl F)
    (sim : SMap Nat (Fl F)) (word : Str) : Option (SMap Nat (Fl F)) :=
  match tc.dictionary.find word with
  | none => some sim
  | some index =>
    (tc.plists[index]?).bind (fun plist =>
      plist.foldlM (similarityPosting tc qnorm word) sim)

/-- The method `TextCollection::similarity(query, sim)`. -/
def TextCollection.similarity (sq : F → F) (tc : TextCollection F) (query : Query)
    (sim : SMap Nat (Fl F)) : Option (SMap Nat (Fl F)) :=
  let qnorm : Fl F := Fl.sqrt sq (Fl.ofNat query.length)
  query.foldlM (similarityWord tc qnorm) sim

end Weights

/-! ## collections.cpp: TextCollection::dwCalc with rounding -/

section WeightsRounded

variable {F : Type} [LinearOrderedField F]

/-- The lambda `idf_calc` of `TextCollection::dwCalc` with the rounding `r64`
of `double`: the conversion of `ndocs`, the product with `1.0`, the
conversion of `plist.size()`, the quotient and the result of `std::log2`,
taken as the `double` nearest to the logarithm, are each a `double`. -/
def idf_calcR (r64 : F → Fl F) (lg : F → F) (ndocs : Nat) (plist : PostingList) : Fl F :=
  Fl.round r64 (Fl.log2 lg
    (Fl.round r64 (Fl.div (Fl.round r64 (Fl.mul (Fl.fin 1) (r64 (ndocs : F))))
      (r64 (plist.size : F)))))

/-- The body of the inner loop of `TextCollection::dwCalc` with the rounding
`r32` of `float`: the conversion of `tf`, the product, the quotient by
`mvals[i]` and the stored `weight` are each a `float`. -/
def dwCalcTermR (r32 : F → Fl F) (idfvec : List (Fl F)) (mval : Fl F)
    (acc : DocWeights F × Dictionary) (term : Str × List Nat) :
    Option (DocWeights F × Dictionary) :=
  let word := term.1
  let tf := term.2.length
  let r := acc.2.index word 0
  (idfvec[r.1]?).map (fun idf =>
    (acc.1.emplace word
      (Fl.round r32 (Fl.div (Fl.round r32 (Fl.mul (r32 (tf : F)) idf)) mval)), r.2))

/-- The method `TextCollection::dwCalc` with the roundings `r32` of `float`
and `r64` of `double`: `idfvec` holds the results of `idf_calc` converted to
`float`, `mvals` the results of `maxTermVal` converted to `float`. -/
def dwCalcR (r32 r64 : F → Fl F) (lg : F → F) (documents : List Document)
    (dictionary : Dictionary) (plists : List PostingList) :
    Option (List (DocWeights F) × Dictionary) :=
  let ndocs := documents.length
  let idfvec : List (Fl F) := plists.map (fun plist => Fl.round r32 (idf_calcR r64 lg ndocs plist))
  (documents.mapM (fun (doc : Document) => doc.maxTermVal.map (fun (m : Nat) => r32 (m : F)))).bind
    (fun mvals =>
      (List.range documents.length).foldlM
        (fun (acc : List (DocWeights F) × Dictionary) i =>
          (documents[i]?).bind (fun doc =>
          (mvals[i]?).bind (fun mval =>
          (acc.1[i]?).bind (fun wi =>
            (doc.terms.foldlM (dwCalcTermR r32 idfvec mval) (wi, acc.2)).map
              (fun r => (acc.1.set i r.1, r.2))))))
        (List.replicate documents.length [], dictionary))

end WeightsRounded

/-! ## The algorithm std::partial_sort -/

/-- The type of `std::partial_sort(first, first + middle, last, comp)` on a
vector with elements of any type: the comparator, the offset `middle`, the
vector before and the vector after; `none` where the call is undefined. -/
abbrev PartialSortFn : Type 1 :=
  (α : Type) → (α → α → Bool) → Nat → List α → Option (List α)

/-- A comparator that is a strict weak ordering on the elements of `v`, which
the standard requires of the comparator of `std::partial_sort`: irreflexive,
transitive, and with a transitive equivalence `!comp(a, b) && !comp(b, a)`. -/
def StrictWeakOn {α : Type} (comp : α → α → Bool) (v : List α) : Prop :=
  (∀ a ∈ v, comp a a = false) ∧
  (∀ a ∈ v, ∀ b ∈ v, ∀ c ∈ v, comp a b = true → comp b c = true → comp a c = true) ∧
  (∀ a ∈ v, ∀ b ∈ v, ∀ c ∈ v, comp a b = false → comp b a = false →
    comp b c = false → comp c b = false → comp a c = false ∧ comp c a = false)

/-- The contract of `std::partial_sort` in the standard. A `middle` past the
end of the vector is undefined. With `middle` inside the vector and a strict
weak ordering, the call returns a rearrangement of the vector whose first
`middle` places are in the order of `comp` and hold elements that no other
element precedes. The order of equivalent elements and of the places from
`middle` on is left open, as is the result for another comparator. -/
structure PartialSort (psort : PartialSortFn) : Prop where
  past_end : ∀ (α : Type) (comp : α → α → Bool) (middle : Nat) (v : List α),
    v.length < middle → psort α comp middle v = none
  sorts : ∀ (α : Type) (comp : α → α → Bool) (middle : Nat) (v : List α),
    middle ≤ v.length → StrictWeakOn comp v →
    ∃ r, psort α comp middle v = some r ∧ r.Perm v ∧
      (r.take middle).Pairwise (fun a b => comp b a = false) ∧
      ∀ a ∈ r.take middle, ∀ b ∈ r.drop middle, comp b a = false

/-- Insertion of `x` behind the elements that `comp` orders before it. -/
def sortedInsert {α : Type} (comp : α → α → Bool) (x : α) : List α → List α
  | [] => [x]
  | y :: ys => if comp y x then y :: sortedInsert comp x ys else x :: y :: ys

/-- The range fully ordered by `comp`. -/
def sortAll {α : Type} (comp : α → α → Bool) : List α → List α
  | [] => []
  | x :: xs => sortedInsert comp x (sortAll comp xs)

/-- One function that meets the contract `PartialSort`: it orders the whole
vector by insertion and keeps equivalent elements in their order. The
function of a C++ library may order equivalent elements, and the places from
`middle` on, differently. -/
def stablePartialSort : PartialSortFn :=
  fun _ comp middle v => if middle ≤ v.length then some (sortAll comp v) else none

/-! ## collections.cpp: TextCollection::docInfo -/

section DocInfo

variable {F : Type} [LinearOrderedField F]

/-- What `TextCollection::docInfo` prints: for each keyword shown its word
and, per posting, the document and the positions of the word in it; then the
number of unique keywords of the document and its norm. -/
structure DocReport (F : Type) where
  keywords : List (Str × List (Nat × List Nat))
  nunique : Nat
  norm : Fl F

/-- The innermost loop of `docInfo`, over the posting list of `word`: a
document without the word is skipped, and `vec[0]` of an empty position
vector is undefined. -/
def docInfoPostings (documents : List Document) (word : Str) (plist : PostingList) :
    Option (List (Nat × List Nat)) :=
  plist.foldlM
    (fun shown posting =>
      (documents[posting.1]?).bind (fun doc =>
        match doc.terms.find word with
        | none => some shown
        | some [] => none
        | some (p :: ps) => some (shown ++ [(posting.1, p :: ps)])))
    []

/-- The body of the keyword loop of `docInfo` for the pair `*it`: a word
missing from the dictionary is skipped. -/
def docInfoKeyword (tc : TextCollection F) (shown : List (Str × List (Nat × List Nat)))
    (pair : Str × Fl F) : Option (List (Str × List (Nat × List Nat))) :=
  match tc.dictionary.find pair.1 with
  | none => some shown
  | some index =>
    (tc.plists[index]?).bind (fun plist =>
      (docInfoPostings tc.documents pair.1 plist).map (fun ps => shown ++ [(pair.1, ps)]))

/-- The method `TextCollection::docInfo(did, nkws)`, given the library's
`std::partial_sort` as `psort`. The vector `pairs` is partially sorted up to
`nkws`, and the keyword loop runs over `pairs.begin() .. pairs.begin() + 5`. -/
def TextCollection.docInfo (psort : PartialSortFn) (tc : TextCollection F) (did nkws : Nat) :
    Option (DocReport F) :=
  (tc.weights[did]?).bind (fun dw =>
    let pairs : List (Str × Fl F) := dw
    (psort (Str × Fl F) (fun (p1 p2 : Str × Fl F) => Fl.gt p1.2 p2.2) nkws pairs).bind
      (fun pairs =>
    ((List.range 5).mapM (fun i => pairs[i]?)).bind (fun shown =>
    (shown.foldlM (docInfoKeyword tc) []).bind (fun keywords =>
    (tc.documents[did]?).bind (fun doc =>
    (tc.dnorms[did]?).map (fun dnorm =>
      { keywords := keywords, nunique := doc.terms.size, norm := dnorm }))))))

end DocInfo

/-! ## collections.cpp: TextCollection::search -/

section Search

variable {F : Type} [LinearOrderedField F]

/-- The alias `ScorePair` of `TextCollection::search`. -/
abbrev ScorePair (F : Type) := Nat × Fl F

/-- The body of the loop of `TextCollection::search` for one query, given the
library's `std::partial_sort` as `psort`: the `(did, score)` pairs that the
output loop reads from `simvec`, in order, each with the report that
`docInfo(did, nkws)` prints for it. Reading `simvec` at or past its end is
undefined. -/
def searchQuery (psort : PartialSortFn) (sq : F → F) (tc : TextCollection F)
    (nsorting nkws : Nat) (query : Query) : Option (List (ScorePair F × DocReport F)) :=
  (tc.similarity sq query []).bind (fun sim =>
    let simvec : List (ScorePair F) := sim
    (if nsorting ≠ 0 then
        psort (ScorePair F) (fun sp1 sp2 => Fl.gt sp1.2 sp2.2) nsorting simvec
      else some simvec).bind (fun simvec =>
      (List.range nsorting).mapM (fun i =>
        (simvec[i]?).bind (fun sp =>
          (tc.docInfo psort sp.1 nkws).map (fun report => (sp, report))))))

/-- The method `TextCollection::search(qc, nsorting, nkws)`: what is reported
for each query. -/
def TextCollection.search (psort : PartialSortFn) (sq : F → F) (tc : TextCollection F)
    (qc : List Query) (nsorting nkws : Nat) :
    Option (List (List (ScorePair F × DocReport F))) :=
  qc.mapM (searchQuery psort sq tc nsorting nkws)

end Search

/-! ## collections.cpp: QueryCollection -/

/-- The call `query.insert(word)` on a `std::set<std::string>`. -/
def Query.insert : Query → Str → Query
  | [], word => [word]
  | w :: ws, word =>
    if word < w then word :: w :: ws
    else if word = w then w :: ws
    else w :: Query.insert ws word

/-- One iteration of the do-while loop of `QueryCollection::QueryCollection`,
for the token `word`. -/
def Query.step (query : Query) (word : Str) : Query :=
  if word.length > 3 then query.insert (stripS word) else query

/-- The query built from one line of the query file. As in
`Document::Document`, a line without a token makes `std::string word(otoken)`
undefined. -/
def Query.ofLine (line : Str) : Option Query :=
  match strtokAll line with
  | [] => none
  | tokens => some (tokens.foldl Query.step [])

/-- The constructor `QueryCollection::QueryCollection`, from the lines that
`std::getline` yields. -/
def QueryCollection.new (lines : List Str) : Option (List Query) :=
  lines.mapM Query.ofLine

/-! ## Reference notions used by the statements -/

/-- The normalized forms of the accepted tokens of a token sequence, in token
order. -/
def acceptedTerms (stopwords : List Str) (tokens : List Str) : List Str :=
  (tokens.filter (accepted stopwords)).map stripS

/-- The distinct elements of `l` that are not in `seen`, appended to `seen` in
the order of their first occurrence. -/
def firstSeenFrom (seen : List Str) (l : List Str) : List Str :=
  l.foldl (fun acc x => if x ∈ acc then acc else acc ++ [x]) seen

/-- The distinct elements of `l` in the order of their first occurrence. -/
def firstSeen (l : List Str) : List Str := firstSeenFrom [] l

/-- The accepted terms of a corpus in document-then-token order. -/
def corpusTerms (stopwords : List Str) (paras : List Str) : List Str :=
  (paras.map (fun para => acceptedTerms stopwords (strtokAll para))).flatten

/-- A dictionary `dict` that numbers the terms of `L` by their place in `L`. -/
def DictRep (dict : Dictionary) (L : List Str) : Prop :=
  dict.WF ∧ dict.length = L.length ∧ ∀ t k, dict.find t = some k ↔ L[k]? = some t

/-- A term map `terms` that records the positions of the terms of `acc`. -/
def TermsRep (terms : TermList) (acc : List Str) : Prop :=
  terms.WF ∧
  (∀ t pos, terms.find t = some pos →
    pos ≠ [] ∧ pos.Pairwise (fun a b => a < b) ∧ ∀ p ∈ pos, p < acc.length) ∧
  (∀ t p, (∃ pos, terms.find t = some pos ∧ p ∈ pos) ↔ acc[p]? = some t) ∧
  (terms.flatMap Prod.snd).Perm (List.range acc.length)

/-- The largest position-list length of a document, 0 when it has no term. -/
def maxtf (doc : Document) : Nat := (doc.terms.map (fun t => t.2.length)).foldl max 0

section WeightsRef

variable {F : Type} [LinearOrderedField F]

/-- The value that `idfvec[dictionary[word]]` reads for a registered word. -/
def idfOf (idfvec : List (Fl F)) (dictionary : Dictionary) (word : Str) : Fl F :=
  (idfvec[(dictionary.find word).getD 0]?).getD Fl.nan

/-- The weight vector of one document by the formula `tf * idf / maxtf`, one
entry per entry of its term map. -/
def docWeights (idfvec : List (Fl F)) (dictionary : Dictionary) (doc : Document) :
    DocWeights F :=
  doc.terms.map (fun term =>
    (term.1, Fl.div (Fl.mul (Fl.ofNat term.2.length) (idfOf idfvec dictionary term.1))
      (Fl.ofNat (maxtf doc))))

/-- The weight vector of one document by the formula `tf * idf / maxtf` with
each operation rounded to `float`, one entry per entry of its term map. -/
def docWeightsR (r32 : F → Fl F) (idfvec : List (Fl F)) (dictionary : Dictionary)
    (doc : Document) : DocWeights F :=
  doc.terms.map (fun term =>
    (term.1, Fl.round r32 (Fl.div
      (Fl.round r32 (Fl.mul (r32 (term.2.length : F)) (idfOf idfvec dictionary term.1)))
      (r32 (maxtf doc : F)))))

end WeightsRef

section SimilarityRef

variable {F : Type} [LinearOrderedField F]

/-- The sum of a list of values, added left to right from zero. -/
def Fl.sum (l : List (Fl F)) : Fl F := l.foldl Fl.add (Fl.fin 0)

/-- The stored weight of `word` in document `did`. -/
def TextCollection.weight (tc : TextCollection F) (did : Nat) (word : Str) : Fl F :=
  ((tc.weights[did]?).bind (fun wv => wv.find word)).getD Fl.nan

/-- The stored norm of document `did`. -/
def TextCollection.norm (tc : TextCollection F) (did : Nat) : Fl F :=
  (tc.dnorms[did]?).getD Fl.nan

/-- The test that the term map of document `did` has the key `word`. -/
def TextCollection.hasTerm (tc : TextCollection F) (did : Nat) (word : Str) : Bool :=
  ((tc.documents[did]?).bind (fun doc => doc.terms.find word)).isSome

/-- The number of documents that contain `word`: the size of its posting
list, 0 for a word that is not in the dictionary. -/
def TextCollection.df (tc : TextCollection F) (word : Str) : Nat :=
  match tc.dictionary.find word with
  | none => 0
  | some index => ((tc.plists[index]?).map SMap.size).getD 0

/-- The contribution `weight(d,t) / (norm(d) * qnorm)` of one query term. -/
def TextCollection.contribution (tc : TextCollection F) (qnorm : Fl F) (did : Nat)
    (word : Str) : Fl F :=
  Fl.div (tc.weight did word) (Fl.mul (tc.norm did) qnorm)

/-- The unit-query cosine score in the words of the specification: no entry
for a document that has no term of the query, and otherwise the sum, over the
query terms present in the document, of `weight(d,t) / (norm(d) * sqrt |q|)`. -/
def cosineRef (sq : F → F) (tc : TextCollection F) (query : Query) (did : Nat) :
    Option (Fl F) :=
  if (query.filter (tc.hasTerm did)) = [] then none
  else some (Fl.sum ((query.filter (tc.hasTerm did)).map
    (tc.contribution (Fl.sqrt sq (Fl.ofNat query.length)) did)))

/-- The update `sim[did] += weight`, or `sim[did] = weight` for a new key. -/
def accum (o : Option (Fl F)) (c : Fl F) : Fl F :=
  match o with
  | some s => Fl.add s c
  | none => c

end SimilarityRef

/-! ## The scenario of the specification -/

/-- The two paragraphs of the scenario. -/
def sampleParas : List Str :=
  ["apple apple banana".toList, "banana cherry cherry".toList]

/-- The documents built from `sampleParas`. -/
def sampleDocs : List Document :=
  [{ terms := [("apple".toList, [0, 1]), ("banana".toList, [2])] },
   { terms := [("banana".toList, [0]), ("cherry".toList, [1, 2])] }]

/-- The dictionary built from `sampleParas`. -/
def sampleDict : Dictionary :=
  [("apple".toList, 0), ("banana".toList, 1), ("cherry".toList, 2)]

/-- The posting lists built from `sampleParas`. -/
def samplePlists : List PostingList := [[(0, 2)], [(0, 1), (1, 1)], [(1, 2)]]

/-- The one-paragraph collection in which every term occurs in every
document. -/
def commonParas : List Str := ["apple banana".toList]

/-- The documents built from `commonParas`. -/
def commonDocs : List Document :=
  [{ terms := [("apple".toList, [0]), ("banana".toList, [1])] }]

/-- The dictionary built from `commonParas`. -/
def commonDict : Dictionary := [("apple".toList, 0), ("banana".toList, 1)]

/-- The posting lists built from `commonParas`. -/
def commonPlists : List PostingList := [[(0, 1)], [(0, 1)]]

/-- A paragraph with six distinct terms. -/
def sixParas : List Str := ["alpha bravo charlie delta echo foxtrot".toList]

/-- The documents built from `sixParas`. -/
def sixDocs : List Document :=
  [{ terms := [("alpha".toList, [0]), ("bravo".toList, [1]), ("charlie".toList, [2]),
               ("delta".toList, [3]), ("echo".toList, [4]), ("foxtrot".toList, [5])] }]

/-- The dictionary built from `sixParas`. -/
def sixDict : Dictionary :=
  [("alpha".toList, 0), ("bravo".toList, 1), ("charlie".toList, 2), ("delta".toList, 3),
   ("echo".toList, 4), ("foxtrot".toList, 5)]

/-- The posting lists built from `sixParas`. -/
def sixPlists : List PostingList :=
  [[(0, 1)], [(0, 1)], [(0, 1)], [(0, 1)], [(0, 1)], [(0, 1)]]

/-- A collection whose first paragraph has tokens but no accepted term. -/
def shortParas : List Str := ["the cat".toList, "apple banana".toList]

/-- The documents built from `shortParas`. -/
def shortDocs : List Document :=
  [{ terms := [] }, { terms := [("apple".toList, [0]), ("banana".toList, [1])] }]

/-- Four paragraphs for the ranking: three of them share a term with the
query `sierra tango`. -/
def rankParas : List Str :=
  ["alpha bravo charlie delta tango".toList,
   "alpha bravo charlie delta tango sierra".toList,
   "alpha bravo charlie delta sierra victor".toList,
   "alpha bravo charlie delta".toList]

/-- The documents built from `rankParas`. -/
def rankDocs : List Document :=
  [{ terms := [("alpha".toList, [0]), ("bravo".toList, [1]), ("charlie".toList, [2]),
               ("delta".toList, [3]), ("tango".toList, [4])] },
   { terms := [("alpha".toList, [0]), ("bravo".toList, [1]), ("charlie".toList, [2]),
               ("delta".toList, [3]), ("sierra".toList, [5]), ("tango".toList, [4])] },
   { terms := [("alpha".toList, [0]), ("bravo".toList, [1]), ("charlie".toList, [2]),
               ("delta".toList, [3]), ("sierra".toList, [4]), ("victor".toList, [5])] },
   { terms := [("alpha".toList, [0]), ("bravo".toList, [1]), ("charlie".toList, [2]),
               ("delta".toList, [3])] }]

/-- The dictionary built from `rankParas`. -/
def rankDict : Dictionary :=
  [("alpha".toList, 0), ("bravo".toList, 1), ("charlie".toList, 2), ("delta".toList, 3),
   ("sierra".toList, 5), ("tango".toList, 4), ("victor".toList, 6)]

/-- The posting lists built from `rankParas`. -/
def rankPlists : List PostingList :=
  [[(0, 1), (1, 1), (2, 1), (3, 1)], [(0, 1), (1, 1), (2, 1), (3, 1)],
   [(0, 1), (1, 1), (2, 1), (3, 1)], [(0, 1), (1, 1), (2, 1), (3, 1)],
   [(0, 1), (1, 1)], [(1, 1), (2, 1)], [(2, 1)]]

/-- Two paragraphs in which the weight of `banana` is a third. -/
def thirdParas : List Str := ["apple apple apple banana".toList, "cherry".toList]

/-- The documents built from `thirdParas`. -/
def thirdDocs : List Document :=
  [{ terms := [("apple".toList, [0, 1, 2]), ("banana".toList, [3])] },
   { terms := [("cherry".toList, [0])] }]

/-- The dictionary built from `thirdParas`. -/
def thirdDict : Dictionary :=
  [("apple".toList, 0), ("banana".toList, 1), ("cherry".toList, 2)]

/-- The posting lists built from `thirdParas`. -/
def thirdPlists : List PostingList := [[(0, 3)], [(0, 1)], [(1, 1)]]

section Samples

variable {F : Type} [LinearOrderedField F]

/-- The collection the constructor builds from `sixParas`. -/
def sixCollection (lg sq : F → F) : TextCollection F :=
  { documents := sixDocs, dictionary := sixDict, plists := sixPlists,
    weights := sixDocs.map
      (docWeights (sixPlists.map (idf_calc lg sixDocs.length)) sixDict),
    dnorms := (sixDocs.map
      (docWeights (sixPlists.map (idf_calc lg sixDocs.length)) sixDict)).map
        (l2norm sq) }

/-- The collection the constructor builds from `sampleParas`. -/
def sampleCollection (lg sq : F → F) : TextCollection F :=
  { documents := sampleDocs, dictionary := sampleDict, plists := samplePlists,
    weights := sampleDocs.map
      (docWeights (samplePlists.map (idf_calc lg sampleDocs.length)) sampleDict),
    dnorms := (sampleDocs.map
      (docWeights (samplePlists.map (idf_calc lg sampleDocs.length)) sampleDict)).map
        (l2norm sq) }

/-- The collection the constructor builds from `commonParas`. -/
def commonCollection (lg sq : F → F) : TextCollection F :=
  { documents := commonDocs, dictionary := commonDict, plists := commonPlists,
    weights := commonDocs.map
      (docWeights (commonPlists.map (idf_calc lg commonDocs.length)) commonDict),
    dnorms := (commonDocs.map
      (docWeights (commonPlists.map (idf_calc lg commonDocs.length)) commonDict)).map
        (l2norm sq) }

/-- The collection the constructor builds from `rankParas`. -/
def rankCollection (lg sq : F → F) : TextCollection F :=
  { documents := rankDocs, dictionary := rankDict, plists := rankPlists,
    weights := rankDocs.map
      (docWeights (rankPlists.map (idf_calc lg rankDocs.length)) rankDict),
    dnorms := (rankDocs.map
      (docWeights (rankPlists.map (idf_calc lg rankDocs.length)) rankDict)).map
        (l2norm sq) }

end Samples

end Pasec

/-! ## Lemmas on maps -/

namespace Pasec
namespace SMap
variable {K V : Type}

theorem find_assign_self [LinearOrder K] (m : SMap K V) (k : K) (v : V) :
    (m.assign k v).find k = some v := by
  induction m with
  | nil => simp [assign, find]
  | cons p rest ih =>
    obtain ⟨k', v'⟩ := p
    simp only [assign]
    split_ifs with h1 h2
    · simp [find]
    · simp [find]
    · have : k' ≠ k := fun h => h2 h.symm
      simp [find, this, ih]

theorem find_assign_ne [LinearOrder K] (m : SMap K V) {k k2 : K} (v : V) (h : k2 ≠ k) :
    (m.assign k v).find k2 = m.find k2 := by
  induction m with
  | nil => simp [assign, find, h.symm]
  | cons p rest ih =>
    obtain ⟨k', v'⟩ := p
    simp only [assign]
    split_ifs with h1 h2
    · simp [find, h.symm]
    · subst h2
      simp [find, h.symm]
    · simp [find, ih]

theorem find_assign [LinearOrder K] (m : SMap K V) (k k2 : K) (v : V) :
    (m.assign k v).find k2 = if k2 = k then some v else m.find k2 := by
  split_ifs with h
  · subst h; exact find_assign_self m k2 v
  · exact find_assign_ne m v h

theorem mem_assign [LinearOrder K] (m : SMap K V) (k : K) (v : V) (p : K × V) :
    p ∈ m.assign k v → p = (k, v) ∨ p ∈ m := by
  induction m with
  | nil => simp [assign]
  | cons q rest ih =>
    obtain ⟨k', v'⟩ := q
    simp only [assign]
    split_ifs with h1 h2
    · intro h; simpa using h
    · intro h
      rcases List.mem_cons.1 h with h | h
      · exact Or.inl h
      · exact Or.inr (List.mem_cons_of_mem _ h)
    · intro h
      rcases List.mem_cons.1 h with h | h
      · exact Or.inr (h ▸ List.mem_cons_self _ _)
      · rcases ih h with h | h
        · exact Or.inl h
        · exact Or.inr (List.mem_cons_of_mem _ h)

theorem WF_assign [LinearOrder K] (m : SMap K V) (k : K) (v : V) (hm : m.WF) :
    (m.assign k v).WF := by
  induction m with
  | nil => simp [assign, WF]
  | cons q rest ih =>
    obtain ⟨k', v'⟩ := q
    unfold WF at hm ⊢
    rw [List.pairwise_cons] at hm
    simp only [assign]
    split_ifs with h1 h2
    · refine List.pairwise_cons.2 ⟨?_, List.pairwise_cons.2 hm⟩
      intro p hp
      rcases List.mem_cons.1 hp with hp | hp
      · subst hp; exact h1
      · exact lt_trans h1 (hm.1 p hp)
    · subst h2
      exact List.pairwise_cons.2 ⟨hm.1, hm.2⟩
    · refine List.pairwise_cons.2 ⟨?_, ih hm.2⟩
      intro p hp
      rcases mem_assign rest k v p hp with hp | hp
      · subst hp
        exact lt_of_le_of_ne (not_lt.1 h1) (fun h => h2 h.symm)
      · exact hm.1 p hp

theorem length_assign_of_none [LinearOrder K] (m : SMap K V) (k : K) (v : V)
    (h : m.find k = none) : (m.assign k v).length = m.length + 1 := by
  induction m with
  | nil => simp [assign]
  | cons q rest ih =>
    obtain ⟨k', v'⟩ := q
    simp only [find] at h
    split_ifs at h with h0
    simp only [assign]
    split_ifs with h1 h2
    · simp
    · exact absurd h2.symm h0
    · simp [ih h]

theorem mem_of_find [LinearOrder K] (m : SMap K V) {k : K} {v : V} (h : m.find k = some v) :
    (k, v) ∈ m := by
  induction m with
  | nil => simp [find] at h
  | cons q rest ih =>
    obtain ⟨k', v'⟩ := q
    simp only [find] at h
    split_ifs at h with h0
    · simp only [Option.some.injEq] at h
      subst h0 h
      exact List.mem_cons_self _ _
    · exact List.mem_cons_of_mem _ (ih h)

theorem find_of_mem [LinearOrder K] (m : SMap K V) (hm : m.WF) {k : K} {v : V}
    (h : (k, v) ∈ m) : m.find k = some v := by
  induction m with
  | nil => simp at h
  | cons q rest ih =>
    obtain ⟨k', v'⟩ := q
    unfold WF at hm
    rw [List.pairwise_cons] at hm
    rcases List.mem_cons.1 h with h | h
    · simp only [Prod.mk.injEq] at h
      simp [find, h.1, h.2]
    · have hlt := hm.1 _ h
      have : k' ≠ k := ne_of_lt hlt
      simp [find, this, ih hm.2 h]

theorem find_eq_none_iff [LinearOrder K] (m : SMap K V) (k : K) :
    m.find k = none ↔ k ∉ m.keys := by
  induction m with
  | nil => simp [find, keys]
  | cons q rest ih =>
    obtain ⟨k', v'⟩ := q
    simp only [find, keys, List.map_cons, List.mem_cons, not_or]
    split_ifs with h0
    · simp [h0]
    · rw [ih]
      simp only [keys]
      constructor
      · intro h; exact ⟨fun h' => h0 h'.symm, h⟩
      · intro h; exact h.2

theorem mem_keys_iff [LinearOrder K] (m : SMap K V) (k : K) :
    k ∈ m.keys ↔ ∃ v, m.find k = some v := by
  have h := find_eq_none_iff m k
  cases hf : m.find k with
  | none => simp [h.1 hf]
  | some v =>
    have : ¬ (k ∉ m.keys) := fun hn => by rw [h.2 hn] at hf; cases hf
    simp [not_not.1 this]

/-- Assigning a key above all present keys appends the entry. -/
theorem assign_append [LinearOrder K] (m : SMap K V) (k : K) (v : V)
    (h : ∀ p ∈ m, p.1 < k) : m.assign k v = m ++ [(k, v)] := by
  induction m with
  | nil => simp [assign]
  | cons q rest ih =>
    obtain ⟨k', v'⟩ := q
    have hk : k' < k := h (k', v') (List.mem_cons_self _ _)
    simp only [assign, not_lt_of_gt hk, if_false, (ne_of_lt hk).symm, List.cons_append]
    rw [ih (fun p hp => h p (List.mem_cons_of_mem _ hp))]

theorem WF_nil [LinearOrder K] : SMap.WF ([] : SMap K V) := List.Pairwise.nil

theorem emplace_eq_of_none [LinearOrder K] (m : SMap K V) (k : K) (v : V)
    (h : m.find k = none) : m.emplace k v = m.assign k v := by
  simp [emplace, h]

theorem emplace_eq_of_some [LinearOrder K] (m : SMap K V) (k : K) (v w : V)
    (h : m.find k = some w) : m.emplace k v = m := by
  simp [emplace, h]

theorem WF_emplace [LinearOrder K] (m : SMap K V) (k : K) (v : V) (hm : m.WF) :
    (m.emplace k v).WF := by
  unfold emplace
  split
  · exact hm
  · exact WF_assign m k v hm

end SMap
end Pasec

/-! ## The loop body of Document::Document -/

namespace Pasec

theorem SMap.assign_assign {K V : Type} [LinearOrder K] (m : SMap K V) (k : K) (v w : V) :
    (m.assign k v).assign k w = m.assign k w := by
  induction m with
  | nil => simp [SMap.assign]
  | cons q rest ih =>
    obtain ⟨k', v'⟩ := q
    simp only [SMap.assign]
    split_ifs with h1 h2
    · simp [SMap.assign]
    · simp [SMap.assign]
    · simp [SMap.assign, h1, h2, ih]

/-- The loop body on an accepted token, with the map operations resolved. -/
theorem Document.step_accepted (sw : List Str) (st : DocState) (word : Str)
    (h : accepted sw word = true) :
    Document.step sw st word =
      { dict := if st.dict.find (stripS word) = none
                then st.dict.assign (stripS word) st.dict.length else st.dict,
        terms := st.terms.assign (stripS word)
                  (((st.terms.find (stripS word)).getD []) ++ [st.word_count]),
        word_count := st.word_count + 1 } := by
  unfold Document.step
  rw [if_pos h]
  cases hd : st.dict.find (stripS word) <;> cases ht : st.terms.find (stripS word) <;>
    simp [SMap.count, SMap.size, hd, ht, SMap.emplace, SMap.index, SMap.find_assign_self,
      SMap.assign_assign]

theorem Document.step_rejected (sw : List Str) (st : DocState) (word : Str)
    (h : accepted sw word = false) : Document.step sw st word = st := by
  unfold Document.step
  simp [h]

theorem Document.ofTokens_append (sw : List Str) (toks : List Str) (w : Str) (dict : Dictionary) :
    Document.ofTokens sw (toks ++ [w]) dict =
      Document.step sw (Document.ofTokens sw toks dict) w := by
  simp [Document.ofTokens, List.foldl_append]

end Pasec

/-! ## Dictionary numbering -/

namespace Pasec

theorem SMap.find_none_of_lt {K V : Type} [LinearOrder K] (m : SMap K V) (k : K)
    (h : ∀ p ∈ m, k < p.1) : m.find k = none := by
  induction m with
  | nil => rfl
  | cons q rest ih =>
    obtain ⟨k', v'⟩ := q
    have h1 : k < k' := h (k', v') (List.mem_cons_self _ _)
    simp [SMap.find, (ne_of_lt h1).symm, ih (fun p hp => h p (List.mem_cons_of_mem _ hp))]

theorem SMap.perm_assign_append {K : Type} [LinearOrder K] (m : SMap K (List Nat)) (k : K)
    (x : List Nat) (hm : m.WF) :
    ((m.assign k ((m.find k).getD [] ++ x)).flatMap Prod.snd).Perm (m.flatMap Prod.snd ++ x) := by
  induction m with
  | nil => simp [SMap.assign, SMap.find]
  | cons q rest ih =>
    obtain ⟨k', v'⟩ := q
    unfold SMap.WF at hm
    rw [List.pairwise_cons] at hm
    simp only [SMap.assign]
    split_ifs with h1 h2
    · have hn : SMap.find ((k', v') :: rest) k = none := by
        apply SMap.find_none_of_lt
        intro p hp
        rcases List.mem_cons.1 hp with hp | hp
        · subst hp; exact h1
        · exact lt_trans h1 (hm.1 p hp)
      rw [hn]
      simp only [Option.getD_none, List.nil_append, List.flatMap_cons]
      exact List.perm_append_comm
    · subst h2
      simp [SMap.find, List.flatMap_cons]
      exact List.perm_append_comm.append_left _
    · have hne : k' ≠ k := fun h => h2 h.symm
      simp only [SMap.find, hne, if_false, List.flatMap_cons, List.append_assoc]
      exact (ih hm.2).append_left _

theorem acceptedTerms_append (sw : List Str) (toks : List Str) (w : Str) :
    acceptedTerms sw (toks ++ [w]) =
      acceptedTerms sw toks ++ (if accepted sw w then [stripS w] else []) := by
  unfold acceptedTerms
  rw [List.filter_append, List.map_append]
  cases h : accepted sw w <;> simp [List.filter, h]

theorem DictRep.init : DictRep [] [] := by
  refine ⟨SMap.WF_nil, rfl, ?_⟩
  intro t k
  simp [SMap.find]

theorem DictRep.mem_iff {dict : Dictionary} {L : List Str} (h : DictRep dict L) (t : Str) :
    t ∈ L ↔ dict.find t ≠ none := by
  constructor
  · intro ht
    obtain ⟨k, hk⟩ := List.getElem?_of_mem ht
    rw [(h.2.2 t k).2 hk]
    simp
  · intro ht
    cases hf : dict.find t with
    | none => exact absurd hf ht
    | some k => exact List.getElem?_mem ((h.2.2 t k).1 hf)

/-- Registering a term keeps the dictionary a numbering in first-seen order. -/
theorem DictRep.register {dict : Dictionary} {L : List Str} (h : DictRep dict L) (w : Str) :
    DictRep (if dict.find w = none then dict.assign w dict.length else dict)
      (if w ∈ L then L else L ++ [w]) := by
  by_cases hf : dict.find w = none
  · have hw : w ∉ L := fun hw => (h.mem_iff w).1 hw hf
    rw [if_pos hf, if_neg hw]
    refine ⟨SMap.WF_assign _ _ _ h.1, ?_, ?_⟩
    · rw [SMap.length_assign_of_none _ _ _ hf, h.2.1]; simp
    · intro t k
      rw [SMap.find_assign]
      by_cases htw : t = w
      · subst htw
        simp only [if_true, Option.some.injEq]
        rw [h.2.1]
        constructor
        · intro hk; subst hk; simp
        · intro hk
          rcases Nat.lt_trichotomy k L.length with hlt | heq | hgt
          · rw [List.getElem?_append_left hlt] at hk
            exact absurd (List.getElem?_mem hk) hw
          · exact heq.symm
          · rw [List.getElem?_eq_none (by simp; omega)] at hk
            cases hk
      · rw [if_neg htw, h.2.2 t k]
        constructor
        · intro hk
          have hlt : k < L.length := by
            by_contra hge
            rw [List.getElem?_eq_none (by omega)] at hk
            cases hk
          rw [List.getElem?_append_left hlt]; exact hk
        · intro hk
          rcases Nat.lt_trichotomy k L.length with hlt | heq | hgt
          · rw [List.getElem?_append_left hlt] at hk; exact hk
          · subst heq
            simp at hk
            exact absurd hk.symm htw
          · rw [List.getElem?_eq_none (by simp; omega)] at hk
            cases hk
  · have hw : w ∈ L := (h.mem_iff w).2 hf
    rw [if_neg hf, if_pos hw]
    exact h

end Pasec

/-! ## Term map and dictionary after the loop -/

namespace Pasec

theorem TermsRep.start : TermsRep [] [] := by
  refine ⟨SMap.WF_nil, ?_, ?_, ?_⟩
  · intro t pos h; simp [SMap.find] at h
  · intro t p; simp [SMap.find]
  · simp

/-- Recording the next position under `w` keeps the term map a record of the
positions of the accepted terms. -/
theorem TermsRep.record {terms : TermList} {acc : List Str} (h : TermsRep terms acc) (w : Str) :
    TermsRep (terms.assign w ((terms.find w).getD [] ++ [acc.length])) (acc ++ [w]) := by
  obtain ⟨hwf, hpos, hiff, hperm⟩ := h
  have hold : ∀ p, p ∈ (terms.find w).getD [] ↔ acc[p]? = some w := by
    intro p
    rw [← hiff w p]
    cases hf : terms.find w with
    | none => simp
    | some pos => simp
  refine ⟨SMap.WF_assign _ _ _ hwf, ?_, ?_, ?_⟩
  · intro t pos hf
    rw [SMap.find_assign] at hf
    by_cases htw : t = w
    · rw [if_pos htw] at hf
      simp only [Option.some.injEq] at hf
      subst hf
      refine ⟨by simp, ?_, ?_⟩
      · rw [List.pairwise_append]
        refine ⟨?_, List.pairwise_singleton _ _, ?_⟩
        · cases hf : terms.find w with
          | none => simp
          | some pos => exact (hpos w pos hf).2.1
        · intro a ha b hb
          simp only [List.mem_singleton] at hb
          subst hb
          cases hf : terms.find w with
          | none => rw [hf] at ha; simp at ha
          | some pos => rw [hf] at ha; exact (hpos w pos hf).2.2 a ha
      · intro p hp
        rw [List.mem_append] at hp
        rcases hp with hp | hp
        · cases hf : terms.find w with
          | none => rw [hf] at hp; simp at hp
          | some pos =>
            rw [hf] at hp
            have := (hpos w pos hf).2.2 p hp
            simp; omega
        · simp at hp; subst hp; simp
    · rw [if_neg htw] at hf
      obtain ⟨h1, h2, h3⟩ := hpos t pos hf
      exact ⟨h1, h2, fun p hp => by have := h3 p hp; simp; omega⟩
  · intro t p
    by_cases htw : t = w
    · subst htw
      simp only [SMap.find_assign_self, Option.some.injEq, exists_eq_left', List.mem_append,
        List.mem_singleton, hold]
      rcases Nat.lt_trichotomy p acc.length with hlt | heq | hgt
      · rw [List.getElem?_append_left hlt]
        constructor
        · rintro (h | h)
          · exact h
          · omega
        · intro h; exact Or.inl h
      · subst heq; simp
      · rw [List.getElem?_eq_none (by omega), List.getElem?_eq_none (by simp; omega)]
        simp; omega
    · simp only [SMap.find_assign, if_neg htw]
      rw [hiff t p]
      rcases Nat.lt_trichotomy p acc.length with hlt | heq | hgt
      · rw [List.getElem?_append_left hlt]
      · subst heq
        simp
        exact fun h => htw h.symm
      · rw [List.getElem?_eq_none (by omega), List.getElem?_eq_none (by simp; omega)]
  · rw [List.length_append, List.length_singleton, List.range_succ]
    exact (SMap.perm_assign_append terms w [acc.length] hwf).trans (hperm.append_right _)

/-- The term map and the counter that the loop of `Document::Document` leaves
behind. -/
theorem Document.ofTokens_terms (sw : List Str) (tokens : List Str) (dict : Dictionary) :
    TermsRep (Document.ofTokens sw tokens dict).terms (acceptedTerms sw tokens) ∧
    (Document.ofTokens sw tokens dict).word_count = (acceptedTerms sw tokens).length := by
  induction tokens using List.reverseRecOn with
  | nil => exact ⟨TermsRep.start, rfl⟩
  | append_singleton toks w ih =>
    obtain ⟨ih2, ih3⟩ := ih
    rw [Document.ofTokens_append, acceptedTerms_append]
    cases ha : accepted sw w
    · rw [Document.step_rejected sw _ w ha]
      simpa using ⟨ih2, ih3⟩
    · rw [Document.step_accepted sw _ w ha]
      simp only [if_true, List.length_append, List.length_singleton]
      refine ⟨?_, by rw [ih3]⟩
      rw [ih3]
      exact ih2.record (stripS w)

/-- The dictionary that the loop of `Document::Document` leaves behind. -/
theorem Document.ofTokens_dict (sw : List Str) (tokens : List Str) (dict : Dictionary)
    (L : List Str) (hd : DictRep dict L) :
    DictRep (Document.ofTokens sw tokens dict).dict
      (firstSeenFrom L (acceptedTerms sw tokens)) := by
  induction tokens using List.reverseRecOn with
  | nil => exact hd
  | append_singleton toks w ih =>
    rw [Document.ofTokens_append, acceptedTerms_append]
    cases ha : accepted sw w
    · rw [Document.step_rejected sw _ w ha]
      simpa using ih
    · rw [Document.step_accepted sw _ w ha]
      simp only [if_true, firstSeenFrom, List.foldl_append, List.foldl_cons, List.foldl_nil]
      have := ih.register (stripS w)
      simpa [firstSeenFrom] using this

/-- An identifier, once given, survives every later iteration. -/
theorem Document.step_find (sw : List Str) (st : DocState) (w t : Str) (k : Nat)
    (h : st.dict.find t = some k) : (Document.step sw st w).dict.find t = some k := by
  cases ha : accepted sw w
  · rw [Document.step_rejected sw _ w ha]; exact h
  · rw [Document.step_accepted sw _ w ha]
    by_cases hf : st.dict.find (stripS w) = none
    · simp only [if_pos hf]
      rw [SMap.find_assign_ne]
      · exact h
      · intro htw; rw [htw, hf] at h; cases h
    · simp only [if_neg hf]; exact h

theorem Document.ofTokens_find (sw : List Str) (tokens : List Str) (dict : Dictionary)
    (t : Str) (k : Nat) (h : dict.find t = some k) :
    (Document.ofTokens sw tokens dict).dict.find t = some k := by
  induction tokens using List.reverseRecOn with
  | nil => exact h
  | append_singleton toks w ih =>
    rw [Document.ofTokens_append]
    exact Document.step_find sw _ w t k ih

end Pasec

/-! ## The loading loop -/

namespace Pasec

theorem mem_firstSeenFrom (L l : List Str) (t : Str) :
    t ∈ firstSeenFrom L l ↔ t ∈ L ∨ t ∈ l := by
  induction l generalizing L with
  | nil => simp [firstSeenFrom]
  | cons x xs ih =>
    have h : firstSeenFrom L (x :: xs) = firstSeenFrom (if x ∈ L then L else L ++ [x]) xs := rfl
    rw [h, ih]
    by_cases hx : x ∈ L
    · rw [if_pos hx]
      constructor
      · rintro (h | h)
        · exact Or.inl h
        · exact Or.inr (List.mem_cons_of_mem _ h)
      · rintro (h | h)
        · exact Or.inl h
        · rcases List.mem_cons.1 h with h | h
          · subst h; exact Or.inl hx
          · exact Or.inr h
    · rw [if_neg hx]
      simp only [List.mem_append, List.mem_singleton, List.mem_cons]
      tauto

theorem firstSeenFrom_append (L a b : List Str) :
    firstSeenFrom L (a ++ b) = firstSeenFrom (firstSeenFrom L a) b := by
  simp [firstSeenFrom, List.foldl_append]

theorem corpusTerms_append (sw : List Str) (ps : List Str) (p : Str) :
    corpusTerms sw (ps ++ [p]) = corpusTerms sw ps ++ acceptedTerms sw (strtokAll p) := by
  simp [corpusTerms]

theorem Document.new_eq_some (sw : List Str) (str : Str) (dict : Dictionary)
    (r : Document × Dictionary) (h : Document.new sw str dict = some r) :
    strtokAll str ≠ [] ∧ r.1.terms = (Document.ofTokens sw (strtokAll str) dict).terms ∧
      r.2 = (Document.ofTokens sw (strtokAll str) dict).dict := by
  unfold Document.new at h
  split at h
  · cases h
  · rename_i hne
    simp only [Option.some.injEq] at h
    subst h
    exact ⟨fun h0 => hne h0, rfl, rfl⟩

theorem Document.new_of_tokens (sw : List Str) (str : Str) (dict : Dictionary)
    (h : strtokAll str ≠ []) :
    Document.new sw str dict =
      some ({ terms := (Document.ofTokens sw (strtokAll str) dict).terms },
        (Document.ofTokens sw (strtokAll str) dict).dict) := by
  unfold Document.new
  split
  · rename_i h0; exact absurd h0 h
  · rfl

theorem loadDocuments_append (sw : List Str) (ps : List Str) (p : Str) :
    loadDocuments sw (ps ++ [p]) =
      (loadDocuments sw ps).bind (fun acc =>
        (Document.new sw p acc.2).map (fun r => (acc.1 ++ [r.1], r.2))) := by
  unfold loadDocuments
  rw [List.foldlM_append]
  cases h : List.foldlM (fun (acc : List Document × Dictionary) para =>
      (Document.new sw para acc.2).map (fun r => (acc.1 ++ [r.1], r.2))) ([], []) ps with
  | none => rfl
  | some acc =>
    simp only [Option.bind_eq_bind, Option.some_bind, List.foldlM_cons, List.foldlM_nil]
    cases Document.new sw p acc.2 <;> rfl

/-- What the loading loop establishes. -/
theorem loadDocuments_inv (sw : List Str) (paras : List Str) (docs : List Document)
    (dict : Dictionary) (h : loadDocuments sw paras = some (docs, dict)) :
    DictRep dict (firstSeen (corpusTerms sw paras)) ∧
    List.Forall₂ (fun para (d : Document) =>
      strtokAll para ≠ [] ∧ TermsRep d.terms (acceptedTerms sw (strtokAll para))) paras docs := by
  induction paras using List.reverseRecOn generalizing docs dict with
  | nil =>
    simp only [loadDocuments, List.foldlM_nil] at h
    cases h
    exact ⟨DictRep.init, List.Forall₂.nil⟩
  | append_singleton ps p ih =>
    rw [loadDocuments_append] at h
    cases h1 : loadDocuments sw ps with
    | none => rw [h1] at h; cases h
    | some acc =>
      obtain ⟨docs0, dict0⟩ := acc
      rw [h1] at h
      simp only [Option.some_bind] at h
      cases h2 : Document.new sw p dict0 with
      | none => rw [h2] at h; cases h
      | some r =>
        rw [h2] at h
        simp only [Option.map_some', Option.some.injEq, Prod.mk.injEq] at h
        obtain ⟨hdocs, hdict⟩ := h
        subst hdocs hdict
        obtain ⟨ihd, iht⟩ := ih docs0 dict0 h1
        obtain ⟨hne, hterms, hd⟩ := Document.new_eq_some sw p dict0 r h2
        have hinv1 := Document.ofTokens_dict sw (strtokAll p) dict0 _ ihd
        have hinv2 := Document.ofTokens_terms sw (strtokAll p) dict0
        refine ⟨?_, ?_⟩
        · rw [corpusTerms_append, firstSeen, firstSeenFrom_append, hd]
          exact hinv1
        · refine List.rel_append iht (List.Forall₂.cons ⟨hne, ?_⟩ List.Forall₂.nil)
          rw [hterms]
          exact hinv2.1

theorem TermsRep.find_ne_none_iff {terms : TermList} {acc : List Str} (h : TermsRep terms acc)
    (t : Str) : terms.find t ≠ none ↔ t ∈ acc := by
  constructor
  · intro hf
    cases hp : terms.find t with
    | none => exact absurd hp hf
    | some pos =>
      obtain ⟨hne, -, -⟩ := h.2.1 t pos hp
      obtain ⟨p, hmem⟩ := List.exists_mem_of_ne_nil pos hne
      exact List.getElem?_mem ((h.2.2.1 t p).1 ⟨pos, hp, hmem⟩)
  · intro ht
    obtain ⟨p, hp⟩ := List.getElem?_of_mem ht
    obtain ⟨pos, hpos, -⟩ := (h.2.2.1 t p).2 hp
    rw [hpos]; simp

end Pasec

/-! ## Claims on Document -/

namespace Pasec

theorem firstSeenFrom_nodup (L l : List Str) (h : L.Nodup) : (firstSeenFrom L l).Nodup := by
  induction l generalizing L with
  | nil => exact h
  | cons x xs ih =>
    have e : firstSeenFrom L (x :: xs) = firstSeenFrom (if x ∈ L then L else L ++ [x]) xs := rfl
    rw [e]
    apply ih
    by_cases hx : x ∈ L
    · rw [if_pos hx]; exact h
    · rw [if_neg hx]
      exact List.Nodup.append h (List.nodup_singleton x) (by simpa using hx)

theorem stripS_length (w : Str) (h : 3 < w.length) : 3 ≤ (stripS w).length := by
  unfold stripS
  split_ifs
  · rw [List.length_dropLast]; omega
  · omega

theorem mem_acceptedTerms (sw : List Str) (tokens : List Str) (k : Str) :
    k ∈ acceptedTerms sw tokens ↔ ∃ w ∈ tokens, accepted sw w = true ∧ stripS w = k := by
  simp [acceptedTerms, and_assoc]

theorem Document.ofTokens_dict_new (sw : List Str) (tokens : List Str) (dict : Dictionary)
    (k : Str) (h : (Document.ofTokens sw tokens dict).dict.find k ≠ none) :
    dict.find k ≠ none ∨ k ∈ acceptedTerms sw tokens := by
  induction tokens using List.reverseRecOn with
  | nil => exact Or.inl h
  | append_singleton toks w ih =>
    rw [Document.ofTokens_append] at h
    rw [acceptedTerms_append]
    cases ha : accepted sw w
    · rw [Document.step_rejected sw _ w ha] at h
      simpa using ih h
    · rw [Document.step_accepted sw _ w ha] at h
      by_cases hk : k = stripS w
      · right; simp [hk]
      · have h2 : (Document.ofTokens sw toks dict).dict.find k ≠ none := by
          by_cases hf : (Document.ofTokens sw toks dict).dict.find (stripS w) = none
          · simp only [if_pos hf] at h
            rw [SMap.find_assign_ne _ _ hk] at h
            exact h
          · simp only [if_neg hf] at h
            exact h
        rcases ih h2 with h3 | h3
        · exact Or.inl h3
        · right; simp [h3]

/-- C2: Term identifiers are dense and follow first-seen order. After the
loading loop has indexed the paragraphs from an empty dictionary, the term
with identifier `k` is the `k`-th (0-based) distinct accepted term in
document-then-token order; the identifiers are exactly `0 .. n-1`, each used
once; and constructing a further document keeps every identifier. -/
theorem termID_dense_first_seen (sw : List Str) (paras : List Str) (docs : List Document)
    (dict : Dictionary) (h : loadDocuments sw paras = some (docs, dict)) :
    (firstSeen (corpusTerms sw paras)).Nodup ∧
    (∀ t, t ∈ firstSeen (corpusTerms sw paras) ↔ t ∈ corpusTerms sw paras) ∧
    (∀ t k, dict.find t = some k ↔ (firstSeen (corpusTerms sw paras))[k]? = some t) ∧
    (∀ k, k < dict.size ↔ ∃ t, dict.find t = some k) ∧
    (∀ t1 t2 k, dict.find t1 = some k → dict.find t2 = some k → t1 = t2) ∧
    (∀ (para : Str) (r : Document × Dictionary), Document.new sw para dict = some r →
      ∀ t k, dict.find t = some k → r.2.find t = some k) := by
  obtain ⟨hrep, -⟩ := loadDocuments_inv sw paras docs dict h
  refine ⟨firstSeenFrom_nodup [] _ List.nodup_nil, ?_, hrep.2.2, ?_, ?_, ?_⟩
  · intro t
    simp [firstSeen, mem_firstSeenFrom]
  · intro k
    rw [SMap.size, hrep.2.1]
    constructor
    · intro hk
      exact ⟨_, (hrep.2.2 _ k).2 (List.getElem?_eq_getElem hk)⟩
    · rintro ⟨t, ht⟩
      have := (hrep.2.2 t k).1 ht
      by_contra hge
      rw [List.getElem?_eq_none (by omega)] at this
      cases this
  · intro t1 t2 k h1 h2
    have e1 := (hrep.2.2 t1 k).1 h1
    have e2 := (hrep.2.2 t2 k).1 h2
    rw [e1] at e2
    exact Option.some.inj e2
  · intro para r hr t k htk
    rw [(Document.new_eq_some sw para dict r hr).2.2]
    exact Document.ofTokens_find sw _ dict t k htk

theorem termID_dense_first_seen_witness :
    loadDocuments [] sampleParas = some (sampleDocs, sampleDict) ∧
    (firstSeen (corpusTerms [] sampleParas)).Nodup ∧
    (∀ t, t ∈ firstSeen (corpusTerms [] sampleParas) ↔ t ∈ corpusTerms [] sampleParas) ∧
    (∀ t k, sampleDict.find t = some k ↔ (firstSeen (corpusTerms [] sampleParas))[k]? = some t) ∧
    (∀ k, k < sampleDict.size ↔ ∃ t, sampleDict.find t = some k) ∧
    (∀ t1 t2 k, sampleDict.find t1 = some k → sampleDict.find t2 = some k → t1 = t2) ∧
    (∀ (para : Str) (r : Document × Dictionary), Document.new [] para sampleDict = some r →
      ∀ t k, sampleDict.find t = some k → r.2.find t = some k) :=
  ⟨by decide, termID_dense_first_seen [] sampleParas sampleDocs sampleDict (by decide)⟩

/-- C3: Position recording. For the document built from a token sequence with
`n` accepted tokens, the counter ends at `n`, the position lists together hold
each of `0 .. n-1` exactly once, each position list is strictly increasing,
position `p` is stored under the normalized form of the `p`-th accepted token,
and a token that is not accepted leaves the loop state (counter included)
unchanged. -/
theorem position_recording (sw : List Str) (tokens : List Str) (dict : Dictionary) :
    (Document.ofTokens sw tokens dict).word_count = (acceptedTerms sw tokens).length ∧
    ((Document.ofTokens sw tokens dict).terms.flatMap Prod.snd).Perm
      (List.range (acceptedTerms sw tokens).length) ∧
    (∀ t pos, (Document.ofTokens sw tokens dict).terms.find t = some pos →
      pos.Pairwise (fun a b => a < b)) ∧
    (∀ t p, (∃ pos, (Document.ofTokens sw tokens dict).terms.find t = some pos ∧ p ∈ pos) ↔
      (acceptedTerms sw tokens)[p]? = some t) ∧
    (∀ (st : DocState) (w : Str), accepted sw w = false → Document.step sw st w = st) := by
  obtain ⟨⟨-, hpos, hiff, hperm⟩, hwc⟩ := Document.ofTokens_terms sw tokens dict
  exact ⟨hwc, hperm, fun t pos h => (hpos t pos h).2.1, hiff,
    fun st w h => Document.step_rejected sw st w h⟩

/-- The token `bass` is stored under the key `bas` whatever the stopword list,
as long as `bass` is not a stopword. -/
theorem bass_terms (sw : List Str) (h : not_stopword sw "bass".toList = true) (dict : Dictionary) :
    (Document.ofTokens sw ["bass".toList] dict).terms = [("bas".toList, [0])] := by
  have ha : accepted sw "bass".toList = true := by
    simp only [accepted, Bool.and_eq_true, decide_eq_true_eq]
    exact ⟨by decide, h⟩
  simp only [Document.ofTokens, List.foldl_cons, List.foldl_nil]
  rw [Document.step_accepted sw _ _ ha]
  have hs : stripS "bass".toList = "bas".toList := by decide
  simp only [hs]
  rfl

/-- C4 (as claimed, refuted): the token `bass` has four characters and is
accepted, and the key stored for it is `bas`, of length three. -/
theorem term_length_filter_counterexample :
    accepted [] "bass".toList = true ∧
    (Document.ofTokens [] ["bass".toList] []).terms = [("bas".toList, [0])] ∧
    ¬ (∀ k ∈ (Document.ofTokens [] ["bass".toList] []).terms.keys, 3 < k.length) := by
  decide

/-- C4 (amended): every key of the term map, and every term the document adds
to the dictionary, is the normalized form of a token that is not a stopword
and whose length, measured before the trailing `s` is removed, is more than
three characters; after the removal at least three characters remain. -/
theorem term_length_filter (sw : List Str) (tokens : List Str) (dict : Dictionary) :
    (∀ k ∈ (Document.ofTokens sw tokens dict).terms.keys,
      ∃ w ∈ tokens, 3 < w.length ∧ not_stopword sw w = true ∧ k = stripS w ∧ 3 ≤ k.length) ∧
    (∀ k ∈ (Document.ofTokens sw tokens dict).dict.keys, k ∉ dict.keys →
      ∃ w ∈ tokens, 3 < w.length ∧ not_stopword sw w = true ∧ k = stripS w ∧ 3 ≤ k.length) := by
  have key : ∀ k, k ∈ acceptedTerms sw tokens →
      ∃ w ∈ tokens, 3 < w.length ∧ not_stopword sw w = true ∧ k = stripS w ∧ 3 ≤ k.length := by
    intro k hk
    obtain ⟨w, hw, ha, hs⟩ := (mem_acceptedTerms sw tokens k).1 hk
    simp only [accepted, Bool.and_eq_true, decide_eq_true_eq] at ha
    exact ⟨w, hw, ha.1, ha.2, hs.symm, hs ▸ stripS_length w ha.1⟩
  constructor
  · intro k hk
    apply key
    obtain ⟨v, hv⟩ := (SMap.mem_keys_iff _ k).1 hk
    exact ((Document.ofTokens_terms sw tokens dict).1.find_ne_none_iff k).1 (by rw [hv]; simp)
  · intro k hk hnk
    apply key
    obtain ⟨v, hv⟩ := (SMap.mem_keys_iff _ k).1 hk
    rcases Document.ofTokens_dict_new sw tokens dict k (by rw [hv]; simp) with h | h
    · exact absurd ((SMap.find_eq_none_iff dict k).2 hnk) h
    · exact h

end Pasec

/-! ## invDoc -/

namespace Pasec

theorem plistsAssign_eq (plists : List PostingList) (index j v : Nat) (pl : PostingList)
    (h : plists[index]? = some pl) :
    plistsAssign plists index j v = some (plists.set index (pl.assign j v)) := by
  simp [plistsAssign, h]

/-- The inner loop of `invDoc`, run over the first `n` documents on a posting
list that starts empty. -/
theorem invDocTerm_range (documents : List Document) (str : Str) (index : Nat)
    (plists : List PostingList) (h0 : plists[index]? = some [])
    (n : Nat) (hn : n ≤ documents.length) :
    ∃ plists2 pl, (List.range n).foldlM
        (fun plists j =>
          (documents[j]?).bind (fun doc =>
            match doc.terms.find str with
            | some positions => plistsAssign plists index j positions.length
            | none => some plists))
        plists = some plists2 ∧
      plists2.length = plists.length ∧ plists2[index]? = some pl ∧
      (∀ i, i ≠ index → plists2[i]? = plists[i]?) ∧ pl.WF ∧
      ∀ j, pl.find j = if j < n then
        (documents[j]?).bind (fun doc => (doc.terms.find str).map List.length) else none := by
  induction n with
  | zero =>
    exact ⟨plists, [], rfl, rfl, h0, fun _ _ => rfl, SMap.WF_nil, fun j => by simp [SMap.find]⟩
  | succ n ih =>
    obtain ⟨plists1, pl1, hrun, hlen, hidx, hoth, hwf, hfind⟩ := ih (by omega)
    have hlt : n < documents.length := by omega
    rw [List.range_succ, List.foldlM_append, hrun]
    simp only [Option.bind_eq_bind, Option.some_bind, List.foldlM_cons, List.foldlM_nil,
      List.getElem?_eq_getElem hlt]
    cases hf : (documents[n]).terms.find str with
    | none =>
      refine ⟨plists1, pl1, by simp, hlen, hidx, hoth, hwf, ?_⟩
      intro j
      rw [hfind j]
      by_cases hj : j < n
      · simp [hj, Nat.lt_succ_of_lt hj]
      · by_cases hjn : j = n
        · subst hjn
          simp [List.getElem?_eq_getElem hlt, hf]
        · have : ¬ j < n + 1 := by omega
          simp [hj, this]
    | some pos =>
      have hidx_lt : index < plists1.length := by
        by_contra hge
        rw [List.getElem?_eq_none (by omega)] at hidx
        cases hidx
      refine ⟨plists1.set index (pl1.assign n pos.length), pl1.assign n pos.length, ?_, ?_, ?_,
        ?_, SMap.WF_assign _ _ _ hwf, ?_⟩
      · simp [plistsAssign_eq plists1 index n pos.length pl1 hidx]
      · simp [hlen]
      · simp [hidx_lt]
      · intro i hi
        rw [List.getElem?_set_ne (fun h => hi h.symm)]
        exact hoth i hi
      · intro j
        rw [SMap.find_assign, hfind j]
        by_cases hjn : j = n
        · subst hjn
          simp [List.getElem?_eq_getElem hlt, hf]
        · rw [if_neg hjn]
          by_cases hj : j < n
          · simp [hj, Nat.lt_succ_of_lt hj]
          · have : ¬ j < n + 1 := by omega
            simp [hj, this]

theorem invDocTerm_spec (documents : List Document) (str : Str) (index : Nat)
    (plists : List PostingList) (h0 : plists[index]? = some []) :
    ∃ plists2 pl, invDocTerm documents str index plists = some plists2 ∧
      plists2.length = plists.length ∧ plists2[index]? = some pl ∧
      (∀ i, i ≠ index → plists2[i]? = plists[i]?) ∧ pl.WF ∧
      ∀ j, pl.find j =
        (documents[j]?).bind (fun doc => (doc.terms.find str).map List.length) := by
  obtain ⟨plists2, pl, h1, h2, h3, h4, h5, h6⟩ :=
    invDocTerm_range documents str index plists h0 documents.length (le_refl _)
  refine ⟨plists2, pl, h1, h2, h3, h4, h5, ?_⟩
  intro j
  rw [h6 j]
  by_cases hj : j < documents.length
  · simp [hj]
  · simp [hj, List.getElem?_eq_none (not_lt.1 hj)]

/-- The outer loop of `invDoc` over dictionary entries with distinct
identifiers whose posting lists start empty. -/
theorem invDoc_entries (documents : List Document) (E : List (Str × Nat)) :
    ∀ (plists : List PostingList), E.Pairwise (fun a b => a.2 ≠ b.2) →
      (∀ e ∈ E, plists[e.2]? = some []) →
      ∃ plists2, E.foldlM (fun plists term => invDocTerm documents term.1 term.2 plists) plists
          = some plists2 ∧
        plists2.length = plists.length ∧
        (∀ e ∈ E, ∃ pl, plists2[e.2]? = some pl ∧ pl.WF ∧ ∀ j, pl.find j =
          (documents[j]?).bind (fun doc => (doc.terms.find e.1).map List.length)) ∧
        (∀ i, (∀ e ∈ E, e.2 ≠ i) → plists2[i]? = plists[i]?) := by
  induction E with
  | nil =>
    intro plists _ _
    exact ⟨plists, rfl, rfl, fun e he => by simp at he, fun _ _ => rfl⟩
  | cons e es ih =>
    intro plists hpw h0
    rw [List.pairwise_cons] at hpw
    obtain ⟨plists1, pl, h1, h2, h3, h4, h5, h6⟩ :=
      invDocTerm_spec documents e.1 e.2 plists (h0 e (List.mem_cons_self _ _))
    obtain ⟨plists2, g1, g2, g3, g4⟩ := ih plists1 hpw.2 (by
      intro e2 he2
      rw [h4 _ (fun h => hpw.1 e2 he2 h.symm)]
      exact h0 e2 (List.mem_cons_of_mem _ he2))
    refine ⟨plists2, ?_, by rw [g2, h2], ?_, ?_⟩
    · simp only [List.foldlM_cons, h1, Option.bind_eq_bind, Option.some_bind]
      exact g1
    · intro e2 he2
      rcases List.mem_cons.1 he2 with he2 | he2
      · subst he2
        refine ⟨pl, ?_, h5, h6⟩
        rw [g4 _ (fun e3 he3 => (hpw.1 e3 he3).symm)]
        exact h3
      · exact g3 e2 he2
    · intro i hi
      rw [g4 i (fun e2 he2 => hi e2 (List.mem_cons_of_mem _ he2))]
      exact h4 i (fun h => hi e (List.mem_cons_self _ _) h.symm)

theorem DictRep.find_lt {dict : Dictionary} {L : List Str} (h : DictRep dict L) {t : Str}
    {k : Nat} (hf : dict.find t = some k) : k < dict.length := by
  have := (h.2.2 t k).1 hf
  rw [h.2.1]
  by_contra hge
  rw [List.getElem?_eq_none (by omega)] at this
  cases this

theorem DictRep.pairwise_ids {dict : Dictionary} {L : List Str} (h : DictRep dict L) :
    dict.Pairwise (fun a b => a.2 ≠ b.2) := by
  have hwf : dict.Pairwise (fun a b => a.1 < b.1) := h.1
  refine List.Pairwise.imp_of_mem ?_ hwf
  intro a b ha hb hlt heq
  have fa := SMap.find_of_mem dict h.1 (k := a.1) (v := a.2) ha
  have fb := SMap.find_of_mem dict h.1 (k := b.1) (v := b.2) hb
  have ea := (h.2.2 _ _).1 fa
  have eb := (h.2.2 _ _).1 fb
  rw [heq, eb] at ea
  exact absurd (Option.some.inj ea) (ne_of_gt hlt)

/-- The posting lists `invDoc` builds from a dictionary that numbers its
terms. -/
theorem invDoc_spec (documents : List Document) (dict : Dictionary) (L : List Str)
    (h : DictRep dict L) :
    ∃ plists, invDoc documents dict = some plists ∧ plists.length = dict.size ∧
      ∀ t i, dict.find t = some i → ∃ pl, plists[i]? = some pl ∧ pl.WF ∧
        ∀ j, pl.find j = (documents[j]?).bind (fun doc => (doc.terms.find t).map List.length) := by
  obtain ⟨plists, h1, h2, h3, -⟩ := invDoc_entries documents dict
    (List.replicate dict.size []) h.pairwise_ids (by
      intro e he
      have := h.find_lt (SMap.find_of_mem dict h.1 (k := e.1) (v := e.2) he)
      rw [List.getElem?_replicate]
      simp [SMap.size, this])
  refine ⟨plists, h1, by simpa using h2, ?_⟩
  intro t i hti
  exact h3 (t, i) (SMap.mem_of_find dict hti)

end Pasec

/-! ## maxTermVal -/

namespace Pasec

/-- Emplacing the entries of a sorted list, in order, behind smaller keys
appends them. -/
theorem SMap.foldl_emplace_append {K V W : Type} [LinearOrder K] (f : K × V → W)
    (T : List (K × V)) : ∀ (m0 : SMap K W), T.Pairwise (fun a b => a.1 < b.1) →
      (∀ p ∈ m0, ∀ t ∈ T, p.1 < t.1) →
      T.foldl (fun m t => m.emplace t.1 (f t)) m0 = m0 ++ T.map (fun t => (t.1, f t)) := by
  induction T with
  | nil => intro m0 _ _; simp
  | cons t ts ih =>
    intro m0 hpw hlt
    rw [List.pairwise_cons] at hpw
    have hnone : m0.find t.1 = none := by
      rw [SMap.find_eq_none_iff]
      intro hmem
      obtain ⟨p, hp, hpk⟩ := List.mem_map.1 hmem
      have := hlt p hp t (List.mem_cons_self _ _)
      rw [hpk] at this
      exact lt_irrefl _ this
    have happ : m0.emplace t.1 (f t) = m0 ++ [(t.1, f t)] := by
      rw [SMap.emplace_eq_of_none _ _ _ hnone]
      exact SMap.assign_append _ _ _ (fun p hp => hlt p hp t (List.mem_cons_self _ _))
    rw [List.foldl_cons, happ, ih _ hpw.2]
    · simp
    · intro p hp t2 ht2
      rcases List.mem_append.1 hp with hp | hp
      · exact hlt p hp t2 (List.mem_cons_of_mem _ ht2)
      · simp only [List.mem_singleton] at hp
        subst hp
        exact hpw.1 t2 ht2

theorem SMap.foldl_emplace_eq_map {K V W : Type} [LinearOrder K] (f : K × V → W)
    (T : SMap K V) (h : T.WF) :
    T.foldl (fun (m : SMap K W) t => m.emplace t.1 (f t)) ([] : SMap K W) =
      T.map (fun t => (t.1, f t)) := by
  have := SMap.foldl_emplace_append f T [] h (by simp)
  simpa using this

theorem max_element_foldl (xs : List (Str × Nat)) : ∀ (x : Str × Nat),
    (xs.foldl (fun largest y => if decide (largest.2 < y.2) then y else largest) x).2 =
      (xs.map Prod.snd).foldl max x.2 := by
  induction xs with
  | nil => intro x; rfl
  | cons y ys ih =>
    intro x
    rw [List.foldl_cons, ih, List.map_cons, List.foldl_cons]
    congr 1
    by_cases h : x.2 < y.2
    · simp [h, max_eq_right (le_of_lt h)]
    · simp [h, max_eq_left (not_lt.1 h)]

theorem Document.maxTermVal_eq (doc : Document) (hwf : doc.terms.WF) (hne : doc.terms ≠ []) :
    doc.maxTermVal = some (maxtf doc) := by
  unfold Document.maxTermVal maxtf
  simp only
  rw [SMap.foldl_emplace_eq_map (fun t : Str × List Nat => t.2.length) doc.terms hwf]
  cases hterms : doc.terms with
  | nil => exact absurd hterms hne
  | cons t ts =>
    simp only [List.map_cons, max_element, Option.map_some', Option.some.injEq]
    rw [max_element_foldl]
    simp [List.map_map, Function.comp_def]

theorem Document.maxTermVal_nil (doc : Document) (h : doc.terms = []) :
    doc.maxTermVal = none := by
  simp [Document.maxTermVal, h, max_element]

theorem le_foldl_max (l : List Nat) : ∀ (a x : Nat), x = a ∨ x ∈ l → x ≤ l.foldl max a := by
  induction l with
  | nil => intro a x h; rcases h with h | h; exact le_of_eq h; simp at h
  | cons y ys ih =>
    intro a x h
    rw [List.foldl_cons]
    rcases h with h | h
    · have := ih (max a y) (max a y) (Or.inl rfl)
      exact le_trans (h ▸ le_max_left a y) this
    · rcases List.mem_cons.1 h with h | h
      · have := ih (max a y) (max a y) (Or.inl rfl)
        exact le_trans (h ▸ le_max_right a y) this
      · exact ih _ x (Or.inr h)

theorem length_le_maxtf (doc : Document) (t : Str) (pos : List Nat)
    (h : doc.terms.find t = some pos) : pos.length ≤ maxtf doc := by
  apply le_foldl_max
  right
  exact List.mem_map.2 ⟨(t, pos), SMap.mem_of_find _ h, rfl⟩

theorem mapM_eq_some_map {α β : Type} (f : α → Option β) (g : α → β) (l : List α)
    (h : ∀ a ∈ l, f a = some (g a)) : l.mapM f = some (l.map g) := by
  induction l with
  | nil => rfl
  | cons a as ih =>
    rw [List.mapM_cons, h a (List.mem_cons_self _ _),
      ih (fun b hb => h b (List.mem_cons_of_mem _ hb))]
    rfl

end Pasec

/-! ## dwCalc and l2norms -/

namespace Pasec

variable {F : Type} [LinearOrderedField F]

theorem dwCalcTerm_eq (idfvec : List (Fl F)) (mval : Fl F) (w : DocWeights F)
    (dict : Dictionary) (term : Str × List Nat) (id : Nat)
    (h1 : dict.find term.1 = some id) (h2 : id < idfvec.length) :
    dwCalcTerm idfvec mval (w, dict) term =
      some (w.emplace term.1
        (Fl.div (Fl.mul (Fl.ofNat term.2.length) (idfOf idfvec dict term.1)) mval), dict) := by
  simp [dwCalcTerm, SMap.index, h1, idfOf, List.getElem?_eq_getElem h2]

theorem dwCalcTerm_foldlM (idfvec : List (Fl F)) (mval : Fl F) (dict : Dictionary)
    (T : List (Str × List Nat)) : ∀ (w0 : DocWeights F),
      (∀ t ∈ T, ∃ id, dict.find t.1 = some id ∧ id < idfvec.length) →
      T.foldlM (dwCalcTerm idfvec mval) (w0, dict) =
        some (T.foldl (fun (m : DocWeights F) t => m.emplace t.1
          (Fl.div (Fl.mul (Fl.ofNat t.2.length) (idfOf idfvec dict t.1)) mval)) w0, dict) := by
  induction T with
  | nil => intro w0 _; rfl
  | cons t ts ih =>
    intro w0 h
    obtain ⟨id, h1, h2⟩ := h t (List.mem_cons_self _ _)
    rw [List.foldlM_cons, dwCalcTerm_eq idfvec mval w0 dict t id h1 h2]
    simp only [Option.bind_eq_bind, Option.some_bind, List.foldl_cons]
    exact ih _ (fun t2 ht2 => h t2 (List.mem_cons_of_mem _ ht2))

/-- The main loop of `dwCalc` over the first `n` documents. -/
theorem dwCalc_range (idfvec : List (Fl F)) (documents : List Document) (dict : Dictionary)
    (hdict : ∀ doc ∈ documents, ∀ term ∈ doc.terms,
      ∃ id, dict.find term.1 = some id ∧ id < idfvec.length)
    (hwf : ∀ doc ∈ documents, doc.terms.WF) (n : Nat) (hn : n ≤ documents.length) :
    ∃ ws : List (DocWeights F),
      (List.range n).foldlM
        (fun (acc : List (DocWeights F) × Dictionary) i =>
          (documents[i]?).bind (fun doc =>
          ((documents.map (fun d => (Fl.ofNat (maxtf d) : Fl F)))[i]?).bind (fun mval =>
          (acc.1[i]?).bind (fun wi =>
            (doc.terms.foldlM (dwCalcTerm idfvec mval) (wi, acc.2)).map
              (fun r => (acc.1.set i r.1, r.2))))))
        (List.replicate documents.length [], dict) = some (ws, dict) ∧
      ws.length = documents.length ∧
      ∀ i, ws[i]? = if i < n then (documents[i]?).map (docWeights idfvec dict)
        else if i < documents.length then some [] else none := by
  induction n with
  | zero =>
    refine ⟨List.replicate documents.length [], rfl, by simp, ?_⟩
    intro i
    simp [List.getElem?_replicate]
  | succ n ih =>
    obtain ⟨ws, hrun, hlen, hget⟩ := ih (by omega)
    have hlt : n < documents.length := by omega
    have hmem : documents[n] ∈ documents := List.getElem_mem hlt
    have hwn : ws[n]? = some [] := by rw [hget n]; simp [hlt]
    rw [List.range_succ, List.foldlM_append, hrun]
    simp only [Option.bind_eq_bind, Option.some_bind, List.foldlM_cons, List.foldlM_nil,
      List.getElem?_eq_getElem hlt, List.getElem?_map, Option.map_some', hwn]
    rw [dwCalcTerm_foldlM idfvec _ dict _ [] (hdict _ hmem),
      SMap.foldl_emplace_eq_map _ _ (hwf _ hmem)]
    refine ⟨ws.set n (docWeights idfvec dict documents[n]), by simp [docWeights], by simp [hlen], ?_⟩
    intro i
    by_cases hin : i = n
    · subst hin
      simp [hlen, hlt, List.getElem?_eq_getElem hlt]
    · rw [List.getElem?_set_ne (fun h => hin h.symm), hget i]
      by_cases hi : i < n
      · simp [hi, Nat.lt_succ_of_lt hi]
      · have : ¬ i < n + 1 := by omega
        simp [hi, this]

/-- The weight vectors `dwCalc` builds when every document has a term and
every term is registered. -/
theorem dwCalc_spec (lg : F → F) (documents : List Document) (dict : Dictionary)
    (plists : List PostingList)
    (hdict : ∀ doc ∈ documents, ∀ term ∈ doc.terms,
      ∃ id, dict.find term.1 = some id ∧ id < plists.length)
    (hwf : ∀ doc ∈ documents, doc.terms.WF) (hne : ∀ doc ∈ documents, doc.terms ≠ []) :
    dwCalc lg documents dict plists =
      some (documents.map (docWeights (plists.map (idf_calc lg documents.length)) dict), dict) := by
  unfold dwCalc
  simp only
  rw [mapM_eq_some_map _ (fun d => (Fl.ofNat (maxtf d) : Fl F)) documents (by
    intro d hd
    rw [Document.maxTermVal_eq d (hwf d hd) (hne d hd)]
    rfl)]
  obtain ⟨ws, hrun, hlen, hget⟩ := dwCalc_range (plists.map (idf_calc lg documents.length))
    documents dict (by simpa using hdict) hwf documents.length (le_refl _)
  simp only [Option.some_bind]
  rw [hrun]
  congr 2
  apply List.ext_getElem?
  intro i
  rw [hget i, List.getElem?_map]
  by_cases hi : i < documents.length
  · simp [hi]
  · simp [hi, List.getElem?_eq_none (not_lt.1 hi)]

theorem dwCalc_none (lg : F → F) (documents : List Document) (dict : Dictionary)
    (plists : List PostingList) (doc : Document) (hd : doc ∈ documents)
    (hnil : doc.terms = []) : dwCalc lg documents dict plists = none := by
  unfold dwCalc
  simp only
  have : documents.mapM (fun (doc : Document) =>
      doc.maxTermVal.map (fun m => (Fl.ofNat m : Fl F))) = none := by
    induction documents with
    | nil => simp at hd
    | cons d ds ih =>
      rw [List.mapM_cons]
      rcases List.mem_cons.1 hd with h | h
      · subst h
        rw [Document.maxTermVal_nil doc hnil]
        rfl
      · rw [ih h]
        cases (d.maxTermVal.map (fun m => (Fl.ofNat m : Fl F))) <;> rfl
  rw [this]
  rfl

theorem l2norms_spec (sq : F → F) (weights : List (DocWeights F)) :
    l2norms sq weights.length weights = some (weights.map (l2norm sq)) := by
  have key : ∀ n, n ≤ weights.length → ∃ ds : List (Fl F),
      (List.range n).foldlM
        (fun dnorms i => (weights[i]?).map (fun dw => dnorms.set i (l2norm sq dw)))
        (List.replicate weights.length (Fl.fin 0)) = some ds ∧
      ds.length = weights.length ∧
      ∀ i, ds[i]? = if i < n then (weights[i]?).map (l2norm sq)
        else if i < weights.length then some (Fl.fin 0) else none := by
    intro n
    induction n with
    | zero =>
      intro _
      exact ⟨_, rfl, by simp, fun i => by simp [List.getElem?_replicate]⟩
    | succ n ih =>
      intro hn
      obtain ⟨ds, hrun, hlen, hget⟩ := ih (by omega)
      have hlt : n < weights.length := by omega
      rw [List.range_succ, List.foldlM_append, hrun]
      simp only [Option.bind_eq_bind, Option.some_bind, List.foldlM_cons, List.foldlM_nil,
        List.getElem?_eq_getElem hlt, Option.map_some']
      refine ⟨_, rfl, by simp [hlen], ?_⟩
      intro i
      by_cases hin : i = n
      · subst hin
        simp [hlen, hlt, List.getElem?_eq_getElem hlt]
      · rw [List.getElem?_set_ne (fun h => hin h.symm), hget i]
        by_cases hi : i < n
        · simp [hi, Nat.lt_succ_of_lt hi]
        · have : ¬ i < n + 1 := by omega
          simp [hi, this]
  obtain ⟨ds, hrun, hlen, hget⟩ := key weights.length (le_refl _)
  unfold l2norms
  rw [hrun]
  congr 1
  apply List.ext_getElem?
  intro i
  rw [hget i, List.getElem?_map]
  by_cases hi : i < weights.length
  · simp [hi]
  · simp [hi, List.getElem?_eq_none (not_lt.1 hi)]

end Pasec

/-! ## The constructor -/

namespace Pasec

variable {F : Type} [LinearOrderedField F]

theorem mem_corpusTerms (sw : List Str) (paras : List Str) (t : Str) :
    t ∈ corpusTerms sw paras ↔ ∃ para ∈ paras, t ∈ acceptedTerms sw (strtokAll para) := by
  simp [corpusTerms]

theorem forall₂_mem_right {α β : Type} {R : α → β → Prop} {l1 : List α} {l2 : List β}
    (h : List.Forall₂ R l1 l2) : ∀ b ∈ l2, ∃ a ∈ l1, R a b := by
  induction h with
  | nil => intro b hb; simp at hb
  | cons hr _ ih =>
    intro b hb
    rcases List.mem_cons.1 hb with hb | hb
    · subst hb; exact ⟨_, List.mem_cons_self _ _, hr⟩
    · obtain ⟨a, ha, hab⟩ := ih b hb
      exact ⟨a, List.mem_cons_of_mem _ ha, hab⟩

/-- What the loaded documents and the dictionary have in common. -/
theorem loadDocuments_facts (sw : List Str) (paras : List Str) (docs : List Document)
    (dict : Dictionary) (h : loadDocuments sw paras = some (docs, dict)) :
    DictRep dict (firstSeen (corpusTerms sw paras)) ∧ docs.length = paras.length ∧
    ∀ d ∈ docs, d.terms.WF ∧ ∀ t pos, d.terms.find t = some pos →
      pos ≠ [] ∧ ∃ id, dict.find t = some id ∧ id < dict.length := by
  obtain ⟨hrep, hall⟩ := loadDocuments_inv sw paras docs dict h
  refine ⟨hrep, hall.length_eq.symm, ?_⟩
  intro d hd
  obtain ⟨para, hpara, -, hterms⟩ := forall₂_mem_right hall d hd
  refine ⟨hterms.1, ?_⟩
  intro t pos hf
  refine ⟨(hterms.2.1 t pos hf).1, ?_⟩
  have hacc : t ∈ acceptedTerms sw (strtokAll para) :=
    (hterms.find_ne_none_iff t).1 (by rw [hf]; simp)
  have hL : t ∈ firstSeen (corpusTerms sw paras) := by
    rw [firstSeen, mem_firstSeenFrom]
    exact Or.inr ((mem_corpusTerms sw paras t).2 ⟨para, hpara, hacc⟩)
  cases hid : dict.find t with
  | none => exact absurd hid ((hrep.mem_iff t).1 hL)
  | some id => exact ⟨id, rfl, hrep.find_lt hid⟩

/-- The constructor succeeds when every paragraph of a loadable collection
yields a term, and then stores what the three passes compute. -/
theorem TextCollection.new_of_loaded (lg sq : F → F) (sw : List Str) (paras : List Str)
    (docs : List Document) (dict : Dictionary) (plists : List PostingList)
    (h : loadDocuments sw paras = some (docs, dict))
    (hinv : invDoc docs dict = some plists)
    (hne : ∀ d ∈ docs, d.terms ≠ []) :
    TextCollection.new lg sq sw paras =
      some { documents := docs, dictionary := dict, plists := plists,
             weights := docs.map (docWeights (plists.map (idf_calc lg docs.length)) dict),
             dnorms := (docs.map (docWeights (plists.map (idf_calc lg docs.length)) dict)).map
               (l2norm sq) } := by
  obtain ⟨hrep, -, hdocs⟩ := loadDocuments_facts sw paras docs dict h
  obtain ⟨plists2, hp1, hp2, -⟩ := invDoc_spec docs dict _ hrep
  rw [hinv] at hp1
  cases hp1
  have hdw := dwCalc_spec lg docs dict plists (by
      intro d hd term hterm
      have hf := SMap.find_of_mem d.terms (hdocs d hd).1 (k := term.1) (v := term.2) hterm
      obtain ⟨-, id, hid, hlt⟩ := (hdocs d hd).2 term.1 term.2 hf
      exact ⟨id, hid, by rw [hp2]; exact hlt⟩)
    (fun d hd => (hdocs d hd).1) hne
  have hn := l2norms_spec sq (docs.map (docWeights (plists.map (idf_calc lg docs.length)) dict))
  rw [List.length_map] at hn
  simp [TextCollection.new, h, hinv, hdw, hn]

theorem TextCollection.new_none_of_empty (lg sq : F → F) (sw : List Str) (paras : List Str)
    (docs : List Document) (dict : Dictionary)
    (h : loadDocuments sw paras = some (docs, dict)) (d : Document) (hd : d ∈ docs)
    (hnil : d.terms = []) : TextCollection.new lg sq sw paras = none := by
  obtain ⟨hrep, -, -⟩ := loadDocuments_facts sw paras docs dict h
  obtain ⟨plists, hp1, -, -⟩ := invDoc_spec docs dict _ hrep
  simp [TextCollection.new, h, hp1, dwCalc_none lg docs dict plists d hd hnil]

/-- What a constructed collection stores. -/
theorem TextCollection.built_stores (lg sq : F → F) (sw : List Str) (paras : List Str)
    (tc : TextCollection F) (h : TextCollection.new lg sq sw paras = some tc) :
    loadDocuments sw paras = some (tc.documents, tc.dictionary) ∧
    invDoc tc.documents tc.dictionary = some tc.plists ∧
    (∀ d ∈ tc.documents, d.terms ≠ []) ∧
    tc.weights = tc.documents.map
      (docWeights (tc.plists.map (idf_calc lg tc.documents.length)) tc.dictionary) ∧
    tc.dnorms = tc.weights.map (l2norm sq) := by
  cases hl : loadDocuments sw paras with
  | none => simp [TextCollection.new, hl] at h
  | some ld =>
    obtain ⟨docs, dict⟩ := ld
    obtain ⟨hrep, -, -⟩ := loadDocuments_facts sw paras docs dict hl
    obtain ⟨plists, hp1, -, -⟩ := invDoc_spec docs dict _ hrep
    by_cases hne : ∀ d ∈ docs, d.terms ≠ []
    · rw [TextCollection.new_of_loaded lg sq sw paras docs dict plists hl hp1 hne] at h
      simp only [Option.some.injEq] at h
      subst h
      exact ⟨rfl, hp1, hne, rfl, rfl⟩
    · push_neg at hne
      obtain ⟨d, hd, hnil⟩ := hne
      rw [TextCollection.new_none_of_empty lg sq sw paras docs dict hl d hd hnil] at h
      cases h

theorem sampleCollection_built (lg sq : F → F) :
    TextCollection.new lg sq [] sampleParas = some (sampleCollection lg sq) :=
  TextCollection.new_of_loaded lg sq [] sampleParas sampleDocs sampleDict samplePlists
    (by decide) (by decide) (by decide)

theorem commonCollection_built (lg sq : F → F) :
    TextCollection.new lg sq [] commonParas = some (commonCollection lg sq) :=
  TextCollection.new_of_loaded lg sq [] commonParas commonDocs commonDict commonPlists
    (by decide) (by decide) (by decide)

end Pasec

/-! ## Lookups in a constructed collection -/

namespace Pasec

variable {F : Type} [LinearOrderedField F]

theorem Fl.mul_fin (a b : F) : Fl.mul (Fl.fin a) (Fl.fin b) = Fl.fin (a * b) := rfl

theorem Fl.add_fin (a b : F) : Fl.add (Fl.fin a) (Fl.fin b) = Fl.fin (a + b) := rfl

theorem Fl.div_fin (a b : F) (h : b ≠ 0) : Fl.div (Fl.fin a) (Fl.fin b) = Fl.fin (a / b) := by
  simp [Fl.div, h]

theorem Fl.div_fin_zero (a : F) : Fl.div (Fl.fin a) (Fl.fin 0) = Fl.infOfSign a := by
  simp [Fl.div]

theorem Fl.log2_fin (lg : F → F) (a : F) (h : 0 < a) :
    Fl.log2 lg (Fl.fin a) = Fl.fin (lg a) := by
  simp [Fl.log2, h]

theorem Fl.sqrt_fin (sq : F → F) (a : F) (h : 0 ≤ a) :
    Fl.sqrt sq (Fl.fin a) = Fl.fin (sq a) := by
  simp [Fl.sqrt, h]

theorem Fl.zero_add (x : Fl F) : Fl.add (Fl.fin 0) x = x := by
  cases x <;> simp [Fl.add]

theorem SMap.find_map_entries {K V W : Type} [LinearOrder K] (f : K × V → W) (m : SMap K V)
    (k : K) : SMap.find (m.map (fun t => (t.1, f t))) k = (m.find k).map (fun v => f (k, v)) := by
  induction m with
  | nil => rfl
  | cons q rest ih =>
    obtain ⟨k', v'⟩ := q
    simp only [List.map_cons, SMap.find]
    split_ifs with h
    · subst h; rfl
    · exact ih

theorem SMap.keys_map_entries {K V W : Type} (f : K × V → W) (m : SMap K V) :
    SMap.keys (m.map (fun t => (t.1, f t))) = m.keys := by
  simp [SMap.keys, List.map_map, Function.comp_def]

/-- The lookups available in a constructed collection. -/
theorem TextCollection.built_facts (lg sq : F → F) (sw : List Str) (paras : List Str)
    (tc : TextCollection F) (h : TextCollection.new lg sq sw paras = some tc) :
    tc.plists.length = tc.dictionary.length ∧
    (∀ t i, tc.dictionary.find t = some i → ∃ pl, tc.plists[i]? = some pl ∧ pl.WF ∧
      ∀ j, pl.find j =
        (tc.documents[j]?).bind (fun doc => (doc.terms.find t).map List.length)) ∧
    (∀ (d : Nat) (doc : Document), tc.documents[d]? = some doc →
      tc.weights[d]? = some
        (docWeights (tc.plists.map (idf_calc lg tc.documents.length)) tc.dictionary doc) ∧
      tc.dnorms[d]? = some (l2norm sq
        (docWeights (tc.plists.map (idf_calc lg tc.documents.length)) tc.dictionary doc)) ∧
      doc.terms.WF ∧ doc.terms ≠ [] ∧
      ∀ t pos, doc.terms.find t = some pos →
        pos ≠ [] ∧ ∃ id, tc.dictionary.find t = some id ∧ id < tc.dictionary.length) := by
  obtain ⟨hl, hi, hne, hw, hn⟩ := TextCollection.built_stores lg sq sw paras tc h
  obtain ⟨hrep, -, hdocs⟩ := loadDocuments_facts sw paras _ _ hl
  obtain ⟨plists, hp1, hp2, hp3⟩ := invDoc_spec tc.documents tc.dictionary _ hrep
  rw [hi] at hp1
  simp only [Option.some.injEq] at hp1
  refine ⟨by rw [hp1]; exact hp2, ?_, ?_⟩
  · intro t i hti
    rw [hp1]
    exact hp3 t i hti
  · intro d doc hd
    have hmem : doc ∈ tc.documents := List.getElem?_mem hd
    refine ⟨?_, ?_, (hdocs doc hmem).1, hne doc hmem, (hdocs doc hmem).2⟩
    · rw [hw, List.getElem?_map, hd]; rfl
    · rw [hn, hw, List.getElem?_map, List.getElem?_map, hd]; rfl

/-- Reading the weight of a term of a document in a constructed collection. -/
theorem TextCollection.built_weight (lg sq : F → F) (sw : List Str) (paras : List Str)
    (tc : TextCollection F) (h : TextCollection.new lg sq sw paras = some tc)
    (d : Nat) (doc : Document) (t : Str) (pos : List Nat)
    (hd : tc.documents[d]? = some doc) (ht : doc.terms.find t = some pos) :
    ∃ id pl, tc.dictionary.find t = some id ∧ tc.plists[id]? = some pl ∧
      pl.find d = some pos.length ∧ 0 < pl.size ∧ 0 < maxtf doc ∧
      (tc.weights[d]?).bind (fun wv => wv.find t) = some (Fl.fin
        ((pos.length : F) * lg (1 * (tc.documents.length : F) / (pl.size : F)) /
          (maxtf doc : F))) := by
  obtain ⟨hlen, hpl, hdoc⟩ := TextCollection.built_facts lg sq sw paras tc h
  obtain ⟨hw, -, -, -, hterm⟩ := hdoc d doc hd
  obtain ⟨hpos, id, hid, hidlt⟩ := hterm t pos ht
  obtain ⟨pl, hpl1, -, hpl3⟩ := hpl t id hid
  have hfind : pl.find d = some pos.length := by rw [hpl3 d, hd]; simp [ht]
  have hsize : 0 < pl.size := by
    cases hp : pl with
    | nil => rw [hp] at hfind; simp [SMap.find] at hfind
    | cons a b => simp [SMap.size]
  have hmax : 0 < maxtf doc :=
    lt_of_lt_of_le (List.length_pos.2 hpos) (length_le_maxtf doc t pos ht)
  have hN : 0 < tc.documents.length := by
    by_contra h0
    rw [List.getElem?_eq_none (by omega)] at hd
    cases hd
  refine ⟨id, pl, hid, hpl1, hfind, hsize, hmax, ?_⟩
  rw [hw]
  simp only [Option.some_bind, docWeights]
  rw [SMap.find_map_entries, ht]
  have h1 : ((pl.size : Nat) : F) ≠ 0 := Nat.cast_ne_zero.2 (by omega)
  have h2 : ((maxtf doc : Nat) : F) ≠ 0 := Nat.cast_ne_zero.2 (by omega)
  have h3 : (0 : F) < 1 * (tc.documents.length : F) / (pl.size : F) := by
    apply div_pos
    · rw [one_mul]; exact Nat.cast_pos.2 hN
    · exact Nat.cast_pos.2 hsize
  simp only [Option.map_some', Option.some.injEq, idfOf, hid, Option.getD_some,
    List.getElem?_map, hpl1, idf_calc, Fl.ofNat]
  rw [Fl.mul_fin, Fl.div_fin _ _ h1, Fl.log2_fin lg _ h3, Fl.mul_fin, Fl.div_fin _ _ h2]

end Pasec

/-! ## Posting lists -/

namespace Pasec

variable {F : Type} [LinearOrderedField F]

theorem loadDocuments_isSome (sw : List Str) (paras : List Str)
    (h : ∀ para ∈ paras, strtokAll para ≠ []) :
    ∃ docs dict, loadDocuments sw paras = some (docs, dict) := by
  induction paras using List.reverseRecOn with
  | nil => exact ⟨[], [], rfl⟩
  | append_singleton ps p ih =>
    obtain ⟨docs, dict, hl⟩ := ih (fun para hp => h para (List.mem_append_left _ hp))
    rw [loadDocuments_append, hl]
    simp only [Option.some_bind]
    rw [Document.new_of_tokens sw p dict (h p (by simp))]
    exact ⟨_, _, rfl⟩

theorem loadDocuments_terms_ne_nil (sw : List Str) (paras : List Str) (docs : List Document)
    (dict : Dictionary) (h : loadDocuments sw paras = some (docs, dict))
    (hacc : ∀ para ∈ paras, acceptedTerms sw (strtokAll para) ≠ []) :
    ∀ d ∈ docs, d.terms ≠ [] := by
  obtain ⟨-, hall⟩ := loadDocuments_inv sw paras docs dict h
  intro d hd hnil
  obtain ⟨para, hpara, -, hterms⟩ := forall₂_mem_right hall d hd
  obtain ⟨t, ht⟩ := List.exists_mem_of_ne_nil _ (hacc para hpara)
  have := (hterms.find_ne_none_iff t).2 ht
  rw [hnil] at this
  exact this rfl

theorem maxtf_attained (doc : Document) (hne : doc.terms ≠ []) :
    ∃ t pos, (t, pos) ∈ doc.terms ∧ pos.length = maxtf doc := by
  have key : ∀ (l : List Nat) (a : Nat), l.foldl max a = a ∨ l.foldl max a ∈ l := by
    intro l
    induction l with
    | nil => intro a; exact Or.inl rfl
    | cons y ys ih =>
      intro a
      rw [List.foldl_cons]
      rcases ih (max a y) with h | h
      · rw [h]
        rcases max_choice a y with h2 | h2
        · exact Or.inl h2
        · exact Or.inr (by rw [h2]; exact List.mem_cons_self _ _)
      · exact Or.inr (List.mem_cons_of_mem _ h)
  unfold maxtf
  rcases key (doc.terms.map (fun t => t.2.length)) 0 with h | h
  · obtain ⟨e, he⟩ := List.exists_mem_of_ne_nil _ hne
    have hle : e.2.length ≤ (doc.terms.map (fun t => t.2.length)).foldl max 0 :=
      le_foldl_max _ 0 _ (Or.inr (List.mem_map.2 ⟨e, he, rfl⟩))
    exact ⟨e.1, e.2, he, by omega⟩
  · obtain ⟨e, he, hlen⟩ := List.mem_map.1 h
    exact ⟨e.1, e.2, he, hlen⟩

/-- C1: Posting-list consistency. For the documents and dictionary that the
loading loop yields, `invDoc` returns one posting list per dictionary entry,
and for every dictionary term `t` with identifier `i` and every document
index `j`: `j` is a key of `plists[i]` iff `t` is a key of the term map of
document `j`, the value stored is the length of the position list of `t`,
and no other key occurs. Every constructed collection stores these posting
lists. -/
theorem posting_list_consistency (sw : List Str) (paras : List Str) (docs : List Document)
    (dict : Dictionary) (h : loadDocuments sw paras = some (docs, dict)) :
    ∃ plists, invDoc docs dict = some plists ∧ plists.length = dict.size ∧
      (∀ t i, dict.find t = some i → ∃ pl, plists[i]? = some pl ∧
        (∀ j ∈ pl.keys, j < docs.length) ∧
        ∀ (j : Nat) (doc : Document), docs[j]? = some doc →
          (j ∈ pl.keys ↔ t ∈ doc.terms.keys) ∧
          (∀ pos, doc.terms.find t = some pos → pl.find j = some pos.length)) ∧
      (∀ (lg sq : F → F) (tc : TextCollection F), TextCollection.new lg sq sw paras = some tc →
        tc.documents = docs ∧ tc.dictionary = dict ∧ tc.plists = plists) := by
  obtain ⟨hrep, -, -⟩ := loadDocuments_facts sw paras docs dict h
  obtain ⟨plists, hp1, hp2, hp3⟩ := invDoc_spec docs dict _ hrep
  refine ⟨plists, hp1, hp2, ?_, ?_⟩
  · intro t i hti
    obtain ⟨pl, hpl1, -, hpl3⟩ := hp3 t i hti
    refine ⟨pl, hpl1, ?_, ?_⟩
    · intro j hj
      obtain ⟨v, hv⟩ := (SMap.mem_keys_iff pl j).1 hj
      rw [hpl3 j] at hv
      by_contra hge
      rw [List.getElem?_eq_none (by omega)] at hv
      cases hv
    · intro j doc hdoc
      refine ⟨?_, ?_⟩
      · rw [SMap.mem_keys_iff, SMap.mem_keys_iff, hpl3 j, hdoc]
        simp only [Option.some_bind]
        cases hft : doc.terms.find t <;> simp
      · intro pos hpos
        rw [hpl3 j, hdoc]
        simp [hpos]
  · intro lg sq tc htc
    obtain ⟨hl, hi, -⟩ := TextCollection.built_stores lg sq sw paras tc htc
    rw [h] at hl
    simp only [Option.some.injEq, Prod.mk.injEq] at hl
    rw [← hl.1, ← hl.2, hp1] at hi
    exact ⟨hl.1.symm, hl.2.symm, (Option.some.inj hi).symm⟩

end Pasec

/-! ## Weights -/

namespace Pasec

variable {F : Type} [LinearOrderedField F]

/-- C7: Sparsity invariant. A constructed collection has one weight vector
per document, and the keys of the weight vector of a document are exactly the
keys of its term-position map. -/
theorem sparsity_invariant (lg sq : F → F) (sw : List Str) (paras : List Str)
    (tc : TextCollection F) (h : TextCollection.new lg sq sw paras = some tc) :
    tc.weights.length = tc.documents.length ∧
    ∀ (d : Nat) (doc : Document), tc.documents[d]? = some doc →
      ∃ wv, tc.weights[d]? = some wv ∧ wv.keys = doc.terms.keys := by
  obtain ⟨-, -, -, hw, -⟩ := TextCollection.built_stores lg sq sw paras tc h
  obtain ⟨-, -, hdoc⟩ := TextCollection.built_facts lg sq sw paras tc h
  refine ⟨by rw [hw, List.length_map], ?_⟩
  intro d doc hd
  refine ⟨_, (hdoc d doc hd).1, ?_⟩
  exact SMap.keys_map_entries _ _

end Pasec

/-! ## Rounding to the binary formats -/

namespace Pasec

variable {F : Type} [LinearOrderedField F] [FloorRing F]

theorem roundHalfEven_intCast (k : ℤ) : roundHalfEven (k : F) = k := by
  simp [roundHalfEven]

/-- A value less than one half away from the integer `m` is rounded to `m`. -/
theorem roundHalfEven_eq_of_near (t : F) (m : ℤ) (h1 : (m : F) - 1 / 2 < t)
    (h2 : t < (m : F) + 1 / 2) : roundHalfEven t = m := by
  by_cases hm : (m : F) ≤ t
  · have hfl : ⌊t⌋ = m := Int.floor_eq_iff.2 ⟨hm, by linarith⟩
    have : t - (m : F) < 1 / 2 := by linarith
    simp only [roundHalfEven, hfl, this, if_true]
  · have hfl : ⌊t⌋ = m - 1 := by
      apply Int.floor_eq_iff.2
      push_cast
      constructor <;> linarith
    have h3 : ¬ (t - ((m - 1 : ℤ) : F) < 1 / 2) := by push_cast; linarith
    have h4 : 1 / 2 < t - ((m - 1 : ℤ) : F) := by push_cast; linarith
    simp only [roundHalfEven, hfl, h3, h4, if_false, if_true]
    ring

theorem le_roundHalfEven (t : F) (k : ℤ) (h : (k : F) ≤ t) : k ≤ roundHalfEven t := by
  have hfl : k ≤ ⌊t⌋ := Int.le_floor.2 h
  unfold roundHalfEven
  split_ifs <;> omega

theorem roundHalfEven_le (t : F) (k : ℤ) (h : t ≤ (k : F)) : roundHalfEven t ≤ k := by
  have hfl : ⌊t⌋ ≤ k := by
    have := Int.floor_le_floor h
    rwa [Int.floor_intCast] at this
  by_cases hint : t = (⌊t⌋ : F)
  · have : t - (⌊t⌋ : F) < 1 / 2 := by rw [← hint]; simp
    simp only [roundHalfEven, this, if_true]
    exact hfl
  · have hlt : ⌊t⌋ < k := by
      rcases lt_or_eq_of_le hfl with h1 | h1
      · exact h1
      · exfalso
        apply hint
        apply le_antisymm
        · rw [h1]; exact h
        · exact Int.floor_le t
    unfold roundHalfEven
    split_ifs <;> omega

theorem int_log_two_eq (x : F) (hx : 0 < x) (e : ℤ) (h1 : (2 : F) ^ e ≤ x)
    (h2 : x < (2 : F) ^ (e + 1)) : Int.log 2 x = e := by
  have c2 : ((2 : ℕ) : F) = 2 := by norm_num
  apply le_antisymm
  · have := (Int.lt_zpow_iff_log_lt (b := 2) (by norm_num) (x := e + 1) hx).1 (by rw [c2]; exact h2)
    omega
  · exact (Int.zpow_le_iff_le_log (b := 2) (by norm_num) (x := e) hx).1 (by rw [c2]; exact h1)

/-- The rounding of a positive value in the binade of `e` whose quotient by
the unit in the last place rounds to `m`. -/
theorem roundBinary_eq (p : Nat) (emin emax : ℤ) (x : F) (hx : 0 < x) (e : ℤ)
    (h1 : (2 : F) ^ e ≤ x) (h2 : x < (2 : F) ^ (e + 1)) (hemin : emin ≤ e) (m : ℤ)
    (hm : roundHalfEven (x / (2 : F) ^ (e - ((p : ℤ) - 1))) = m)
    (hov : (m : F) * (2 : F) ^ (e - ((p : ℤ) - 1)) < (2 : F) ^ (emax + 1)) :
    roundBinary p emin emax x = Fl.fin ((m : F) * (2 : F) ^ (e - ((p : ℤ) - 1))) := by
  have hlog : Int.log 2 x = e := int_log_two_eq x hx e h1 h2
  unfold roundBinary
  simp only [ne_of_gt hx, if_false, abs_of_pos hx, hlog, max_eq_left hemin, hm, not_le.2 hov,
    hx, if_true]

/-- A positive value that is a multiple of the unit in the last place of its
binade is not changed by rounding. -/
theorem roundBinary_fixed (p : Nat) (emin emax : ℤ) (z : F) (hz : 0 < z) (e : ℤ)
    (h1 : (2 : F) ^ e ≤ z) (h2 : z < (2 : F) ^ (e + 1)) (hemin : emin ≤ e) (hemax : e ≤ emax)
    (k : ℤ) (hk : z = (k : F) * (2 : F) ^ (e - ((p : ℤ) - 1))) :
    roundBinary p emin emax z = Fl.fin z := by
  have hu : (0 : F) < (2 : F) ^ (e - ((p : ℤ) - 1)) := zpow_pos (by norm_num) _
  have hq : z / (2 : F) ^ (e - ((p : ℤ) - 1)) = (k : F) := by
    rw [hk, mul_div_assoc, div_self (ne_of_gt hu), mul_one]
  have hov : (k : F) * (2 : F) ^ (e - ((p : ℤ) - 1)) < (2 : F) ^ (emax + 1) := by
    rw [← hk]
    exact lt_of_lt_of_le h2 (zpow_le_zpow_right₀ (by norm_num) (by omega))
  rw [roundBinary_eq p emin emax z hz e h1 h2 hemin k (by rw [hq, roundHalfEven_intCast]) hov,
    ← hk]

end Pasec

namespace Pasec

variable {F : Type} [LinearOrderedField F] [FloorRing F]

theorem roundBinary_one (q : Nat) (emin emax : ℤ) (hemin : emin ≤ 0) (hemax : 0 ≤ emax) :
    roundBinary (q + 1) emin emax (1 : F) = Fl.fin 1 := by
  apply roundBinary_fixed (q + 1) emin emax (1 : F) one_pos 0 (by simp) (by norm_num) hemin hemax
    ((2 : ℤ) ^ q)
  push_cast
  rw [show (0 : ℤ) - ((q : ℤ) + 1 - 1) = -(q : ℤ) by ring, zpow_neg, zpow_natCast,
    mul_inv_cancel₀ (pow_ne_zero _ (by norm_num))]

/-- The conversion of a positive `std::size_t` value to a binary format with
at least 64 as largest exponent: the result is positive and finite, and it is
a value of the format. -/
theorem roundBinary_size (q : Nat) (emin emax : ℤ) (hemin : emin ≤ 0) (hemax : 64 ≤ emax)
    (n : Nat) (hn : 0 < n) (hlt : n < 2 ^ 64) :
    ∃ y, roundBinary (q + 1) emin emax (n : F) = Fl.fin y ∧ 0 < y ∧
      roundBinary (q + 1) emin emax y = Fl.fin y := by
  have hL : Nat.log 2 n < 64 := Nat.log_lt_of_lt_pow (by omega) hlt
  have hx : (0 : F) < (n : F) := Nat.cast_pos.2 hn
  have hcast : (((q + 1 : ℕ) : ℤ) - 1) = (q : ℤ) := by push_cast; ring
  have hu : (0 : F) < (2 : F) ^ ((Nat.log 2 n : ℤ) - (q : ℤ)) := zpow_pos (by norm_num) _
  have h1 : (2 : F) ^ (Nat.log 2 n : ℤ) ≤ (n : F) := by
    rw [zpow_natCast]
    exact_mod_cast Nat.pow_log_le_self 2 (by omega : n ≠ 0)
  have h2 : (n : F) < (2 : F) ^ ((Nat.log 2 n : ℤ) + 1) := by
    rw [show ((Nat.log 2 n : ℤ) + 1) = ((Nat.log 2 n + 1 : ℕ) : ℤ) by push_cast; ring,
      zpow_natCast]
    exact_mod_cast Nat.lt_pow_succ_log_self (by norm_num : 1 < 2) n
  have hsplit : ∀ a : ℤ, (2 : F) ^ a * (2 : F) ^ ((Nat.log 2 n : ℤ) - (q : ℤ)) =
      (2 : F) ^ (a + ((Nat.log 2 n : ℤ) - (q : ℤ))) := by
    intro a
    rw [zpow_add₀ (by norm_num : (2 : F) ≠ 0)]
  have ht1 : (((2 : ℤ) ^ q : ℤ) : F) ≤ (n : F) / (2 : F) ^ ((Nat.log 2 n : ℤ) - (q : ℤ)) := by
    rw [le_div_iff₀ hu]
    push_cast
    rw [← zpow_natCast, hsplit]
    rw [show (q : ℤ) + ((Nat.log 2 n : ℤ) - (q : ℤ)) = (Nat.log 2 n : ℤ) by ring]
    exact h1
  have ht2 : (n : F) / (2 : F) ^ ((Nat.log 2 n : ℤ) - (q : ℤ)) ≤ (((2 : ℤ) ^ (q + 1) : ℤ) : F) := by
    rw [div_le_iff₀ hu]
    push_cast
    rw [← zpow_natCast (2 : F) (q + 1), hsplit]
    rw [show ((q + 1 : ℕ) : ℤ) + ((Nat.log 2 n : ℤ) - (q : ℤ)) = (Nat.log 2 n : ℤ) + 1 by
      push_cast; ring]
    exact le_of_lt h2
  have hm1 := le_roundHalfEven _ _ ht1
  have hm2 := roundHalfEven_le _ _ ht2
  generalize hmdef : roundHalfEven ((n : F) / (2 : F) ^ ((Nat.log 2 n : ℤ) - (q : ℤ))) = m
    at hm1 hm2
  have hm1F : (2 : F) ^ (q : ℤ) ≤ (m : F) := by
    rw [zpow_natCast]
    exact_mod_cast hm1
  have hm2F : (m : F) ≤ (2 : F) ^ ((q : ℤ) + 1) := by
    rw [show ((q : ℤ) + 1) = ((q + 1 : ℕ) : ℤ) by push_cast; ring, zpow_natCast]
    exact_mod_cast hm2
  have hy1 : (2 : F) ^ (Nat.log 2 n : ℤ) ≤ (m : F) * (2 : F) ^ ((Nat.log 2 n : ℤ) - (q : ℤ)) := by
    have := mul_le_mul_of_nonneg_right hm1F (le_of_lt hu)
    rw [hsplit, show (q : ℤ) + ((Nat.log 2 n : ℤ) - (q : ℤ)) = (Nat.log 2 n : ℤ) by ring] at this
    exact this
  have hy2 : (m : F) * (2 : F) ^ ((Nat.log 2 n : ℤ) - (q : ℤ)) ≤
      (2 : F) ^ ((Nat.log 2 n : ℤ) + 1) := by
    have := mul_le_mul_of_nonneg_right hm2F (le_of_lt hu)
    rw [hsplit, show (q : ℤ) + 1 + ((Nat.log 2 n : ℤ) - (q : ℤ)) = (Nat.log 2 n : ℤ) + 1 by ring]
      at this
    exact this
  have hypos : (0 : F) < (m : F) * (2 : F) ^ ((Nat.log 2 n : ℤ) - (q : ℤ)) :=
    lt_of_lt_of_le (zpow_pos (by norm_num) _) hy1
  have hov : (m : F) * (2 : F) ^ ((Nat.log 2 n : ℤ) - (q : ℤ)) < (2 : F) ^ (emax + 1) :=
    lt_of_le_of_lt hy2 (zpow_lt_zpow_right₀ (by norm_num) (by omega))
  refine ⟨(m : F) * (2 : F) ^ ((Nat.log 2 n : ℤ) - (q : ℤ)), ?_, hypos, ?_⟩
  · have := roundBinary_eq (q + 1) emin emax (n : F) hx (Nat.log 2 n : ℤ) h1 h2 (by omega) m
      (by rw [hcast]; exact hmdef) (by rw [hcast]; exact hov)
    rw [hcast] at this
    exact this
  · rcases lt_or_eq_of_le hm2 with hlt2 | heq2
    · apply roundBinary_fixed (q + 1) emin emax _ hypos (Nat.log 2 n : ℤ) hy1 ?_ (by omega)
        (by omega) m (by rw [hcast])
      have hmle : (m : F) ≤ (2 : F) ^ ((q : ℤ) + 1) - 1 := by
        rw [show ((q : ℤ) + 1) = ((q + 1 : ℕ) : ℤ) by push_cast; ring, zpow_natCast]
        have : m ≤ (2 : ℤ) ^ (q + 1) - 1 := by omega
        exact_mod_cast this
      have hmlt : (m : F) < (2 : F) ^ ((q : ℤ) + 1) := by linarith
      have := mul_lt_mul_of_pos_right hmlt hu
      rw [hsplit, show (q : ℤ) + 1 + ((Nat.log 2 n : ℤ) - (q : ℤ)) = (Nat.log 2 n : ℤ) + 1 by
        ring] at this
      exact this
    · have hyeq : (m : F) * (2 : F) ^ ((Nat.log 2 n : ℤ) - (q : ℤ)) =
          (2 : F) ^ ((Nat.log 2 n : ℤ) + 1) := by
        rw [heq2]
        push_cast
        rw [← zpow_natCast (2 : F) (q + 1), hsplit]
        congr 1
        push_cast
        ring
      rw [hyeq]
      apply roundBinary_fixed (q + 1) emin emax _ (zpow_pos (by norm_num) _)
        ((Nat.log 2 n : ℤ) + 1) (le_refl _)
        (zpow_lt_zpow_right₀ (by norm_num) (by omega)) (by omega) (by omega) ((2 : ℤ) ^ q)
      rw [hcast]
      push_cast
      rw [← zpow_natCast, ← zpow_add₀ (by norm_num : (2 : F) ≠ 0)]
      congr 1
      ring

/-- The roundings to `float` and `double` have the properties `Rounding`. -/
theorem binary32_rounding : Rounding (binary32 : F → Fl F) :=
  ⟨by simp [binary32, roundBinary],
    roundBinary_one 23 (-126) 127 (by norm_num) (by norm_num),
    fun n hn hlt => roundBinary_size 23 (-126) 127 (by norm_num) (by norm_num) n hn hlt⟩

theorem binary64_rounding : Rounding (binary64 : F → Fl F) :=
  ⟨by simp [binary64, roundBinary],
    roundBinary_one 52 (-1022) 1023 (by norm_num) (by norm_num),
    fun n hn hlt => roundBinary_size 52 (-1022) 1023 (by norm_num) (by norm_num) n hn hlt⟩

omit [FloorRing F] in
/-- Exact arithmetic, too, has the properties `Rounding`. -/
theorem exact_rounding : Rounding (Fl.fin : F → Fl F) :=
  ⟨rfl, rfl, fun n hn _ => ⟨(n : F), rfl, Nat.cast_pos.2 hn, rfl⟩⟩

end Pasec

/-! ## dwCalc with rounding -/

namespace Pasec

variable {F : Type} [LinearOrderedField F]

omit [LinearOrderedField F] in
theorem Fl.round_exact (x : Fl F) : Fl.round Fl.fin x = x := by
  cases x <;> rfl

theorem dwCalcTermR_eq (r32 : F → Fl F) (idfvec : List (Fl F)) (mval : Fl F)
    (w : DocWeights F) (dict : Dictionary) (term : Str × List Nat) (id : Nat)
    (h1 : dict.find term.1 = some id) (h2 : id < idfvec.length) :
    dwCalcTermR r32 idfvec mval (w, dict) term =
      some (w.emplace term.1
        (Fl.round r32 (Fl.div
          (Fl.round r32 (Fl.mul (r32 (term.2.length : F)) (idfOf idfvec dict term.1))) mval)),
        dict) := by
  simp [dwCalcTermR, SMap.index, h1, idfOf, List.getElem?_eq_getElem h2]

theorem dwCalcTermR_foldlM (r32 : F → Fl F) (idfvec : List (Fl F)) (mval : Fl F)
    (dict : Dictionary) (T : List (Str × List Nat)) : ∀ (w0 : DocWeights F),
      (∀ t ∈ T, ∃ id, dict.find t.1 = some id ∧ id < idfvec.length) →
      T.foldlM (dwCalcTermR r32 idfvec mval) (w0, dict) =
        some (T.foldl (fun (m : DocWeights F) t => m.emplace t.1
          (Fl.round r32 (Fl.div
            (Fl.round r32 (Fl.mul (r32 (t.2.length : F)) (idfOf idfvec dict t.1))) mval)))
          w0, dict) := by
  induction T with
  | nil => intro w0 _; rfl
  | cons t ts ih =>
    intro w0 h
    obtain ⟨id, h1, h2⟩ := h t (List.mem_cons_self _ _)
    rw [List.foldlM_cons, dwCalcTermR_eq r32 idfvec mval w0 dict t id h1 h2]
    simp only [Option.bind_eq_bind, Option.some_bind, List.foldl_cons]
    exact ih _ (fun t2 ht2 => h t2 (List.mem_cons_of_mem _ ht2))

/-- The main loop of `dwCalc`, with rounding, over the first `n` documents. -/
theorem dwCalcR_range (r32 : F → Fl F) (idfvec : List (Fl F)) (documents : List Document)
    (dict : Dictionary)
    (hdict : ∀ doc ∈ documents, ∀ term ∈ doc.terms,
      ∃ id, dict.find term.1 = some id ∧ id < idfvec.length)
    (hwf : ∀ doc ∈ documents, doc.terms.WF) (n : Nat) (hn : n ≤ documents.length) :
    ∃ ws : List (DocWeights F),
      (List.range n).foldlM
        (fun (acc : List (DocWeights F) × Dictionary) i =>
          (documents[i]?).bind (fun doc =>
          ((documents.map (fun d => r32 (maxtf d : F)))[i]?).bind (fun mval =>
          (acc.1[i]?).bind (fun wi =>
            (doc.terms.foldlM (dwCalcTermR r32 idfvec mval) (wi, acc.2)).map
              (fun r => (acc.1.set i r.1, r.2))))))
        (List.replicate documents.length [], dict) = some (ws, dict) ∧
      ws.length = documents.length ∧
      ∀ i, ws[i]? = if i < n then (documents[i]?).map (docWeightsR r32 idfvec dict)
        else if i < documents.length then some [] else none := by
  induction n with
  | zero =>
    refine ⟨List.replicate documents.length [], rfl, by simp, ?_⟩
    intro i
    simp [List.getElem?_replicate]
  | succ n ih =>
    obtain ⟨ws, hrun, hlen, hget⟩ := ih (by omega)
    have hlt : n < documents.length := by omega
    have hmem : documents[n] ∈ documents := List.getElem_mem hlt
    have hwn : ws[n]? = some [] := by rw [hget n]; simp [hlt]
    rw [List.range_succ, List.foldlM_append, hrun]
    simp only [Option.bind_eq_bind, Option.some_bind, List.foldlM_cons, List.foldlM_nil,
      List.getElem?_eq_getElem hlt, List.getElem?_map, Option.map_some', hwn]
    rw [dwCalcTermR_foldlM r32 idfvec _ dict _ [] (hdict _ hmem),
      SMap.foldl_emplace_eq_map _ _ (hwf _ hmem)]
    refine ⟨ws.set n (docWeightsR r32 idfvec dict documents[n]), by simp [docWeightsR],
      by simp [hlen], ?_⟩
    intro i
    by_cases hin : i = n
    · subst hin
      simp [hlen, hlt, List.getElem?_eq_getElem hlt]
    · rw [List.getElem?_set_ne (fun h => hin h.symm), hget i]
      by_cases hi : i < n
      · simp [hi, Nat.lt_succ_of_lt hi]
      · have : ¬ i < n + 1 := by omega
        simp [hi, this]

/-- The weight vectors `dwCalc` builds, with rounding, when every document has
a term and every term is registered. -/
theorem dwCalcR_spec (r32 r64 : F → Fl F) (lg : F → F) (documents : List Document)
    (dict : Dictionary) (plists : List PostingList)
    (hdict : ∀ doc ∈ documents, ∀ term ∈ doc.terms,
      ∃ id, dict.find term.1 = some id ∧ id < plists.length)
    (hwf : ∀ doc ∈ documents, doc.terms.WF) (hne : ∀ doc ∈ documents, doc.terms ≠ []) :
    dwCalcR r32 r64 lg documents dict plists =
      some (documents.map (docWeightsR r32
        (plists.map (fun plist => Fl.round r32 (idf_calcR r64 lg documents.length plist)))
        dict), dict) := by
  unfold dwCalcR
  simp only
  rw [mapM_eq_some_map _ (fun d => r32 (maxtf d : F)) documents (by
    intro d hd
    rw [Document.maxTermVal_eq d (hwf d hd) (hne d hd)]
    rfl)]
  obtain ⟨ws, hrun, hlen, hget⟩ := dwCalcR_range r32
    (plists.map (fun plist => Fl.round r32 (idf_calcR r64 lg documents.length plist)))
    documents dict (by simpa using hdict) hwf documents.length (le_refl _)
  simp only [Option.some_bind]
  rw [hrun]
  congr 2
  apply List.ext_getElem?
  intro i
  rw [hget i, List.getElem?_map]
  by_cases hi : i < documents.length
  · simp [hi]
  · simp [hi, List.getElem?_eq_none (not_lt.1 hi)]

/-- With exact arithmetic in place of the roundings, `dwCalcR` is `dwCalc`. -/
theorem dwCalcR_exact (lg : F → F) (documents : List Document) (dict : Dictionary)
    (plists : List PostingList) :
    dwCalcR Fl.fin Fl.fin lg documents dict plists = dwCalc lg documents dict plists := by
  have h1 : ∀ (ndocs : Nat) (plist : PostingList),
      Fl.round Fl.fin (idf_calcR Fl.fin lg ndocs plist) = idf_calc lg ndocs plist := by
    intro ndocs plist
    simp only [idf_calcR, idf_calc, Fl.round_exact, Fl.ofNat]
  have h2 : ∀ (idfvec : List (Fl F)) (mval : Fl F),
      dwCalcTermR Fl.fin idfvec mval = dwCalcTerm idfvec mval := by
    intro idfvec mval
    funext acc term
    simp only [dwCalcTermR, dwCalcTerm, Fl.round_exact, Fl.ofNat]
  unfold dwCalcR dwCalc
  simp only [h1, h2, Fl.ofNat]

end Pasec

namespace Pasec

theorem binary64_two : binary64 (2 : ℝ) = Fl.fin 2 := by
  apply roundBinary_fixed 53 (-1022) 1023 (2 : ℝ) (by norm_num) 1 (by norm_num) (by norm_num)
    (by norm_num) (by norm_num) ((2 : ℤ) ^ 52)
  norm_num

theorem binary32_three : binary32 (3 : ℝ) = Fl.fin 3 := by
  apply roundBinary_fixed 24 (-126) 127 (3 : ℝ) (by norm_num) 1 (by norm_num) (by norm_num)
    (by norm_num) (by norm_num) (3 * (2 : ℤ) ^ 22)
  norm_num

/-- The `float` nearest to one third. -/
theorem binary32_third : binary32 (1 / 3 : ℝ) = Fl.fin (11184811 / 33554432) := by
  have h := roundBinary_eq 24 (-126) 127 (1 / 3 : ℝ) (by norm_num) (-2) (by norm_num)
    (by norm_num) (by norm_num) 11184811
    (roundHalfEven_eq_of_near _ _ (by norm_num) (by norm_num)) (by norm_num)
  rw [binary32, h]
  norm_num

theorem float_third_ne : (11184811 / 33554432 : ℝ) ≠ 1 / 3 := by norm_num

end Pasec

namespace Pasec

/-- Reading a weight that `dwCalc` computes with rounding: the term is
registered, and the weight is `tf * idf / maxtf` with the conversions, the
product and the quotient rounded to `float`, where `idf` is the result of
`idf_calc` on the posting list of the term, rounded to `float`. -/
theorem dwCalcR_weight {F : Type} [LinearOrderedField F] (r32 r64 : F → Fl F) (lg : F → F)
    (sw : List Str) (paras : List Str) (docs : List Document) (dict : Dictionary)
    (h : loadDocuments sw paras = some (docs, dict)) (hne : ∀ doc ∈ docs, doc.terms ≠ []) :
    ∃ plists ws, invDoc docs dict = some plists ∧
      dwCalcR r32 r64 lg docs dict plists = some (ws, dict) ∧
      ∀ (d : Nat) (doc : Document) (t : Str) (pos : List Nat),
        docs[d]? = some doc → doc.terms.find t = some pos →
        ∃ id pl, dict.find t = some id ∧ plists[id]? = some pl ∧
          pl.find d = some pos.length ∧ 0 < pos.length ∧
          (ws[d]?).bind (fun wv => wv.find t) = some
            (Fl.round r32 (Fl.div (Fl.round r32 (Fl.mul (r32 (pos.length : F))
              (Fl.round r32 (idf_calcR r64 lg docs.length pl)))) (r32 (maxtf doc : F)))) := by
  obtain ⟨hrep, -, hdocs⟩ := loadDocuments_facts sw paras docs dict h
  obtain ⟨plists, hp1, hp2, hp3⟩ := invDoc_spec docs dict _ hrep
  have hdw := dwCalcR_spec r32 r64 lg docs dict plists (by
      intro d hd term hterm
      have hf := SMap.find_of_mem d.terms (hdocs d hd).1 (k := term.1) (v := term.2) hterm
      obtain ⟨-, id, hid, hlt⟩ := (hdocs d hd).2 term.1 term.2 hf
      exact ⟨id, hid, by rw [hp2]; exact hlt⟩)
    (fun d hd => (hdocs d hd).1) hne
  refine ⟨plists, _, hp1, hdw, ?_⟩
  intro d doc t pos hd ht
  have hmem : doc ∈ docs := List.getElem?_mem hd
  obtain ⟨hpos, id, hid, -⟩ := (hdocs doc hmem).2 t pos ht
  obtain ⟨pl, hpl1, -, hpl3⟩ := hp3 t id hid
  have hfind : pl.find d = some pos.length := by rw [hpl3 d, hd]; simp [ht]
  refine ⟨id, pl, hid, hpl1, hfind, List.length_pos.2 hpos, ?_⟩
  rw [List.getElem?_map, hd]
  simp only [Option.map_some', Option.some_bind, docWeightsR]
  rw [SMap.find_map_entries, ht]
  simp only [Option.map_some', idfOf, hid, Option.getD_some, List.getElem?_map, hpl1]

/-- With roundings that have the properties `Rounding`, the weight of a term
that occurs in every document is 0. -/
theorem weight_zero_of_common (r32 r64 : ℝ → Fl ℝ) (h32 : Rounding r32) (h64 : Rounding r64)
    (tf mx N : Nat) (pl : PostingList) (htf : 0 < tf) (htf2 : tf < 2 ^ 64) (hmx : 0 < mx)
    (hmx2 : mx < 2 ^ 64) (hN : 0 < N) (hN2 : N < 2 ^ 64) (hpl : pl.size = N) :
    Fl.round r32 (Fl.div (Fl.round r32 (Fl.mul (r32 (tf : ℝ))
      (Fl.round r32 (idf_calcR r64 (Real.logb 2) N pl)))) (r32 (mx : ℝ))) = Fl.fin 0 := by
  obtain ⟨y, hy1, hy2, hy3⟩ := h64.size N hN hN2
  obtain ⟨z, hz1, -, -⟩ := h32.size tf htf htf2
  obtain ⟨m, hm1, hm2, -⟩ := h32.size mx hmx hmx2
  have hidf : idf_calcR r64 (Real.logb 2) N pl = Fl.fin 0 := by
    rw [idf_calcR, hpl, hy1, Fl.mul_fin, one_mul]
    simp only [Fl.round]
    rw [hy3, Fl.div_fin _ _ (ne_of_gt hy2), div_self (ne_of_gt hy2)]
    simp only [Fl.round]
    rw [h64.one, Fl.log2_fin _ _ one_pos, Real.logb_one]
    simp only [Fl.round]
    exact h64.zero
  rw [hidf]
  simp only [Fl.round]
  rw [h32.zero, hz1, Fl.mul_fin, mul_zero]
  simp only [Fl.round]
  rw [h32.zero, hm1, Fl.div_fin _ _ (ne_of_gt hm2), zero_div]
  simp only [Fl.round]
  exact h32.zero

end Pasec

/-! ## The weight formula -/

namespace Pasec

/-- C6 (as claimed, refuted): in the collection of the paragraphs
`apple apple apple banana` and `cherry`, the term `banana` has `tf = 1` in
document 0, `N = 2`, `df = 1` and `maxtf = 3`, so the formula of the claim
gives one third; `dwCalc`, which computes in `float`, stores the `float`
nearest to one third, `11184811 / 33554432`, which is another number. -/
theorem tfidf_weight_counterexample :
    loadDocuments [] thirdParas = some (thirdDocs, thirdDict) ∧
    invDoc thirdDocs thirdDict = some thirdPlists ∧
    ∃ doc pos pl ws dict, thirdDocs[0]? = some doc ∧
      doc.terms.find "banana".toList = some pos ∧
      thirdDict.find "banana".toList = some 1 ∧ thirdPlists[1]? = some pl ∧
      dwCalcR binary32 binary64 (Real.logb 2) thirdDocs thirdDict thirdPlists =
        some (ws, dict) ∧
      (ws[0]?).bind (fun wv => wv.find "banana".toList) =
        some (Fl.fin (11184811 / 33554432)) ∧
      (pos.length : ℝ) * Real.logb 2 ((thirdDocs.length : ℝ) / (pl.size : ℝ)) /
        (maxtf doc : ℝ) = 1 / 3 ∧
      (ws[0]?).bind (fun wv => wv.find "banana".toList) ≠
        some (Fl.fin ((pos.length : ℝ) *
          Real.logb 2 ((thirdDocs.length : ℝ) / (pl.size : ℝ)) / (maxtf doc : ℝ))) := by
  have hl : loadDocuments [] thirdParas = some (thirdDocs, thirdDict) := by decide
  have hi : invDoc thirdDocs thirdDict = some thirdPlists := by decide
  obtain ⟨plists, ws, hp, hdw, hw⟩ := dwCalcR_weight (binary32 : ℝ → Fl ℝ) binary64
    (Real.logb 2) [] thirdParas thirdDocs thirdDict hl (by decide)
  rw [hi] at hp
  cases hp
  obtain ⟨id, pl, hid, hpl, -, -, hval⟩ := hw 0
    { terms := [("apple".toList, [0, 1, 2]), ("banana".toList, [3])] } "banana".toList [3]
    rfl (by decide)
  have hid1 : thirdDict.find "banana".toList = some 1 := by decide
  rw [hid1] at hid
  cases hid
  have hpl1 : thirdPlists[1]? = some [(0, 1)] := rfl
  rw [hpl1] at hpl
  cases hpl
  have h2 : Real.logb 2 2 = 1 := Real.logb_self_eq_one (by norm_num)
  have hone32 : binary32 (1 : ℝ) = Fl.fin 1 := binary32_rounding.one
  have hone64 : binary64 (1 : ℝ) = Fl.fin 1 := binary64_rounding.one
  have hmax : maxtf { terms := [("apple".toList, [0, 1, 2]), ("banana".toList, [3])] } = 3 := by
    decide
  have hidf : idf_calcR binary64 (Real.logb 2) thirdDocs.length [(0, 1)] = Fl.fin (1 : ℝ) := by
    simp only [idf_calcR, thirdDocs, List.length_cons, List.length_nil, SMap.size, Nat.cast_ofNat,
      Nat.cast_one, zero_add, Nat.reduceAdd]
    rw [binary64_two, hone64, Fl.mul_fin, one_mul]
    simp only [Fl.round]
    rw [binary64_two, Fl.div_fin _ _ one_ne_zero, div_one]
    simp only [Fl.round]
    rw [binary64_two, Fl.log2_fin _ _ (by norm_num), h2]
    simp only [Fl.round]
    exact hone64
  have hstored : (ws[0]?).bind (fun wv => wv.find "banana".toList) =
      some (Fl.fin (11184811 / 33554432)) := by
    rw [hval, hidf, hmax]
    simp only [Fl.round, List.length_cons, List.length_nil, zero_add, Nat.cast_one,
      Nat.cast_ofNat, hone32, Fl.mul_fin, one_mul, binary32_three,
      Fl.div_fin (1 : ℝ) 3 (by norm_num), binary32_third]
  have hformula : (([3] : List Nat).length : ℝ) *
      Real.logb 2 ((thirdDocs.length : ℝ) / ((SMap.size ([(0, 1)] : PostingList) : ℕ) : ℝ)) /
        ((maxtf { terms := [("apple".toList, [0, 1, 2]), ("banana".toList, [3])] } : ℕ) : ℝ) =
      1 / 3 := by
    rw [hmax]
    simp [thirdDocs, SMap.size, h2]
  refine ⟨hl, hi, { terms := [("apple".toList, [0, 1, 2]), ("banana".toList, [3])] }, [3],
    [(0, 1)], ws, thirdDict, rfl, by decide, hid1, rfl, hdw, hstored, hformula, ?_⟩
  rw [hstored, hformula]
  intro hc
  exact float_third_ne (Fl.fin.inj (Option.some.inj hc))

end Pasec

namespace Pasec

theorem length_le_of_increasing (pos : List Nat) (n : Nat)
    (hinc : pos.Pairwise (fun a b => a < b)) (hlt : ∀ p ∈ pos, p < n) : pos.length ≤ n := by
  have hnd : pos.Nodup := List.Pairwise.imp (fun h => ne_of_lt h) hinc
  have hsub : pos ⊆ List.range n := fun p hp => List.mem_range.2 (hlt p hp)
  have := (List.subperm_of_subset hnd hsub).length_le
  simpa using this

/-- The largest term frequency of a loaded document is at most the number of
tokens of its paragraph. -/
theorem loadDocuments_maxtf_le (sw : List Str) (paras : List Str) (docs : List Document)
    (dict : Dictionary) (h : loadDocuments sw paras = some (docs, dict))
    (doc : Document) (hd : doc ∈ docs) (hne : doc.terms ≠ []) :
    ∃ para ∈ paras, maxtf doc ≤ (strtokAll para).length := by
  obtain ⟨-, hall⟩ := loadDocuments_inv sw paras docs dict h
  obtain ⟨para, hpara, -, hterms⟩ := forall₂_mem_right hall doc hd
  refine ⟨para, hpara, ?_⟩
  obtain ⟨t, pos, hmem, hlen⟩ := maxtf_attained doc hne
  have hf := SMap.find_of_mem doc.terms hterms.1 (k := t) (v := pos) hmem
  obtain ⟨-, hinc, hlt⟩ := hterms.2.1 t pos hf
  have h1 := length_le_of_increasing pos _ hinc hlt
  have h2 : (acceptedTerms sw (strtokAll para)).length ≤ (strtokAll para).length := by
    unfold acceptedTerms
    rw [List.length_map]
    exact List.length_filter_le _ _
  omega

/-- C6 (amended): TF-IDF weight formula. When every paragraph yields at least
one accepted term (and the numbers of paragraphs and of tokens fit in
`std::size_t`) the loading loop, `invDoc`, `dwCalc` and the constructor
return, and for every document `d` and term `t` of its term map, with `N` the
number of documents, `df` the size of the posting list of `t`, `tf` the length
of the position list of `t` in `d` and `maxtf` the largest position-list
length in `d`: the stored weight is the result of `tf * idf / maxtf` computed
in `float`, the conversions, the product and the quotient each rounded, with
`idf` the value of `log2 (N / df)` computed in `double` and converted to
`float`; this holds for all roundings `r32` and `r64` with the properties
`Rounding`, such as those of IEEE 754, and then the weight is 0 when `df = N`.
With arithmetic taken as exact the stored weight is the real number
`tf * log2 (N / df) / maxtf`, again 0 when `df = N`. -/
theorem tfidf_weight_formula (r32 r64 : ℝ → Fl ℝ) (h32 : Rounding r32) (h64 : Rounding r64)
    (sw : List Str) (paras : List Str)
    (hacc : ∀ para ∈ paras, acceptedTerms sw (strtokAll para) ≠ [])
    (hsize : paras.length < 2 ^ 64 ∧ ∀ para ∈ paras, (strtokAll para).length < 2 ^ 64) :
    ∃ docs dict plists ws tc, loadDocuments sw paras = some (docs, dict) ∧
      invDoc docs dict = some plists ∧
      dwCalcR r32 r64 (Real.logb 2) docs dict plists = some (ws, dict) ∧
      TextCollection.new (Real.logb 2) Real.sqrt sw paras = some tc ∧
      tc.documents = docs ∧ tc.dictionary = dict ∧ tc.plists = plists ∧
      dwCalcR Fl.fin Fl.fin (Real.logb 2) docs dict plists = some (tc.weights, dict) ∧
      docs.length = paras.length ∧
      ∀ (d : Nat) (doc : Document) (t : Str) (pos : List Nat),
        docs[d]? = some doc → doc.terms.find t = some pos →
        (∀ t2 pos2, doc.terms.find t2 = some pos2 → pos2.length ≤ maxtf doc) ∧
        (∃ t2 pos2, doc.terms.find t2 = some pos2 ∧ pos2.length = maxtf doc) ∧
        ∃ id pl, dict.find t = some id ∧ plists[id]? = some pl ∧
          (ws[d]?).bind (fun wv => wv.find t) = some
            (Fl.round r32 (Fl.div (Fl.round r32 (Fl.mul (r32 (pos.length : ℝ))
              (Fl.round r32 (idf_calcR r64 (Real.logb 2) docs.length pl))))
              (r32 (maxtf doc : ℝ)))) ∧
          (pl.size = docs.length → (ws[d]?).bind (fun wv => wv.find t) = some (Fl.fin 0)) ∧
          (tc.weights[d]?).bind (fun wv => wv.find t) = some (Fl.fin
            ((pos.length : ℝ) * Real.logb 2 ((docs.length : ℝ) / (pl.size : ℝ)) /
              (maxtf doc : ℝ))) ∧
          (pl.size = docs.length →
            (tc.weights[d]?).bind (fun wv => wv.find t) = some (Fl.fin 0)) := by
  have htok : ∀ para ∈ paras, strtokAll para ≠ [] := by
    intro para hp h0
    apply hacc para hp
    rw [h0]
    rfl
  obtain ⟨docs, dict, hl⟩ := loadDocuments_isSome sw paras htok
  have hne := loadDocuments_terms_ne_nil sw paras docs dict hl hacc
  obtain ⟨hrep, hlen, hdocs⟩ := loadDocuments_facts sw paras docs dict hl
  obtain ⟨plists, ws, hp1, hdw, hw⟩ :=
    dwCalcR_weight r32 r64 (Real.logb 2) sw paras docs dict hl hne
  have hnew := TextCollection.new_of_loaded (Real.logb 2) Real.sqrt sw paras docs dict plists
    hl hp1 hne
  have hexact : dwCalcR Fl.fin Fl.fin (Real.logb 2) docs dict plists =
      some (docs.map (docWeights (plists.map (idf_calc (Real.logb 2) docs.length)) dict),
        dict) := by
    rw [dwCalcR_exact]
    obtain ⟨plists2, hq1, hq2, -⟩ := invDoc_spec docs dict _ hrep
    rw [hp1] at hq1
    cases hq1
    exact dwCalc_spec (Real.logb 2) docs dict plists (by
        intro d hd term hterm
        have hf := SMap.find_of_mem d.terms (hdocs d hd).1 (k := term.1) (v := term.2) hterm
        obtain ⟨-, id, hid, hlt⟩ := (hdocs d hd).2 term.1 term.2 hf
        exact ⟨id, hid, by rw [hq2]; exact hlt⟩)
      (fun d hd => (hdocs d hd).1) hne
  refine ⟨docs, dict, plists, ws, _, hl, hp1, hdw, hnew, rfl, rfl, rfl, hexact, hlen, ?_⟩
  intro d doc t pos hd ht
  have hmem : doc ∈ docs := List.getElem?_mem hd
  refine ⟨fun t2 pos2 h2 => length_le_maxtf doc t2 pos2 h2, ?_, ?_⟩
  · obtain ⟨t2, pos2, h2, h3⟩ := maxtf_attained doc (hne doc hmem)
    exact ⟨t2, pos2, SMap.find_of_mem _ (hdocs doc hmem).1 h2, h3⟩
  · obtain ⟨id, pl, hid, hpl, -, htf, hval⟩ := hw d doc t pos hd ht
    obtain ⟨id2, pl2, h1, h2, -, h4, h5, h6⟩ :=
      TextCollection.built_weight (Real.logb 2) Real.sqrt sw paras _ hnew d doc t pos hd ht
    have e1 : id2 = id := by
      have : some id2 = some id := by rw [← h1, ← hid]
      exact Option.some.inj this
    subst e1
    have e2 : pl2 = pl := by
      have : some pl2 = some pl := by rw [← h2, ← hpl]
      exact Option.some.inj this
    subst e2
    rw [one_mul] at h6
    have hN : 0 < docs.length := by
      by_contra h0
      rw [List.getElem?_eq_none (by omega)] at hd
      cases hd
    obtain ⟨para, hpara, hmx⟩ := loadDocuments_maxtf_le sw paras docs dict hl doc hmem
      (hne doc hmem)
    have hmx2 : maxtf doc < 2 ^ 64 := lt_of_le_of_lt hmx (hsize.2 para hpara)
    have htf2 : pos.length < 2 ^ 64 := lt_of_le_of_lt (length_le_maxtf doc t pos ht) hmx2
    refine ⟨id2, pl2, hid, hpl, hval, ?_, h6, ?_⟩
    · intro heq
      rw [hval, weight_zero_of_common r32 r64 h32 h64 pos.length (maxtf doc) docs.length pl2 htf
        htf2 h5 hmx2 hN (by rw [hlen]; exact hsize.1) heq]
    · intro heq
      have hNr : ((docs.length : ℕ) : ℝ) ≠ 0 := Nat.cast_ne_zero.2 (by omega)
      rw [h6, heq, div_self hNr]
      simp

end Pasec

namespace Pasec

theorem tfidf_weight_formula_witness :
    Rounding (binary32 : ℝ → Fl ℝ) ∧ Rounding (binary64 : ℝ → Fl ℝ) ∧
    (∀ para ∈ thirdParas, acceptedTerms [] (strtokAll para) ≠ []) ∧
    (thirdParas.length < 2 ^ 64 ∧ ∀ para ∈ thirdParas, (strtokAll para).length < 2 ^ 64) ∧
    ∃ docs dict plists ws tc, loadDocuments [] thirdParas = some (docs, dict) ∧
      invDoc docs dict = some plists ∧
      dwCalcR binary32 binary64 (Real.logb 2) docs dict plists = some (ws, dict) ∧
      TextCollection.new (Real.logb 2) Real.sqrt [] thirdParas = some tc ∧
      tc.documents = docs ∧ tc.dictionary = dict ∧ tc.plists = plists ∧
      dwCalcR Fl.fin Fl.fin (Real.logb 2) docs dict plists = some (tc.weights, dict) ∧
      docs.length = thirdParas.length ∧
      ∀ (d : Nat) (doc : Document) (t : Str) (pos : List Nat),
        docs[d]? = some doc → doc.terms.find t = some pos →
        (∀ t2 pos2, doc.terms.find t2 = some pos2 → pos2.length ≤ maxtf doc) ∧
        (∃ t2 pos2, doc.terms.find t2 = some pos2 ∧ pos2.length = maxtf doc) ∧
        ∃ id pl, dict.find t = some id ∧ plists[id]? = some pl ∧
          (ws[d]?).bind (fun wv => wv.find t) = some
            (Fl.round binary32 (Fl.div (Fl.round binary32 (Fl.mul (binary32 (pos.length : ℝ))
              (Fl.round binary32 (idf_calcR binary64 (Real.logb 2) docs.length pl))))
              (binary32 (maxtf doc : ℝ)))) ∧
          (pl.size = docs.length → (ws[d]?).bind (fun wv => wv.find t) = some (Fl.fin 0)) ∧
          (tc.weights[d]?).bind (fun wv => wv.find t) = some (Fl.fin
            ((pos.length : ℝ) * Real.logb 2 ((docs.length : ℝ) / (pl.size : ℝ)) /
              (maxtf doc : ℝ))) ∧
          (pl.size = docs.length →
            (tc.weights[d]?).bind (fun wv => wv.find t) = some (Fl.fin 0)) :=
  ⟨binary32_rounding, binary64_rounding, by decide, by decide,
    tfidf_weight_formula binary32 binary64 binary32_rounding binary64_rounding [] thirdParas
      (by decide) (by decide)⟩

end Pasec

/-! ## The loops of similarity -/

namespace Pasec

variable {F : Type} [LinearOrderedField F]

theorem similarityPosting_eq (tc : TextCollection F) (qnorm : Fl F) (word : Str)
    (sim : SMap Nat (Fl F)) (posting : Nat × Nat) (wv : DocWeights F) (w dn : Fl F)
    (h1 : tc.weights[posting.1]? = some wv) (h2 : wv.find word = some w)
    (h3 : tc.dnorms[posting.1]? = some dn) :
    similarityPosting tc qnorm word sim posting =
      some (sim.assign posting.1
        (accum (sim.find posting.1) (tc.contribution qnorm posting.1 word))) := by
  unfold similarityPosting
  simp only [h1, h2, h3, Option.some_bind, Option.map_some', TextCollection.contribution,
    TextCollection.weight, TextCollection.norm, Option.getD_some]
  cases sim.find posting.1 <;> rfl

/-- The inner loop of `similarity` over postings with distinct document
identifiers. -/
theorem similarity_postings (tc : TextCollection F) (qnorm : Fl F) (word : Str)
    (P : List (Nat × Nat)) : ∀ (sim : SMap Nat (Fl F)),
      P.Pairwise (fun a b => a.1 ≠ b.1) →
      (∀ p ∈ P, ∃ wv w dn, tc.weights[p.1]? = some wv ∧ wv.find word = some w ∧
        tc.dnorms[p.1]? = some dn) →
      ∃ sim2, P.foldlM (similarityPosting tc qnorm word) sim = some sim2 ∧
        (sim.WF → sim2.WF) ∧
        ∀ d, sim2.find d = if d ∈ P.map Prod.fst
          then some (accum (sim.find d) (tc.contribution qnorm d word)) else sim.find d := by
  induction P with
  | nil => intro sim _ _; exact ⟨sim, rfl, id, fun d => by simp⟩
  | cons p ps ih =>
    intro sim hpw hlook
    rw [List.pairwise_cons] at hpw
    obtain ⟨wv, w, dn, h1, h2, h3⟩ := hlook p (List.mem_cons_self _ _)
    obtain ⟨sim2, g1, g2, g3⟩ := ih
      (sim.assign p.1 (accum (sim.find p.1) (tc.contribution qnorm p.1 word))) hpw.2
      (fun q hq => hlook q (List.mem_cons_of_mem _ hq))
    refine ⟨sim2, ?_, fun hwf => g2 (SMap.WF_assign _ _ _ hwf), ?_⟩
    · rw [List.foldlM_cons, similarityPosting_eq tc qnorm word sim p wv w dn h1 h2 h3]
      exact g1
    · intro d
      rw [g3 d, SMap.find_assign]
      by_cases hd : d = p.1
      · subst hd
        have hnot : p.1 ∉ ps.map Prod.fst := by
          intro hmem
          obtain ⟨q, hq, hqe⟩ := List.mem_map.1 hmem
          exact hpw.1 q hq hqe.symm
        simp [hnot]
      · rw [if_neg hd]
        have hiff : d ∈ (p :: ps).map Prod.fst ↔ d ∈ ps.map Prod.fst := by simp [hd]
        by_cases hm : d ∈ ps.map Prod.fst
        · rw [if_pos hm, if_pos (hiff.2 hm)]
        · rw [if_neg hm, if_neg (fun h => hm (hiff.1 h))]

theorem SMap.pairwise_keys_ne {K V : Type} [LinearOrder K] (m : SMap K V) (h : m.WF) :
    m.Pairwise (fun a b => a.1 ≠ b.1) :=
  List.Pairwise.imp (fun hlt => ne_of_lt hlt) h

/-- One iteration of the outer loop of `similarity` in a constructed
collection. -/
theorem similarityWord_spec (lg sq : F → F) (sw : List Str) (paras : List Str)
    (tc : TextCollection F) (h : TextCollection.new lg sq sw paras = some tc)
    (qnorm : Fl F) (sim : SMap Nat (Fl F)) (word : Str) :
    ∃ sim2, similarityWord tc qnorm sim word = some sim2 ∧ (sim.WF → sim2.WF) ∧
      ∀ d, sim2.find d = if tc.hasTerm d word = true
        then some (accum (sim.find d) (tc.contribution qnorm d word)) else sim.find d := by
  obtain ⟨-, hpl, hdoc⟩ := TextCollection.built_facts lg sq sw paras tc h
  unfold similarityWord
  cases hid : tc.dictionary.find word with
  | none =>
    refine ⟨sim, rfl, id, ?_⟩
    intro d
    have : tc.hasTerm d word = false := by
      unfold TextCollection.hasTerm
      cases hd : tc.documents[d]? with
      | none => rfl
      | some doc =>
        cases ht : doc.terms.find word with
        | none => simp [ht]
        | some pos =>
          obtain ⟨-, id, hid2, -⟩ := (hdoc d doc hd).2.2.2.2 word pos ht
          rw [hid] at hid2
          cases hid2
    simp [this]
  | some id =>
    obtain ⟨pl, hpl1, hpl2, hpl3⟩ := hpl word id hid
    have hkeys : ∀ d, d ∈ pl.map Prod.fst ↔ tc.hasTerm d word = true := by
      intro d
      have := SMap.mem_keys_iff pl d
      unfold SMap.keys at this
      rw [this, hpl3 d]
      unfold TextCollection.hasTerm
      cases hd : tc.documents[d]? with
      | none => simp
      | some doc => cases ht : doc.terms.find word <;> simp [ht]
    obtain ⟨sim2, g1, g2, g3⟩ := similarity_postings tc qnorm word pl sim
      (SMap.pairwise_keys_ne pl hpl2) (by
        intro p hp
        have hk : tc.hasTerm p.1 word = true := (hkeys p.1).1 (List.mem_map.2 ⟨p, hp, rfl⟩)
        unfold TextCollection.hasTerm at hk
        cases hd : tc.documents[p.1]? with
        | none => rw [hd] at hk; simp at hk
        | some doc =>
          rw [hd] at hk
          simp only [Option.some_bind] at hk
          obtain ⟨pos, hpos⟩ := Option.isSome_iff_exists.1 hk
          obtain ⟨hw, hn, -⟩ := hdoc p.1 doc hd
          have hfw := SMap.find_map_entries (fun term : Str × List Nat =>
            Fl.div (Fl.mul (Fl.ofNat term.2.length)
              (idfOf (tc.plists.map (idf_calc lg tc.documents.length)) tc.dictionary term.1))
              (Fl.ofNat (maxtf doc) : Fl F)) doc.terms word
          rw [hpos] at hfw
          exact ⟨_, _, _, hw, hfw, hn⟩)
    refine ⟨sim2, ?_, g2, ?_⟩
    · simp only [hpl1, Option.some_bind]
      exact g1
    · intro d
      rw [g3 d]
      by_cases hk : tc.hasTerm d word = true
      · rw [if_pos ((hkeys d).2 hk), if_pos hk]
      · rw [if_neg (fun hm => hk ((hkeys d).1 hm)), if_neg hk]

theorem foldl_accum_some (c : Str → Fl F) (l : List Str) : ∀ (s : Fl F),
    l.foldl (fun (o : Option (Fl F)) w => some (accum o (c w))) (some s) =
      some ((l.map c).foldl Fl.add s) := by
  induction l with
  | nil => intro s; rfl
  | cons w ws ih => intro s; rw [List.foldl_cons, List.map_cons, List.foldl_cons]; exact ih _

theorem foldl_accum_none (c : Str → Fl F) (l : List Str) :
    l.foldl (fun (o : Option (Fl F)) w => some (accum o (c w))) none =
      if l = [] then none else some (Fl.sum (l.map c)) := by
  cases l with
  | nil => rfl
  | cons w ws =>
    rw [List.foldl_cons, if_neg (List.cons_ne_nil _ _)]
    show List.foldl _ (some (c w)) ws = _
    rw [foldl_accum_some, Fl.sum, List.map_cons, List.foldl_cons, Fl.zero_add]

theorem foldl_filter_accum (c : Str → Fl F) (p : Str → Bool) (l : List Str) :
    ∀ (o : Option (Fl F)),
    l.foldl (fun (o : Option (Fl F)) w => if p w = true then some (accum o (c w)) else o) o =
      (l.filter p).foldl (fun (o : Option (Fl F)) w => some (accum o (c w))) o := by
  induction l with
  | nil => intro o; rfl
  | cons w ws ih =>
    intro o
    rw [List.foldl_cons, ih]
    cases hp : p w
    · simp [List.filter, hp]
    · simp [List.filter, hp]

/-- The loop of `similarity` in a constructed collection: it returns, and the
entry of each document is the unit-query cosine reference. -/
theorem similarity_spec (lg sq : F → F) (sw : List Str) (paras : List Str)
    (tc : TextCollection F) (h : TextCollection.new lg sq sw paras = some tc)
    (query : Query) :
    ∃ sim, tc.similarity sq query [] = some sim ∧ sim.WF ∧
      ∀ d, sim.find d = cosineRef sq tc query d := by
  have key : ∀ (qnorm : Fl F) (q : List Str) (sim : SMap Nat (Fl F)),
      ∃ sim2, q.foldlM (similarityWord tc qnorm) sim = some sim2 ∧ (sim.WF → sim2.WF) ∧
        ∀ d, sim2.find d = q.foldl (fun (o : Option (Fl F)) w =>
          if tc.hasTerm d w = true then some (accum o (tc.contribution qnorm d w)) else o)
          (sim.find d) := by
    intro qnorm q
    induction q with
    | nil => intro sim; exact ⟨sim, rfl, id, fun d => rfl⟩
    | cons w ws ih =>
      intro sim
      obtain ⟨sim1, h1, h2, h3⟩ := similarityWord_spec lg sq sw paras tc h qnorm sim w
      obtain ⟨sim2, g1, g2, g3⟩ := ih sim1
      refine ⟨sim2, ?_, fun hwf => g2 (h2 hwf), ?_⟩
      · rw [List.foldlM_cons, h1]
        exact g1
      · intro d
        rw [g3 d, h3 d, List.foldl_cons]
  obtain ⟨sim, h1, h2, h3⟩ := key (Fl.sqrt sq (Fl.ofNat query.length)) query []
  refine ⟨sim, h1, h2 SMap.WF_nil, ?_⟩
  intro d
  rw [h3 d, foldl_filter_accum]
  show List.foldl _ none _ = _
  rw [foldl_accum_none]
  rfl

end Pasec

/-! ## Similarity -/

namespace Pasec

variable {F : Type} [LinearOrderedField F]

theorem Fl.sum_fin {α : Type} (g : α → F) (l : List α) : ∀ (a : F),
    (l.map (fun t => Fl.fin (g t))).foldl Fl.add (Fl.fin a) = Fl.fin (a + (l.map g).sum) := by
  induction l with
  | nil => intro a; simp
  | cons x xs ih =>
    intro a
    rw [List.map_cons, List.foldl_cons, Fl.add_fin, ih, List.map_cons, List.sum_cons, add_assoc]

theorem sumsq_fin (l : DocWeights F) (hfin : ∀ e ∈ l, ∃ a, e.2 = Fl.fin a) : ∀ (a0 : F),
    0 ≤ a0 → ∃ b, 0 ≤ b ∧
      l.foldl (fun sum term => Fl.add sum (Fl.pow2 term.2)) (Fl.fin a0) = Fl.fin b := by
  induction l with
  | nil => intro a0 h0; exact ⟨a0, h0, rfl⟩
  | cons e es ih =>
    intro a0 h0
    obtain ⟨a, ha⟩ := hfin e (List.mem_cons_self _ _)
    rw [List.foldl_cons, ha, Fl.pow2, Fl.mul_fin, Fl.add_fin]
    exact ih (fun e2 he2 => hfin e2 (List.mem_cons_of_mem _ he2)) _
      (add_nonneg h0 (mul_self_nonneg a))

/-- In a constructed collection every stored weight and every norm is a
finite value. -/
theorem TextCollection.built_finite (lg sq : F → F) (sw : List Str) (paras : List Str)
    (tc : TextCollection F) (h : TextCollection.new lg sq sw paras = some tc)
    (d : Nat) (doc : Document) (hd : tc.documents[d]? = some doc) :
    (∀ t, tc.hasTerm d t = true → ∃ a, tc.weight d t = Fl.fin a) ∧
    ∃ n, tc.norm d = Fl.fin n := by
  obtain ⟨-, -, hdoc⟩ := TextCollection.built_facts lg sq sw paras tc h
  obtain ⟨hw, hn, hwf, -, -⟩ := hdoc d doc hd
  have hweight : ∀ t pos, doc.terms.find t = some pos → ∃ a, tc.weight d t = Fl.fin a := by
    intro t pos ht
    obtain ⟨id, pl, -, -, -, -, -, h6⟩ :=
      TextCollection.built_weight lg sq sw paras tc h d doc t pos hd ht
    exact ⟨_, by rw [TextCollection.weight, h6]; rfl⟩
  refine ⟨?_, ?_⟩
  · intro t ht
    unfold TextCollection.hasTerm at ht
    rw [hd] at ht
    obtain ⟨pos, hpos⟩ := Option.isSome_iff_exists.1 ht
    exact hweight t pos hpos
  · have hfin : ∀ e ∈ docWeights (tc.plists.map (idf_calc lg tc.documents.length))
        tc.dictionary doc, ∃ a, e.2 = Fl.fin a := by
      intro e he
      obtain ⟨term, hterm, hte⟩ := List.mem_map.1 he
      have hf := SMap.find_of_mem doc.terms hwf (k := term.1) (v := term.2) hterm
      obtain ⟨a, ha⟩ := hweight term.1 term.2 hf
      refine ⟨a, ?_⟩
      rw [← ha, TextCollection.weight, hw]
      simp only [Option.some_bind, docWeights]
      rw [SMap.find_map_entries, hf, ← hte]
      rfl
    obtain ⟨b, hb, hsum⟩ := sumsq_fin _ hfin 0 (le_refl _)
    refine ⟨sq b, ?_⟩
    rw [TextCollection.norm, hn, Option.getD_some, l2norm, hsum, Fl.sqrt_fin sq b hb]

omit [LinearOrderedField F] in
theorem hasTerm_iff (tc : TextCollection F) (d : Nat) (t : Str) :
    tc.hasTerm d t = true ↔ ∃ doc, tc.documents[d]? = some doc ∧ t ∈ doc.terms.keys := by
  unfold TextCollection.hasTerm
  cases hd : tc.documents[d]? with
  | none => simp
  | some doc =>
    simp only [Option.some_bind, Option.some.injEq, exists_eq_left']
    rw [SMap.mem_keys_iff, Option.isSome_iff_exists]

/-- With a norm that is not zero, the contribution of a query term present in
the document is the real quotient. -/
theorem contribution_fin (sw : List Str) (paras : List Str) (tc : TextCollection ℝ)
    (h : TextCollection.new (Real.logb 2) Real.sqrt sw paras = some tc) (query : Query)
    (d : Nat) (n : ℝ) (hn : tc.norm d = Fl.fin n) (hn0 : n ≠ 0) (t : Str) (htq : t ∈ query)
    (ht : tc.hasTerm d t = true) :
    tc.contribution (Fl.sqrt Real.sqrt (Fl.ofNat query.length)) d t =
      Fl.fin ((tc.weight d t).val / (n * Real.sqrt (query.length : ℝ))) := by
  obtain ⟨doc, hdoc, -⟩ := (hasTerm_iff tc d t).1 ht
  obtain ⟨hwfin, -⟩ := TextCollection.built_finite (Real.logb 2) Real.sqrt sw paras tc h d doc hdoc
  have hq : 0 < query.length := List.length_pos.2 (List.ne_nil_of_mem htq)
  have hqr : (0 : ℝ) < (query.length : ℝ) := Nat.cast_pos.2 hq
  have hsq : Real.sqrt (query.length : ℝ) ≠ 0 := ne_of_gt (Real.sqrt_pos.2 hqr)
  obtain ⟨a, ha⟩ := hwfin t ht
  rw [TextCollection.contribution, ha, hn, Fl.ofNat, Fl.sqrt_fin Real.sqrt _ (le_of_lt hqr),
    Fl.mul_fin, Fl.div_fin _ _ (mul_ne_zero hn0 hsq)]
  rfl

/-- With a norm that is not zero, the reference score is the real sum. -/
theorem cosineRef_fin (sw : List Str) (paras : List Str) (tc : TextCollection ℝ)
    (h : TextCollection.new (Real.logb 2) Real.sqrt sw paras = some tc) (query : Query)
    (d : Nat) (n : ℝ) (hn : tc.norm d = Fl.fin n) (hn0 : n ≠ 0) (s : Fl ℝ)
    (hs : cosineRef Real.sqrt tc query d = some s) :
    s = Fl.fin (((query.filter (tc.hasTerm d)).map (fun t =>
      (tc.weight d t).val / (n * Real.sqrt (query.length : ℝ)))).sum) := by
  rw [cosineRef] at hs
  split_ifs at hs with hnil
  have hmap : (query.filter (tc.hasTerm d)).map
        (tc.contribution (Fl.sqrt Real.sqrt (Fl.ofNat query.length)) d) =
      (query.filter (tc.hasTerm d)).map (fun t =>
        Fl.fin ((tc.weight d t).val / (n * Real.sqrt (query.length : ℝ)))) := by
    apply List.map_congr_left
    intro t ht
    exact contribution_fin sw paras tc h query d n hn hn0 t (List.mem_filter.1 ht).1
      (List.mem_filter.1 ht).2
  rw [hmap, Fl.sum, Fl.sum_fin, zero_add] at hs
  exact (Option.some.inj hs).symm

/-- C5: Similarity equals the unit-query cosine reference. In a constructed
collection `similarity`, started on an empty result map, returns a map that
has an entry for document `d` exactly when the term map of `d` contains a term
of the query, and that entry is the sum over the query terms present in `d`
of `weight(d,t) / (norm(d) * sqrt |q|)`, where `|q|` counts all query terms;
when `norm(d)` is not zero this is the real number given by that formula. -/
theorem similarity_unit_cosine (sw : List Str) (paras : List Str) (tc : TextCollection ℝ)
    (h : TextCollection.new (Real.logb 2) Real.sqrt sw paras = some tc) (query : Query) :
    ∃ sim, tc.similarity Real.sqrt query [] = some sim ∧
      (∀ d, d ∈ sim.keys ↔
        ∃ doc, tc.documents[d]? = some doc ∧ ∃ t ∈ query, t ∈ doc.terms.keys) ∧
      (∀ d, sim.find d = cosineRef Real.sqrt tc query d) ∧
      (∀ d s, sim.find d = some s →
        s = Fl.sum ((query.filter (tc.hasTerm d)).map (fun t =>
          Fl.div (tc.weight d t)
            (Fl.mul (tc.norm d) (Fl.sqrt Real.sqrt (Fl.ofNat query.length)))))) ∧
      (∀ d s n, sim.find d = some s → tc.norm d = Fl.fin n → n ≠ 0 →
        s = Fl.fin (((query.filter (tc.hasTerm d)).map (fun t =>
          (tc.weight d t).val / (n * Real.sqrt (query.length : ℝ)))).sum)) := by
  obtain ⟨sim, h1, -, h3⟩ := similarity_spec (Real.logb 2) Real.sqrt sw paras tc h query
  have hval : ∀ d s, sim.find d = some s →
      query.filter (tc.hasTerm d) ≠ [] ∧
      s = Fl.sum ((query.filter (tc.hasTerm d)).map (fun t =>
          Fl.div (tc.weight d t)
            (Fl.mul (tc.norm d) (Fl.sqrt Real.sqrt (Fl.ofNat query.length))))) := by
    intro d s hs
    rw [h3 d, cosineRef] at hs
    split_ifs at hs with hnil
    exact ⟨hnil, (Option.some.inj hs).symm⟩
  refine ⟨sim, h1, ?_, h3, fun d s hs => (hval d s hs).2, ?_⟩
  · intro d
    rw [SMap.mem_keys_iff, h3 d, cosineRef]
    constructor
    · rintro ⟨v, hv⟩
      split_ifs at hv with hnil
      obtain ⟨t, ht⟩ := List.exists_mem_of_ne_nil _ hnil
      obtain ⟨htq, htd⟩ := List.mem_filter.1 ht
      obtain ⟨doc, hdoc, hk⟩ := (hasTerm_iff tc d t).1 htd
      exact ⟨doc, hdoc, t, htq, hk⟩
    · rintro ⟨doc, hdoc, t, htq, hk⟩
      have : query.filter (tc.hasTerm d) ≠ [] :=
        List.ne_nil_of_mem (List.mem_filter.2 ⟨htq, (hasTerm_iff tc d t).2 ⟨doc, hdoc, hk⟩⟩)
      rw [if_neg this]
      exact ⟨_, rfl⟩
  · intro d s n hs hn hn0
    rw [h3 d] at hs
    exact cosineRef_fin sw paras tc h query d n hn hn0 s hs

theorem similarity_unit_cosine_witness :
    TextCollection.new (Real.logb 2) Real.sqrt [] sampleParas =
      some (sampleCollection (Real.logb 2) Real.sqrt) ∧
    ∃ sim, (sampleCollection (Real.logb 2) Real.sqrt).similarity Real.sqrt
        ["apple".toList] [] = some sim ∧
      (∀ d, d ∈ sim.keys ↔
        ∃ doc, (sampleCollection (Real.logb 2) Real.sqrt).documents[d]? = some doc ∧
          ∃ t ∈ ["apple".toList], t ∈ doc.terms.keys) ∧
      (∀ d, sim.find d =
        cosineRef Real.sqrt (sampleCollection (Real.logb 2) Real.sqrt) ["apple".toList] d) ∧
      (∀ d s, sim.find d = some s →
        s = Fl.sum ((["apple".toList].filter
            ((sampleCollection (Real.logb 2) Real.sqrt).hasTerm d)).map (fun t =>
          Fl.div ((sampleCollection (Real.logb 2) Real.sqrt).weight d t)
            (Fl.mul ((sampleCollection (Real.logb 2) Real.sqrt).norm d)
              (Fl.sqrt Real.sqrt (Fl.ofNat ["apple".toList].length)))))) ∧
      (∀ d s n, sim.find d = some s →
        (sampleCollection (Real.logb 2) Real.sqrt).norm d = Fl.fin n → n ≠ 0 →
        s = Fl.fin (((["apple".toList].filter
            ((sampleCollection (Real.logb 2) Real.sqrt).hasTerm d)).map (fun t =>
          ((sampleCollection (Real.logb 2) Real.sqrt).weight d t).val /
            (n * Real.sqrt ((["apple".toList].length : Nat) : ℝ)))).sum)) :=
  ⟨sampleCollection_built (Real.logb 2) Real.sqrt,
    similarity_unit_cosine [] sampleParas (sampleCollection (Real.logb 2) Real.sqrt)
      (sampleCollection_built (Real.logb 2) Real.sqrt) ["apple".toList]⟩

end Pasec

/-! ## Ordering of scores -/

namespace Pasec

variable {F : Type} [LinearOrderedField F]

theorem Fl.gt_of_finite (a b : Fl F) (ha : a.isFinite = true) (hb : b.isFinite = true) :
    Fl.gt a b = true ↔ b.val < a.val := by
  cases a <;> cases b <;> simp_all [Fl.isFinite, Fl.gt, Fl.val]

theorem mem_sortedInsert {α : Type} (comp : α → α → Bool) (x z : α) (l : List α) :
    z ∈ sortedInsert comp x l ↔ z = x ∨ z ∈ l := by
  induction l with
  | nil => simp [sortedInsert]
  | cons y ys ih =>
    simp only [sortedInsert]
    split_ifs
    · simp only [List.mem_cons, ih]; tauto
    · simp only [List.mem_cons]

theorem perm_sortedInsert {α : Type} (comp : α → α → Bool) (x : α) (l : List α) :
    (sortedInsert comp x l).Perm (x :: l) := by
  induction l with
  | nil => simp [sortedInsert]
  | cons y ys ih =>
    simp only [sortedInsert]
    split_ifs
    · exact (List.Perm.cons y ih).trans (List.Perm.swap x y ys)
    · exact List.Perm.refl _

theorem perm_sortAll {α : Type} (comp : α → α → Bool) (l : List α) :
    (sortAll comp l).Perm l := by
  induction l with
  | nil => exact List.Perm.refl _
  | cons x xs ih =>
    simp only [sortAll]
    exact (perm_sortedInsert comp x _).trans (List.Perm.cons x ih)

/-- Ordering a vector of finite scores by `sp1.second > sp2.second` leaves no
pair in which the later score is greater. -/
theorem pairwise_sortAll (l : List (ScorePair F)) (hfin : ∀ e ∈ l, e.2.isFinite = true) :
    (sortAll (fun (sp1 sp2 : ScorePair F) => Fl.gt sp1.2 sp2.2) l).Pairwise
      (fun a b => Fl.gt b.2 a.2 = false) := by
  induction l with
  | nil => exact List.Pairwise.nil
  | cons x xs ih =>
    have hx := hfin x (List.mem_cons_self _ _)
    have hxs : ∀ e ∈ xs, e.2.isFinite = true := fun e he => hfin e (List.mem_cons_of_mem _ he)
    have ih2 := ih hxs
    have hfs : ∀ e ∈ sortAll (fun (sp1 sp2 : ScorePair F) => Fl.gt sp1.2 sp2.2) xs,
        e.2.isFinite = true := fun e he => hxs e ((perm_sortAll _ xs).mem_iff.1 he)
    simp only [sortAll]
    generalize sortAll (fun (sp1 sp2 : ScorePair F) => Fl.gt sp1.2 sp2.2) xs = s at ih2 hfs
    induction s with
    | nil => simp [sortedInsert]
    | cons y ys ihs =>
      rw [List.pairwise_cons] at ih2
      have hy := hfs y (List.mem_cons_self _ _)
      have hys : ∀ e ∈ ys, e.2.isFinite = true := fun e he => hfs e (List.mem_cons_of_mem _ he)
      simp only [sortedInsert]
      split_ifs with hc
      · refine List.pairwise_cons.2 ⟨?_, ihs ih2.2 hys⟩
        intro z hz
        rcases (mem_sortedInsert _ x z ys).1 hz with hz | hz
        · subst hz
          have h1 := (Fl.gt_of_finite y.2 z.2 hy hx).1 hc
          have h2 : ¬ (Fl.gt z.2 y.2 = true) := fun h =>
            lt_asymm h1 ((Fl.gt_of_finite z.2 y.2 hx hy).1 h)
          simpa using h2
        · exact ih2.1 z hz
      · refine List.pairwise_cons.2 ⟨?_, List.pairwise_cons.2 ih2⟩
        intro z hz
        have hxy : ¬ x.2.val < y.2.val := fun h => hc ((Fl.gt_of_finite y.2 x.2 hy hx).2 h)
        rcases List.mem_cons.1 hz with hz | hz
        · subst hz
          simpa using hc
        · have hzf := hys z hz
          have hyz : ¬ (Fl.gt z.2 y.2 = true) := by rw [ih2.1 z hz]; simp
          have hyz2 : ¬ y.2.val < z.2.val := fun h => hyz ((Fl.gt_of_finite z.2 y.2 hzf hy).2 h)
          have : ¬ (Fl.gt z.2 x.2 = true) := fun h =>
            absurd ((Fl.gt_of_finite z.2 x.2 hzf hx).1 h) (by
              have h1 := not_lt.1 hxy
              have h2 := not_lt.1 hyz2
              exact not_lt.2 (le_trans h2 h1))
          simpa using this

/-- Under a strict weak ordering, "does not precede" is transitive. -/
theorem StrictWeakOn.neg_trans {α : Type} {comp : α → α → Bool} {v : List α}
    (hsw : StrictWeakOn comp v) (a b c : α) (ha : a ∈ v) (hb : b ∈ v) (hc : c ∈ v)
    (hab : comp a b = false) (hbc : comp b c = false) : comp a c = false := by
  obtain ⟨hirr, htr, heq⟩ := hsw
  cases hac : comp a c with
  | false => rfl
  | true =>
    have hba : comp b a = false := by
      cases h : comp b a with
      | false => rfl
      | true => rw [htr b hb a ha c hc h hac] at hbc; cases hbc
    have hcb : comp c b = false := by
      cases h : comp c b with
      | false => rfl
      | true => rw [htr a ha c hc b hb hac h] at hab; cases hab
    rw [(heq a ha b hb c hc hab hba hbc hcb).1] at hac
    cases hac

/-- Under a strict weak ordering, of two elements at most one precedes the
other. -/
theorem StrictWeakOn.asymm {α : Type} {comp : α → α → Bool} {v : List α}
    (hsw : StrictWeakOn comp v) (a b : α) (ha : a ∈ v) (hb : b ∈ v)
    (hab : comp a b = true) : comp b a = false := by
  obtain ⟨hirr, htr, -⟩ := hsw
  cases h : comp b a with
  | false => rfl
  | true =>
    have := htr a ha b hb a ha hab h
    rw [hirr a ha] at this
    cases this

theorem pairwise_sortedInsert {α : Type} (comp : α → α → Bool) (v : List α)
    (hsw : StrictWeakOn comp v) (x : α) (hx : x ∈ v) (l : List α) (hl : ∀ y ∈ l, y ∈ v)
    (hp : l.Pairwise (fun a b => comp b a = false)) :
    (sortedInsert comp x l).Pairwise (fun a b => comp b a = false) := by
  induction l with
  | nil => simp [sortedInsert]
  | cons y ys ih =>
    have hy := hl y (List.mem_cons_self _ _)
    have hys : ∀ z ∈ ys, z ∈ v := fun z hz => hl z (List.mem_cons_of_mem _ hz)
    rw [List.pairwise_cons] at hp
    simp only [sortedInsert]
    split_ifs with hc
    · refine List.pairwise_cons.2 ⟨?_, ih hys hp.2⟩
      intro z hz
      rcases (mem_sortedInsert comp x z ys).1 hz with hz | hz
      · subst hz
        exact hsw.asymm y z hy hx hc
      · exact hp.1 z hz
    · have hyx : comp y x = false := by simpa using hc
      refine List.pairwise_cons.2 ⟨?_, List.pairwise_cons.2 hp⟩
      intro z hz
      rcases List.mem_cons.1 hz with hz | hz
      · subst hz
        exact hyx
      · exact hsw.neg_trans z y x (hys z hz) hy hx (hp.1 z hz) hyx

/-- Ordering a vector by a strict weak ordering leaves no pair in which the
later element precedes the earlier one. -/
theorem pairwise_sortAll_strictWeak {α : Type} (comp : α → α → Bool) (v : List α)
    (hsw : StrictWeakOn comp v) (l : List α) (hl : ∀ y ∈ l, y ∈ v) :
    (sortAll comp l).Pairwise (fun a b => comp b a = false) := by
  induction l with
  | nil => exact List.Pairwise.nil
  | cons x xs ih =>
    have hxs : ∀ y ∈ xs, y ∈ v := fun y hy => hl y (List.mem_cons_of_mem _ hy)
    simp only [sortAll]
    exact pairwise_sortedInsert comp v hsw x (hl x (List.mem_cons_self _ _)) _
      (fun y hy => hxs y ((perm_sortAll comp xs).mem_iff.1 hy)) (ih hxs)

/-- The insertion sort meets the contract of `std::partial_sort`. -/
theorem stablePartialSort_contract : PartialSort stablePartialSort := by
  refine ⟨?_, ?_⟩
  · intro α comp middle v h
    have : ¬ middle ≤ v.length := by omega
    simp [stablePartialSort, this]
  · intro α comp middle v h hsw
    refine ⟨sortAll comp v, by simp [stablePartialSort, h], perm_sortAll comp v, ?_, ?_⟩
    · have hp := pairwise_sortAll_strictWeak comp v hsw v (fun y hy => hy)
      rw [← List.take_append_drop middle (sortAll comp v), List.pairwise_append] at hp
      exact hp.1
    · have hp := pairwise_sortAll_strictWeak comp v hsw v (fun y hy => hy)
      rw [← List.take_append_drop middle (sortAll comp v), List.pairwise_append] at hp
      exact hp.2.2

/-- The comparator `p1.second > p2.second` is a strict weak ordering on pairs
with finite second components. -/
theorem strictWeakOn_gt {κ : Type} (v : List (κ × Fl F))
    (hfin : ∀ e ∈ v, e.2.isFinite = true) :
    StrictWeakOn (fun (p1 p2 : κ × Fl F) => Fl.gt p1.2 p2.2) v := by
  have key : ∀ a ∈ v, ∀ b ∈ v, (Fl.gt a.2 b.2 = false ↔ a.2.val ≤ b.2.val) := by
    intro a ha b hb
    have := Fl.gt_of_finite a.2 b.2 (hfin a ha) (hfin b hb)
    constructor
    · intro h
      by_contra hlt
      rw [this.2 (not_le.1 hlt)] at h
      cases h
    · intro h
      cases hg : Fl.gt a.2 b.2 with
      | false => rfl
      | true => exact absurd (this.1 hg) (not_lt.2 h)
  refine ⟨?_, ?_, ?_⟩
  · intro a ha
    exact (key a ha a ha).2 (le_refl _)
  · intro a ha b hb c hc hab hbc
    have h1 := (Fl.gt_of_finite a.2 b.2 (hfin a ha) (hfin b hb)).1 hab
    have h2 := (Fl.gt_of_finite b.2 c.2 (hfin b hb) (hfin c hc)).1 hbc
    exact (Fl.gt_of_finite a.2 c.2 (hfin a ha) (hfin c hc)).2 (lt_trans h2 h1)
  · intro a ha b hb c hc hab hba hbc hcb
    have h1 := (key a ha b hb).1 hab
    have h2 := (key b hb a ha).1 hba
    have h3 := (key b hb c hc).1 hbc
    have h4 := (key c hc b hb).1 hcb
    exact ⟨(key a ha c hc).2 (le_trans h1 h3), (key c hc a ha).2 (le_trans h4 h2)⟩

theorem mapM_range_getElem? {α : Type} (l : List α) (n : Nat) (hn : n ≤ l.length) :
    (List.range n).mapM (fun i => l[i]?) = some (l.take n) := by
  induction n with
  | zero => rfl
  | succ n ih =>
    have hlt : n < l.length := by omega
    rw [List.range_succ, List.mapM_append, ih (by omega)]
    simp only [List.mapM_cons, List.mapM_nil, List.getElem?_eq_getElem hlt, Option.pure_def,
      Option.bind_eq_bind, Option.some_bind]
    rw [List.take_succ, List.getElem?_eq_getElem hlt]
    rfl

theorem mapM_range_getElem?_none {α : Type} (l : List α) (n : Nat) (hn : l.length < n) :
    (List.range n).mapM (fun i => l[i]?) = none := by
  induction n with
  | zero => omega
  | succ n ih =>
    rw [List.range_succ, List.mapM_append]
    by_cases h : l.length < n
    · rw [ih h]; rfl
    · have : n = l.length := by omega
      subst this
      have e : [l.length].mapM (fun i => l[i]?) = none := by
        rw [List.mapM_cons, List.getElem?_eq_none (le_refl _)]
        rfl
      rw [mapM_range_getElem? l l.length (le_refl _), e]
      rfl

end Pasec

/-! ## Zero norms and top-K -/

namespace Pasec

variable {F : Type} [LinearOrderedField F]

/-- The scenario of the specification: the query `apple` scores document 0
with 1 and no other document. -/
theorem sample_similarity :
    (sampleCollection (Real.logb 2) Real.sqrt).similarity Real.sqrt ["apple".toList] [] =
      some [(0, Fl.fin 1)] := by
  have h2 : Real.logb 2 2 = 1 := Real.logb_self_eq_one (by norm_num)
  simp [sampleCollection, TextCollection.similarity, similarityWord, similarityPosting,
    sampleDocs, sampleDict, samplePlists, SMap.find, docWeights, idfOf, idf_calc, maxtf, l2norm,
    Fl.ofNat, Fl.mul, Fl.div, Fl.log2, Fl.sqrt, Fl.add, Fl.pow2, Fl.infOfSign, SMap.assign,
    SMap.size, h2]

/-- C8 (the code at the failing input): in the one-paragraph collection
`apple banana` the norm of document 0 is 0, the document contains the query
term `apple`, and the score `similarity` reports for it is `NaN`, not 0. -/
theorem similarity_zero_norm_nan :
    (commonCollection (Real.logb 2) Real.sqrt).norm 0 = Fl.fin 0 ∧
    (commonCollection (Real.logb 2) Real.sqrt).hasTerm 0 "apple".toList = true ∧
    (TextCollection.new (Real.logb 2) Real.sqrt [] commonParas).bind
      (fun tc => tc.similarity Real.sqrt ["apple".toList] []) = some [(0, Fl.nan)] := by
  refine ⟨?_, by decide, ?_⟩
  · simp [commonCollection, TextCollection.norm, commonDocs, commonDict, commonPlists, SMap.find,
      docWeights, idfOf, idf_calc, maxtf, l2norm, Fl.ofNat, Fl.mul, Fl.div, Fl.log2, Fl.sqrt,
      Fl.add, Fl.pow2, SMap.size]
  · rw [commonCollection_built]
    simp [commonCollection, TextCollection.similarity, similarityWord, similarityPosting,
      commonDocs, commonDict, commonPlists, SMap.find, docWeights, idfOf, idf_calc, maxtf,
      l2norm, Fl.ofNat, Fl.mul, Fl.div, Fl.log2, Fl.sqrt, Fl.add, Fl.pow2, Fl.infOfSign,
      SMap.assign, SMap.size]

/-- In a constructed collection the norm of every document is finite, and for
a document whose norm is not zero every contribution of a query term it
contains, and the score reported for it, are finite. -/
theorem similarity_finite_of_norm_ne_zero (sw : List Str) (paras : List Str)
    (tc : TextCollection ℝ)
    (h : TextCollection.new (Real.logb 2) Real.sqrt sw paras = some tc) (query : Query)
    (d : Nat) (doc : Document) (hd : tc.documents[d]? = some doc) :
    (∃ n, tc.norm d = Fl.fin n) ∧
    (tc.norm d ≠ Fl.fin 0 →
      (∀ t ∈ query, tc.hasTerm d t = true →
        tc.contribution (Fl.sqrt Real.sqrt (Fl.ofNat query.length)) d t =
          Fl.fin ((tc.weight d t).val / ((tc.norm d).val * Real.sqrt (query.length : ℝ)))) ∧
      ∃ sim, tc.similarity Real.sqrt query [] = some sim ∧
        ∀ s, sim.find d = some s → s.isFinite = true) := by
  obtain ⟨-, n, hn⟩ := TextCollection.built_finite (Real.logb 2) Real.sqrt sw paras tc h d doc hd
  refine ⟨⟨n, hn⟩, ?_⟩
  intro hne
  have hn0 : n ≠ 0 := fun h0 => hne (by rw [hn, h0])
  refine ⟨?_, ?_⟩
  · intro t htq ht
    rw [contribution_fin sw paras tc h query d n hn hn0 t htq ht, hn]
    rfl
  · obtain ⟨sim, h1, -, h3⟩ := similarity_spec (Real.logb 2) Real.sqrt sw paras tc h query
    refine ⟨sim, h1, ?_⟩
    intro s hs
    rw [h3 d] at hs
    rw [cosineRef_fin sw paras tc h query d n hn hn0 s hs]
    rfl

theorem similarity_finite_of_norm_ne_zero_witness :
    (∃ n, (sampleCollection (Real.logb 2) Real.sqrt).norm 0 = Fl.fin n) ∧
    ((sampleCollection (Real.logb 2) Real.sqrt).norm 0 ≠ Fl.fin 0 →
      (∀ t ∈ ["apple".toList],
        (sampleCollection (Real.logb 2) Real.sqrt).hasTerm 0 t = true →
        (sampleCollection (Real.logb 2) Real.sqrt).contribution
            (Fl.sqrt Real.sqrt (Fl.ofNat ["apple".toList].length)) 0 t =
          Fl.fin (((sampleCollection (Real.logb 2) Real.sqrt).weight 0 t).val /
            (((sampleCollection (Real.logb 2) Real.sqrt).norm 0).val *
              Real.sqrt ((["apple".toList].length : Nat) : ℝ)))) ∧
      ∃ sim, (sampleCollection (Real.logb 2) Real.sqrt).similarity Real.sqrt
          ["apple".toList] [] = some sim ∧
        ∀ s, sim.find 0 = some s → s.isFinite = true) :=
  similarity_finite_of_norm_ne_zero [] sampleParas (sampleCollection (Real.logb 2) Real.sqrt)
    (sampleCollection_built (Real.logb 2) Real.sqrt) ["apple".toList] 0
    { terms := [("apple".toList, [0, 1]), ("banana".toList, [2])] } rfl

/-- When fewer documents are scored than `nsorting` asks for, `search` calls
`std::partial_sort` with `middle` past the end of the score vector. -/
theorem searchQuery_past_end (psort : PartialSortFn) (hps : PartialSort psort) (sq : F → F)
    (tc : TextCollection F) (nsorting nkws : Nat) (query : Query) (sim : SMap Nat (Fl F))
    (hsim : tc.similarity sq query [] = some sim) (hK : sim.length < nsorting) :
    psort (ScorePair F) (fun sp1 sp2 => Fl.gt sp1.2 sp2.2) nsorting sim = none ∧
    searchQuery psort sq tc nsorting nkws query = none := by
  have h0 : nsorting ≠ 0 := by omega
  have hp := hps.past_end (ScorePair F) (fun sp1 sp2 => Fl.gt sp1.2 sp2.2) nsorting sim hK
  refine ⟨hp, ?_⟩
  rw [searchQuery, hsim]
  simp only [Option.some_bind, ne_eq, h0, not_false_eq_true, if_true, hp, Option.none_bind]

/-- C9 (the code at the failing input): with the collection of the scenario
and the query `apple`, one document is scored; for the top-K value 3 and the
keyword count 5 that `main` passes, `search` calls `std::partial_sort` with
`middle` two places past the end of the score vector and is undefined, with
every function that meets the contract of `std::partial_sort`, among them the
insertion sort; and the places 0 to 2 that the output loop visits are not all
inside the vector. -/
theorem search_topK_past_end :
    (sampleCollection (Real.logb 2) Real.sqrt).similarity Real.sqrt ["apple".toList] [] =
      some [(0, Fl.fin 1)] ∧
    (∀ psort : PartialSortFn, PartialSort psort →
      psort (ScorePair ℝ) (fun sp1 sp2 => Fl.gt sp1.2 sp2.2) 3 [(0, Fl.fin 1)] = none ∧
      (sampleCollection (Real.logb 2) Real.sqrt).search psort Real.sqrt [["apple".toList]] 3 5 =
        none) ∧
    (sampleCollection (Real.logb 2) Real.sqrt).search stablePartialSort Real.sqrt
      [["apple".toList]] 3 5 = none ∧
    (List.range 3).mapM (fun i => ([(0, Fl.fin 1)] : List (ScorePair ℝ))[i]?) = none := by
  have key : ∀ psort : PartialSortFn, PartialSort psort →
      psort (ScorePair ℝ) (fun sp1 sp2 => Fl.gt sp1.2 sp2.2) 3 [(0, Fl.fin 1)] = none ∧
      (sampleCollection (Real.logb 2) Real.sqrt).search psort Real.sqrt [["apple".toList]] 3 5 =
        none := by
    intro psort hps
    obtain ⟨h1, h2⟩ := searchQuery_past_end psort hps Real.sqrt
      (sampleCollection (Real.logb 2) Real.sqrt) 3 5 ["apple".toList] [(0, Fl.fin 1)]
      sample_similarity (by simp)
    refine ⟨h1, ?_⟩
    rw [TextCollection.search, List.mapM_cons, h2]
    rfl
  exact ⟨sample_similarity, key, (key stablePartialSort stablePartialSort_contract).2, by rfl⟩

end Pasec

/-! ## Instances on the scenario -/

namespace Pasec

theorem posting_list_consistency_witness :
    loadDocuments [] sampleParas = some (sampleDocs, sampleDict) ∧
    ∃ plists, invDoc sampleDocs sampleDict = some plists ∧ plists.length = sampleDict.size ∧
      (∀ t i, sampleDict.find t = some i → ∃ pl, plists[i]? = some pl ∧
        (∀ j ∈ pl.keys, j < sampleDocs.length) ∧
        ∀ (j : Nat) (doc : Document), sampleDocs[j]? = some doc →
          (j ∈ pl.keys ↔ t ∈ doc.terms.keys) ∧
          (∀ pos, doc.terms.find t = some pos → pl.find j = some pos.length)) ∧
      (∀ (lg sq : ℝ → ℝ) (tc : TextCollection ℝ),
        TextCollection.new lg sq [] sampleParas = some tc →
        tc.documents = sampleDocs ∧ tc.dictionary = sampleDict ∧ tc.plists = plists) :=
  ⟨by decide, posting_list_consistency [] sampleParas sampleDocs sampleDict (by decide)⟩

theorem sparsity_invariant_witness :
    TextCollection.new (Real.logb 2) Real.sqrt [] sampleParas =
      some (sampleCollection (Real.logb 2) Real.sqrt) ∧
    (sampleCollection (Real.logb 2) Real.sqrt).weights.length =
      (sampleCollection (Real.logb 2) Real.sqrt).documents.length ∧
    ∀ (d : Nat) (doc : Document),
      (sampleCollection (Real.logb 2) Real.sqrt).documents[d]? = some doc →
      ∃ wv, (sampleCollection (Real.logb 2) Real.sqrt).weights[d]? = some wv ∧
        wv.keys = doc.terms.keys :=
  ⟨sampleCollection_built (Real.logb 2) Real.sqrt,
    sparsity_invariant (Real.logb 2) Real.sqrt [] sampleParas
      (sampleCollection (Real.logb 2) Real.sqrt) (sampleCollection_built (Real.logb 2) Real.sqrt)⟩

end Pasec

/-! ## docInfo -/

namespace Pasec

variable {F : Type} [LinearOrderedField F]

theorem sixCollection_built (lg sq : F → F) :
    TextCollection.new lg sq [] sixParas = some (sixCollection lg sq) :=
  TextCollection.new_of_loaded lg sq [] sixParas sixDocs sixDict sixPlists
    (by decide) (by decide) (by decide)

/-- A document with fewer than five unique terms: the keyword loop of
`docInfo` reads `pairs` past its end. -/
theorem docInfo_few_terms (psort : PartialSortFn) (hps : PartialSort psort)
    (tc : TextCollection F) (did nkws : Nat) (dw : DocWeights F)
    (hdw : tc.weights[did]? = some dw) (hfin : ∀ e ∈ dw, e.2.isFinite = true)
    (h : dw.length < 5) : tc.docInfo psort did nkws = none := by
  unfold TextCollection.docInfo
  rw [hdw]
  simp only [Option.some_bind]
  by_cases hk : nkws ≤ dw.length
  · obtain ⟨r, hr, hperm, -⟩ := hps.sorts (Str × Fl F)
      (fun (p1 p2 : Str × Fl F) => Fl.gt p1.2 p2.2) nkws dw hk (strictWeakOn_gt dw hfin)
    rw [hr]
    simp only [Option.some_bind]
    rw [mapM_range_getElem?_none r 5 (by rw [hperm.length_eq]; exact h)]
    rfl
  · rw [hps.past_end (Str × Fl F) _ nkws dw (by omega)]
    rfl

/-- A keyword count above the number of unique terms: `std::partial_sort` is
called with `middle` past the end of `pairs`. -/
theorem docInfo_nkws_gt (psort : PartialSortFn) (hps : PartialSort psort)
    (tc : TextCollection F) (did nkws : Nat) (dw : DocWeights F)
    (hdw : tc.weights[did]? = some dw) (h : dw.length < nkws) :
    tc.docInfo psort did nkws = none := by
  unfold TextCollection.docInfo
  rw [hdw]
  simp only [Option.some_bind]
  rw [hps.past_end (Str × Fl F) _ nkws dw h]
  rfl

omit [LinearOrderedField F] in
theorem docInfoKeyword_length (tc : TextCollection F) (pairs : List (Str × Fl F)) :
    ∀ (shown out : List (Str × List (Nat × List Nat))),
      pairs.foldlM (docInfoKeyword tc) shown = some out →
      out.length ≤ shown.length + pairs.length := by
  induction pairs with
  | nil =>
    intro shown out h
    simp only [List.foldlM_nil, Option.pure_def, Option.some.injEq] at h
    subst h
    simp
  | cons p ps ih =>
    intro shown out h
    rw [List.foldlM_cons] at h
    cases hstep : docInfoKeyword tc shown p with
    | none => rw [hstep] at h; cases h
    | some shown2 =>
      rw [hstep] at h
      simp only [Option.bind_eq_bind, Option.some_bind] at h
      have h2 := ih shown2 out h
      have h3 : shown2.length ≤ shown.length + 1 := by
        unfold docInfoKeyword at hstep
        split at hstep
        · simp only [Option.some.injEq] at hstep
          subst hstep
          omega
        · cases hp : tc.plists[‹Nat›]? with
          | none => rw [hp] at hstep; cases hstep
          | some plist =>
            rw [hp] at hstep
            simp only [Option.some_bind] at hstep
            cases hq : docInfoPostings tc.documents p.1 plist with
            | none => rw [hq] at hstep; cases hstep
            | some qs =>
              rw [hq] at hstep
              simp only [Option.map_some', Option.some.injEq] at hstep
              subst hstep
              simp
      simp only [List.length_cons]
      omega

/-- Whatever `nkws` is and whatever `std::partial_sort` does, `docInfo` shows
at most five keywords. -/
theorem docInfo_keywords_le (psort : PartialSortFn) (tc : TextCollection F) (did nkws : Nat)
    (r : DocReport F) (h : tc.docInfo psort did nkws = some r) : r.keywords.length ≤ 5 := by
  unfold TextCollection.docInfo at h
  cases hdw : tc.weights[did]? with
  | none => rw [hdw] at h; cases h
  | some dw =>
    rw [hdw] at h
    simp only [Option.some_bind] at h
    cases hps : psort (Str × Fl F) (fun (p1 p2 : Str × Fl F) => Fl.gt p1.2 p2.2) nkws dw with
    | none => rw [hps] at h; cases h
    | some pairs =>
      rw [hps] at h
      simp only [Option.some_bind] at h
      by_cases hlen : 5 ≤ pairs.length
      · rw [mapM_range_getElem? pairs 5 hlen] at h
        simp only [Option.some_bind] at h
        cases hk : (pairs.take 5).foldlM (docInfoKeyword tc) [] with
        | none => rw [hk] at h; cases h
        | some kws =>
          rw [hk] at h
          simp only [Option.some_bind] at h
          have hle := docInfoKeyword_length tc (pairs.take 5) [] kws hk
          cases hd : tc.documents[did]? with
          | none => rw [hd] at h; cases h
          | some doc =>
            rw [hd] at h
            simp only [Option.some_bind] at h
            cases hn : tc.dnorms[did]? with
            | none => rw [hn] at h; cases h
            | some dn =>
              rw [hn] at h
              simp only [Option.map_some', Option.some.injEq] at h
              subst h
              simp only [List.length_nil, List.length_take, zero_add] at hle
              simp only
              omega
      · rw [mapM_range_getElem?_none pairs 5 (by omega)] at h
        cases h

end Pasec

/-! ## docInfo in a constructed collection -/

namespace Pasec

variable {F : Type} [LinearOrderedField F]

/-- The weight vector of a document of a constructed collection has the keys
of the term map of the document, in the same order, and holds finite values
only. -/
theorem TextCollection.built_weights_finite (lg sq : F → F) (sw : List Str) (paras : List Str)
    (tc : TextCollection F) (h : TextCollection.new lg sq sw paras = some tc)
    (d : Nat) (doc : Document) (hd : tc.documents[d]? = some doc) :
    ∃ wv, tc.weights[d]? = some wv ∧ wv.keys = doc.terms.keys ∧
      wv.length = doc.terms.size ∧ ∀ e ∈ wv, e.2.isFinite = true := by
  obtain ⟨-, -, hdoc⟩ := TextCollection.built_facts lg sq sw paras tc h
  obtain ⟨hw, -, hwf, -, -⟩ := hdoc d doc hd
  have hwf2 : SMap.WF (docWeights (tc.plists.map (idf_calc lg tc.documents.length))
      tc.dictionary doc) := by
    unfold SMap.WF docWeights
    rw [List.pairwise_map]
    exact hwf
  refine ⟨_, hw, SMap.keys_map_entries _ _, by simp [docWeights, SMap.size], ?_⟩
  intro e he
  have hfe := SMap.find_of_mem _ hwf2 (k := e.1) (v := e.2) he
  obtain ⟨term, hterm, hte⟩ := List.mem_map.1 he
  have hf := SMap.find_of_mem doc.terms hwf (k := term.1) (v := term.2) hterm
  obtain ⟨id, pl, -, -, -, -, -, h6⟩ :=
    TextCollection.built_weight lg sq sw paras tc h d doc term.1 term.2 hd hf
  have hk : e.1 = term.1 := by rw [← hte]
  rw [hw] at h6
  simp only [Option.some_bind] at h6
  rw [← hk, hfe] at h6
  rw [Option.some.inj h6]
  rfl

/-- In a constructed collection the posting loop of `docInfo` returns for the
posting list of every dictionary word. -/
theorem docInfoPostings_defined (lg sq : F → F) (sw : List Str) (paras : List Str)
    (tc : TextCollection F) (h : TextCollection.new lg sq sw paras = some tc)
    (word : Str) (index : Nat) (hi : tc.dictionary.find word = some index) :
    ∃ plist ps, tc.plists[index]? = some plist ∧
      docInfoPostings tc.documents word plist = some ps := by
  obtain ⟨-, hpl, hdoc⟩ := TextCollection.built_facts lg sq sw paras tc h
  obtain ⟨pl, hpl1, hplwf, hpl3⟩ := hpl word index hi
  have key : ∀ (l : List (Nat × Nat)), (∀ e ∈ l, e ∈ pl) →
      ∀ shown : List (Nat × List Nat), ∃ ps, l.foldlM
        (fun shown posting =>
          (tc.documents[posting.1]?).bind (fun doc =>
            match doc.terms.find word with
            | none => some shown
            | some [] => none
            | some (p :: ps) => some (shown ++ [(posting.1, p :: ps)])))
        shown = some ps := by
    intro l
    induction l with
    | nil => intro _ shown; exact ⟨shown, rfl⟩
    | cons e es ih =>
      intro hl shown
      have he := hl e (List.mem_cons_self _ _)
      have hfind := SMap.find_of_mem pl hplwf (k := e.1) (v := e.2) he
      rw [hpl3 e.1] at hfind
      cases hdj : tc.documents[e.1]? with
      | none => rw [hdj] at hfind; cases hfind
      | some docj =>
        rw [hdj] at hfind
        simp only [Option.some_bind] at hfind
        cases hft : docj.terms.find word with
        | none => rw [hft] at hfind; cases hfind
        | some pos =>
          obtain ⟨hne, -⟩ := (hdoc e.1 docj hdj).2.2.2.2 word pos hft
          cases pos with
          | nil => exact absurd rfl hne
          | cons p ps =>
            rw [List.foldlM_cons, hdj]
            simp only [Option.some_bind, hft, Option.bind_eq_bind]
            exact ih (fun x hx => hl x (List.mem_cons_of_mem _ hx)) _
  obtain ⟨ps, hps⟩ := key pl (fun e he => he) []
  exact ⟨pl, ps, hpl1, hps⟩


/-- In a constructed collection the keyword loop of `docInfo` returns on pairs
whose words are in the dictionary, and shows one keyword per pair. -/
theorem docInfoKeyword_defined (lg sq : F → F) (sw : List Str) (paras : List Str)
    (tc : TextCollection F) (h : TextCollection.new lg sq sw paras = some tc)
    (pairs : List (Str × Fl F)) (hp : ∀ p ∈ pairs, ∃ index, tc.dictionary.find p.1 = some index) :
    ∀ shown : List (Str × List (Nat × List Nat)),
      ∃ out, pairs.foldlM (docInfoKeyword tc) shown = some out ∧
        out.length = shown.length + pairs.length ∧
        out.map Prod.fst = shown.map Prod.fst ++ pairs.map Prod.fst := by
  induction pairs with
  | nil => intro shown; exact ⟨shown, rfl, by simp, by simp⟩
  | cons p ps ih =>
    intro shown
    obtain ⟨index, hi⟩ := hp p (List.mem_cons_self _ _)
    obtain ⟨plist, qs, hpl, hqs⟩ := docInfoPostings_defined lg sq sw paras tc h p.1 index hi
    have hstep : docInfoKeyword tc shown p = some (shown ++ [(p.1, qs)]) := by
      unfold docInfoKeyword
      rw [hi]
      simp only [hpl, Option.some_bind, hqs, Option.map_some']
    obtain ⟨out, ho1, ho2, ho3⟩ :=
      ih (fun x hx => hp x (List.mem_cons_of_mem _ hx)) (shown ++ [(p.1, qs)])
    refine ⟨out, ?_, ?_, ?_⟩
    · rw [List.foldlM_cons, hstep]
      exact ho1
    · rw [ho2]
      simp only [List.length_append, List.length_cons, List.length_nil]
      omega
    · rw [ho3]
      simp

/-- In a constructed collection, on a document with at least five unique terms
and at least `nkws` of them, `docInfo` returns: it shows five keywords,
whatever `nkws` is, each a term of the document, and the number of unique
terms and the norm of the document. -/
theorem docInfo_defined (psort : PartialSortFn) (hps : PartialSort psort) (lg sq : F → F)
    (sw : List Str) (paras : List Str) (tc : TextCollection F)
    (h : TextCollection.new lg sq sw paras = some tc) (did nkws : Nat) (doc : Document)
    (hd : tc.documents[did]? = some doc) (h5 : 5 ≤ doc.terms.size)
    (hn : nkws ≤ doc.terms.size) :
    ∃ r, tc.docInfo psort did nkws = some r ∧ r.keywords.length = 5 ∧
      (∀ w ∈ r.keywords.map Prod.fst, w ∈ doc.terms.keys) ∧
      r.nunique = doc.terms.size ∧ some r.norm = tc.dnorms[did]? := by
  obtain ⟨wv, hwv, hkeys, hlen, hfin⟩ :=
    TextCollection.built_weights_finite lg sq sw paras tc h did doc hd
  obtain ⟨-, -, hdoc⟩ := TextCollection.built_facts lg sq sw paras tc h
  obtain ⟨-, hdn, -, -, hterm⟩ := hdoc did doc hd
  obtain ⟨r, hr, hperm, -⟩ := hps.sorts (Str × Fl F)
    (fun (p1 p2 : Str × Fl F) => Fl.gt p1.2 p2.2) nkws wv (by rw [hlen]; exact hn)
    (strictWeakOn_gt wv hfin)
  have hr5 : 5 ≤ r.length := by rw [hperm.length_eq, hlen]; exact h5
  have hmem : ∀ p ∈ r.take 5, p.1 ∈ doc.terms.keys := by
    intro p hp
    rw [← hkeys]
    exact List.mem_map.2 ⟨p, hperm.mem_iff.1 (List.mem_of_mem_take hp), rfl⟩
  have hdict : ∀ p ∈ r.take 5, ∃ index, tc.dictionary.find p.1 = some index := by
    intro p hp
    obtain ⟨pos, hpos⟩ := (SMap.mem_keys_iff _ _).1 (hmem p hp)
    obtain ⟨-, id, hid, -⟩ := hterm p.1 pos hpos
    exact ⟨id, hid⟩
  obtain ⟨kws, hk1, hk2, hk3⟩ := docInfoKeyword_defined lg sq sw paras tc h (r.take 5) hdict []
  refine ⟨{ keywords := kws, nunique := doc.terms.size,
            norm := l2norm sq (docWeights (tc.plists.map (idf_calc lg tc.documents.length))
              tc.dictionary doc) }, ?_, ?_, ?_, rfl, ?_⟩
  · unfold TextCollection.docInfo
    rw [hwv]
    simp only [Option.some_bind, hr]
    rw [mapM_range_getElem? r 5 hr5]
    simp only [Option.some_bind, hk1, hd, hdn, Option.map_some']
  · rw [hk2, List.length_take]
    simp only [List.length_nil, zero_add]
    omega
  · intro w hw
    rw [hk3] at hw
    simp only [List.map_nil, List.nil_append] at hw
    obtain ⟨p, hp, hpw⟩ := List.mem_map.1 hw
    rw [← hpw]
    exact hmem p hp
  · rw [hdn]

end Pasec

namespace Pasec

theorem six_weights :
    (sixCollection (Real.logb 2) Real.sqrt).weights =
      [[("alpha".toList, Fl.fin 0), ("bravo".toList, Fl.fin 0), ("charlie".toList, Fl.fin 0),
        ("delta".toList, Fl.fin 0), ("echo".toList, Fl.fin 0), ("foxtrot".toList, Fl.fin 0)]] := by
  simp [sixCollection, sixDocs, sixDict, sixPlists, docWeights, idfOf, idf_calc, maxtf,
    SMap.find, SMap.size, Fl.ofNat, Fl.mul, Fl.div, Fl.log2]

theorem six_sorted (nkws : Nat) (h : nkws ≤ 6) :
    stablePartialSort (Str × Fl ℝ) (fun (p1 p2 : Str × Fl ℝ) => Fl.gt p1.2 p2.2) nkws
      [("alpha".toList, Fl.fin 0), ("bravo".toList, Fl.fin 0), ("charlie".toList, Fl.fin 0),
        ("delta".toList, Fl.fin 0), ("echo".toList, Fl.fin 0), ("foxtrot".toList, Fl.fin 0)] =
    some [("alpha".toList, Fl.fin 0), ("bravo".toList, Fl.fin 0), ("charlie".toList, Fl.fin 0),
        ("delta".toList, Fl.fin 0), ("echo".toList, Fl.fin 0), ("foxtrot".toList, Fl.fin 0)] := by
  simp [stablePartialSort, sortAll, sortedInsert, Fl.gt, h]

/-- C11 (the code at the failing inputs): with the keyword count 5 that
`main` passes, `docInfo` on document 0 of the scenario, which has two unique
terms, calls `std::partial_sort` with `middle` past the end of `pairs` and is
undefined; and on a document with six unique terms the keyword count 3 makes
`docInfo` show five keywords, not three. Both hold with every function that
meets the contract of `std::partial_sort`; with the insertion sort the five
keywords are the first five terms of the document. -/
theorem docInfo_keyword_count :
    ((sampleCollection (Real.logb 2) Real.sqrt).weights[0]?).map List.length = some 2 ∧
    (∀ psort : PartialSortFn, PartialSort psort →
      (sampleCollection (Real.logb 2) Real.sqrt).docInfo psort 0 5 = none) ∧
    (sampleCollection (Real.logb 2) Real.sqrt).docInfo stablePartialSort 0 5 = none ∧
    ((sixCollection (Real.logb 2) Real.sqrt).weights[0]?).map List.length = some 6 ∧
    (∀ psort : PartialSortFn, PartialSort psort →
      ((sixCollection (Real.logb 2) Real.sqrt).docInfo psort 0 3).map
        (fun r => r.keywords.length) = some 5) ∧
    ((sixCollection (Real.logb 2) Real.sqrt).docInfo stablePartialSort 0 3).map
        (fun r => r.keywords.map Prod.fst) =
      some ["alpha".toList, "bravo".toList, "charlie".toList, "delta".toList,
        "echo".toList] := by
  have hsample : ∀ psort : PartialSortFn, PartialSort psort →
      (sampleCollection (Real.logb 2) Real.sqrt).docInfo psort 0 5 = none := by
    intro psort hps
    exact docInfo_nkws_gt psort hps _ 0 5
      (docWeights (samplePlists.map (idf_calc (Real.logb 2) sampleDocs.length)) sampleDict
        { terms := [("apple".toList, [0, 1]), ("banana".toList, [2])] })
      rfl (by simp [docWeights])
  refine ⟨by simp [sampleCollection, sampleDocs, docWeights], hsample,
    hsample stablePartialSort stablePartialSort_contract,
    by simp [sixCollection, sixDocs, docWeights], ?_, ?_⟩
  · intro psort hps
    obtain ⟨r, hr, hlen, -⟩ := docInfo_defined psort hps (Real.logb 2) Real.sqrt [] sixParas
      (sixCollection (Real.logb 2) Real.sqrt) (sixCollection_built (Real.logb 2) Real.sqrt) 0 3
      { terms := [("alpha".toList, [0]), ("bravo".toList, [1]), ("charlie".toList, [2]),
                  ("delta".toList, [3]), ("echo".toList, [4]), ("foxtrot".toList, [5])] }
      rfl (by decide) (by decide)
    rw [hr, Option.map_some', hlen]
  · unfold TextCollection.docInfo
    rw [six_weights]
    simp only [List.getElem?_cons_zero, Option.some_bind]
    rw [six_sorted 3 (by norm_num)]
    simp only [Option.some_bind]
    rw [mapM_range_getElem? _ 5 (by simp)]
    simp [sixCollection, docInfoKeyword, docInfoPostings, sixDocs, sixDict, sixPlists, SMap.find]

end Pasec

/-! ## Ranking -/

namespace Pasec

set_option maxRecDepth 100000 in
theorem rankCollection_built {F : Type} [LinearOrderedField F] (lg sq : F → F) :
    TextCollection.new lg sq [] rankParas = some (rankCollection lg sq) :=
  TextCollection.new_of_loaded lg sq [] rankParas rankDocs rankDict rankPlists
    (by decide) (by decide) (by decide)

theorem logb_two_four : Real.logb 2 4 = 2 := by
  rw [show (4 : ℝ) = 2 ^ (2 : ℕ) by norm_num, Real.logb_pow,
    Real.logb_self_eq_one (by norm_num)]
  norm_num

theorem rank_weights :
    (rankCollection (Real.logb 2) Real.sqrt).weights =
      [[("alpha".toList, Fl.fin 0), ("bravo".toList, Fl.fin 0), ("charlie".toList, Fl.fin 0),
        ("delta".toList, Fl.fin 0), ("tango".toList, Fl.fin 1)],
       [("alpha".toList, Fl.fin 0), ("bravo".toList, Fl.fin 0), ("charlie".toList, Fl.fin 0),
        ("delta".toList, Fl.fin 0), ("sierra".toList, Fl.fin 1), ("tango".toList, Fl.fin 1)],
       [("alpha".toList, Fl.fin 0), ("bravo".toList, Fl.fin 0), ("charlie".toList, Fl.fin 0),
        ("delta".toList, Fl.fin 0), ("sierra".toList, Fl.fin 1), ("victor".toList, Fl.fin 2)],
       [("alpha".toList, Fl.fin 0), ("bravo".toList, Fl.fin 0), ("charlie".toList, Fl.fin 0),
        ("delta".toList, Fl.fin 0)]] := by
  have h2 : Real.logb 2 2 = 1 := Real.logb_self_eq_one (by norm_num)
  have h42 : Real.logb 2 (4 / 2) = 1 := by rw [show (4 / 2 : ℝ) = 2 by norm_num, h2]
  simp [rankCollection, rankDocs, rankDict, rankPlists, docWeights, idfOf, idf_calc, maxtf,
    SMap.find, SMap.size, Fl.ofNat, Fl.mul, Fl.div, Fl.log2, h42, logb_two_four]

theorem rank_dnorms :
    (rankCollection (Real.logb 2) Real.sqrt).dnorms =
      [Fl.fin 1, Fl.fin (Real.sqrt 2), Fl.fin (Real.sqrt 5), Fl.fin 0] := by
  have hw := rank_weights
  simp only [rankCollection] at hw
  simp only [rankCollection, hw]
  simp [l2norm, Fl.add, Fl.pow2, Fl.mul, Fl.sqrt]
  norm_num

theorem rank_similarity :
    (rankCollection (Real.logb 2) Real.sqrt).similarity Real.sqrt
      ["sierra".toList, "tango".toList] [] =
        some [(0, Fl.fin (1 / Real.sqrt 2)), (1, Fl.fin 1),
          (2, Fl.fin (1 / (Real.sqrt 5 * Real.sqrt 2)))] := by
  have hd : (rankCollection (Real.logb 2) Real.sqrt).dictionary = rankDict := rfl
  have hp : (rankCollection (Real.logb 2) Real.sqrt).plists = rankPlists := rfl
  have e1 : ∀ (a b c d : Fl ℝ) (h : 1 < [a, b, c, d].length), [a, b, c, d][1] = b :=
    fun _ _ _ _ _ => rfl
  have e2 : ∀ (a b c d : Fl ℝ) (h : 2 < [a, b, c, d].length), [a, b, c, d][2] = c :=
    fun _ _ _ _ _ => rfl
  simp [TextCollection.similarity, similarityWord, similarityPosting, rank_weights, rank_dnorms,
    hd, hp, rankDict, rankPlists, SMap.find, Fl.ofNat, Fl.mul, Fl.div, Fl.sqrt, Fl.add,
    SMap.assign, e1, e2]
  norm_num

/-- The score vector of the query `sierra tango`, ordered: document 1 with
score 1, document 0 with score `1 / √2`, document 2 with score
`1 / (√5 * √2)`. -/
theorem rank_sorted :
    stablePartialSort (ScorePair ℝ) (fun sp1 sp2 => Fl.gt sp1.2 sp2.2) 2
      [(0, Fl.fin (1 / Real.sqrt 2)), (1, Fl.fin 1),
        (2, Fl.fin (1 / (Real.sqrt 5 * Real.sqrt 2)))] =
      some [(1, Fl.fin 1), (0, Fl.fin (1 / Real.sqrt 2)),
        (2, Fl.fin (1 / (Real.sqrt 5 * Real.sqrt 2)))] := by
  have h2 : (1 : ℝ) < Real.sqrt 2 := by
    rw [show (1 : ℝ) = Real.sqrt 1 by simp]
    exact Real.sqrt_lt_sqrt (by norm_num) (by norm_num)
  have h5 : (1 : ℝ) < Real.sqrt 5 := by
    rw [show (1 : ℝ) = Real.sqrt 1 by simp]
    exact Real.sqrt_lt_sqrt (by norm_num) (by norm_num)
  have hp2 : (0 : ℝ) < Real.sqrt 2 := by linarith
  have hp5 : (0 : ℝ) < Real.sqrt 5 := by linarith
  have c1 : 1 / Real.sqrt 2 < (1 : ℝ) := by
    rw [div_lt_one hp2]; exact h2
  have c2 : ¬ ((1 : ℝ) < 1 / (Real.sqrt 5 * Real.sqrt 2)) := by
    rw [not_lt, div_le_one (mul_pos hp5 hp2)]
    nlinarith
  have c3 : ¬ (1 / Real.sqrt 2 < 1 / (Real.sqrt 5 * Real.sqrt 2)) := by
    rw [not_lt]
    apply one_div_le_one_div_of_le hp2
    nlinarith
  have hlen : 2 ≤ ([(0, Fl.fin (1 / Real.sqrt 2)), (1, Fl.fin 1),
      (2, Fl.fin (1 / (Real.sqrt 5 * Real.sqrt 2)))] : List (ScorePair ℝ)).length := by decide
  simp only [stablePartialSort, hlen, if_true, sortAll, sortedInsert, Fl.gt, c1, c2, c3,
    decide_True, decide_False, if_false, Bool.false_eq_true]

end Pasec


namespace Pasec

variable {F : Type} [LinearOrderedField F]

theorem mapM_range_bind {α β : Type} (g : α → Option β) (l : List α) (n : Nat)
    (hn : n ≤ l.length) :
    (List.range n).mapM (fun i => (l[i]?).bind g) = (l.take n).mapM g := by
  induction n with
  | zero => rfl
  | succ n ih =>
    have hlt : n < l.length := by omega
    rw [List.range_succ, List.mapM_append, ih (by omega), List.take_succ, List.mapM_append,
      List.getElem?_eq_getElem hlt]
    simp only [List.mapM_cons, List.mapM_nil, Option.some_bind, Option.toList_some]
    rw [List.getElem?_eq_getElem hlt]
    rfl

theorem mapM_paired {α β : Type} (f : α → Option β) (l : List α)
    (hl : ∀ x ∈ l, ∃ y, f x = some y) :
    ∃ out, l.mapM (fun x => (f x).map (fun y => (x, y))) = some out ∧
      out.map Prod.fst = l ∧ ∀ p ∈ out, f p.1 = some p.2 := by
  induction l with
  | nil => exact ⟨[], rfl, rfl, fun p hp => by simp at hp⟩
  | cons x xs ih =>
    obtain ⟨y, hy⟩ := hl x (List.mem_cons_self _ _)
    obtain ⟨out, h1, h2, h3⟩ := ih (fun z hz => hl z (List.mem_cons_of_mem _ hz))
    refine ⟨(x, y) :: out, ?_, by rw [List.map_cons, h2], ?_⟩
    · rw [List.mapM_cons, hy, h1]
      rfl
    · intro p hp
      rcases List.mem_cons.1 hp with hp | hp
      · rw [hp]; exact hy
      · exact h3 p hp

end Pasec

namespace Pasec

variable {F : Type} [LinearOrderedField F]

theorem mapM_paired_inv {α β : Type} (f : α → Option β) (l : List α) :
    ∀ out, l.mapM (fun x => (f x).map (fun y => (x, y))) = some out →
      out.map Prod.fst = l ∧ ∀ p ∈ out, f p.1 = some p.2 := by
  induction l with
  | nil =>
    intro out h
    rw [List.mapM_nil] at h
    cases h
    exact ⟨rfl, fun p hp => by simp at hp⟩
  | cons x xs ih =>
    intro out h
    rw [List.mapM_cons] at h
    cases hy : f x with
    | none => rw [hy] at h; cases h
    | some y =>
      rw [hy] at h
      cases hys : xs.mapM (fun x => (f x).map (fun y => (x, y))) with
      | none => rw [hys] at h; cases h
      | some ys =>
        rw [hys] at h
        obtain ⟨h1, h2⟩ := ih ys hys
        have hout : out = (x, y) :: ys := by
          have : some ((x, y) :: ys) = some out := h
          exact (Option.some.inj this).symm
        subst hout
        refine ⟨by rw [List.map_cons, h1], ?_⟩
        intro p hp
        rcases List.mem_cons.1 hp with hp | hp
        · rw [hp]; exact hy
        · exact h2 p hp

/-- C10: Ranking order. For a similarity result with finite scores and a
top-K value `nsorting` not above the number of scored documents, and with
every function that meets the contract of `std::partial_sort`: the `nsorting`
pairs that the output loop of `search` reads from the score vector are scored
documents in non-increasing score order, and no scored document outside them
has a score strictly greater than one of them. Whenever `search` returns, it
reports exactly these pairs, in this order, each with the report of
`docInfo`; and in a constructed collection `search` does return when every
scored document has at least five unique terms and at least `nkws` of them,
so that `docInfo` is defined on it. -/
theorem ranking_order (psort : PartialSortFn) (hps : PartialSort psort) (sq : F → F)
    (tc : TextCollection F) (nsorting nkws : Nat) (query : Query) (sim : SMap Nat (Fl F))
    (hsim : tc.similarity sq query [] = some sim)
    (hfin : ∀ e ∈ sim, e.2.isFinite = true) (hK : nsorting ≤ sim.length) :
    ∃ ranked rest : List (ScorePair F), ranked.length = nsorting ∧
      (ranked ++ rest).Perm sim ∧
      ranked.Pairwise (fun a b => b.2.val ≤ a.2.val) ∧
      (∀ a ∈ ranked, ∀ b ∈ rest, ¬ a.2.val < b.2.val) ∧
      ranked.Pairwise (fun a b => Fl.gt b.2 a.2 = false) ∧
      (∀ a ∈ ranked, ∀ b ∈ rest, Fl.gt b.2 a.2 = false) ∧
      (∀ out, searchQuery psort sq tc nsorting nkws query = some out →
        out.map Prod.fst = ranked ∧
        tc.search psort sq [query] nsorting nkws = some [out] ∧
        ∀ p ∈ out, tc.docInfo psort p.1.1 nkws = some p.2) ∧
      (∀ (lg : F → F) (sw : List Str) (paras : List Str),
        TextCollection.new lg sq sw paras = some tc →
        (∀ e ∈ sim, ∀ doc, tc.documents[e.1]? = some doc →
          5 ≤ doc.terms.size ∧ nkws ≤ doc.terms.size) →
        ∃ out, searchQuery psort sq tc nsorting nkws query = some out) := by
  have hsearch : ∀ out, searchQuery psort sq tc nsorting nkws query = some out →
      tc.search psort sq [query] nsorting nkws = some [out] := by
    intro out hq
    rw [TextCollection.search, List.mapM_cons, hq]
    rfl
  by_cases h0 : nsorting = 0
  · subst h0
    have hq : searchQuery psort sq tc 0 nkws query = some [] := by
      rw [searchQuery, hsim]
      rfl
    refine ⟨[], sim, rfl, List.Perm.refl _, List.Pairwise.nil, ?_, List.Pairwise.nil, ?_, ?_,
      fun _ _ _ _ _ => ⟨[], hq⟩⟩
    · intro a ha; simp at ha
    · intro a ha; simp at ha
    · intro out hout
      rw [hq] at hout
      cases hout
      exact ⟨rfl, hsearch _ hq, fun p hp => by simp at hp⟩
  · obtain ⟨r, hr, hperm, hsorted, htop⟩ := hps.sorts (ScorePair F)
      (fun sp1 sp2 => Fl.gt sp1.2 sp2.2) nsorting sim hK (strictWeakOn_gt sim hfin)
    have hlen : nsorting ≤ r.length := by rw [hperm.length_eq]; exact hK
    have hfr : ∀ e ∈ r, e.2.isFinite = true := fun e he => hfin e (hperm.mem_iff.1 he)
    have hrun : searchQuery psort sq tc nsorting nkws query =
        (r.take nsorting).mapM (fun (sp : ScorePair F) =>
          (tc.docInfo psort sp.1 nkws).map (fun report => (sp, report))) := by
      rw [searchQuery, hsim]
      simp only [Option.some_bind, ne_eq, h0, not_false_eq_true, if_true, hr]
      exact mapM_range_bind _ r nsorting hlen
    have hval : ∀ a b : ScorePair F, a.2.isFinite = true → b.2.isFinite = true →
        Fl.gt b.2 a.2 = false → ¬ a.2.val < b.2.val := by
      intro a b ha hb hgt hlt
      rw [(Fl.gt_of_finite b.2 a.2 hb ha).2 hlt] at hgt
      cases hgt
    refine ⟨r.take nsorting, r.drop nsorting, List.length_take_of_le hlen, ?_, ?_, ?_, hsorted,
      htop, ?_, ?_⟩
    · rw [List.take_append_drop]
      exact hperm
    · refine List.Pairwise.imp_of_mem ?_ hsorted
      intro a b ha hb hgt
      exact not_lt.1
        (hval a b (hfr a (List.mem_of_mem_take ha)) (hfr b (List.mem_of_mem_take hb)) hgt)
    · intro a ha b hb
      exact hval a b (hfr a (List.mem_of_mem_take ha)) (hfr b (List.mem_of_mem_drop hb))
        (htop a ha b hb)
    · intro out hout
      obtain ⟨h1, h2⟩ := mapM_paired_inv (fun (sp : ScorePair F) => tc.docInfo psort sp.1 nkws)
        (r.take nsorting) out (by rw [← hrun]; exact hout)
      exact ⟨h1, hsearch _ hout, h2⟩
    · intro lg sw paras h hterms
      obtain ⟨sim2, hs1, hs2, hs3⟩ := similarity_spec lg sq sw paras tc h query
      rw [hsim] at hs1
      cases hs1
      have hinfo : ∀ sp ∈ r.take nsorting, ∃ y, tc.docInfo psort sp.1 nkws = some y := by
        intro sp hsp
        have hmem : sp ∈ sim := hperm.mem_iff.1 (List.mem_of_mem_take hsp)
        have hfind := SMap.find_of_mem sim hs2 (k := sp.1) (v := sp.2) hmem
        rw [hs3 sp.1, cosineRef] at hfind
        split_ifs at hfind with hnil
        obtain ⟨t, ht⟩ := List.exists_mem_of_ne_nil _ hnil
        obtain ⟨doc, hdoc, -⟩ := (hasTerm_iff tc sp.1 t).1 (List.mem_filter.1 ht).2
        obtain ⟨h5, hn⟩ := hterms sp hmem doc hdoc
        obtain ⟨y, hy, -⟩ :=
          docInfo_defined psort hps lg sq sw paras tc h sp.1 nkws doc hdoc h5 hn
        exact ⟨y, hy⟩
      obtain ⟨out, ho1, -, -⟩ := mapM_paired (fun (sp : ScorePair F) =>
        tc.docInfo psort sp.1 nkws) (r.take nsorting) hinfo
      exact ⟨out, by rw [hrun]; exact ho1⟩

end Pasec

namespace Pasec

/-- The score vector of the query `sierra tango`: the scores are finite, and
every scored document has at least five unique terms. -/
theorem rank_scored :
    (∀ e ∈ ([(0, Fl.fin (1 / Real.sqrt 2)), (1, Fl.fin 1),
        (2, Fl.fin (1 / (Real.sqrt 5 * Real.sqrt 2)))] : SMap Nat (Fl ℝ)),
      e.2.isFinite = true) ∧
    (∀ e ∈ ([(0, Fl.fin (1 / Real.sqrt 2)), (1, Fl.fin 1),
        (2, Fl.fin (1 / (Real.sqrt 5 * Real.sqrt 2)))] : SMap Nat (Fl ℝ)),
      ∀ doc, (rankCollection (Real.logb 2) Real.sqrt).documents[e.1]? = some doc →
        5 ≤ doc.terms.size ∧ 5 ≤ doc.terms.size) := by
  refine ⟨?_, ?_⟩
  · intro e he
    simp only [List.mem_cons, List.mem_singleton, List.not_mem_nil, or_false] at he
    rcases he with he | he | he <;> rw [he] <;> rfl
  · intro e he doc hdoc
    simp only [List.mem_cons, List.mem_singleton, List.not_mem_nil, or_false] at he
    rcases he with he | he | he <;> rw [he] at hdoc <;>
      simp only [rankCollection, rankDocs, List.getElem?_cons_zero, List.getElem?_cons_succ,
        Option.some.injEq] at hdoc <;> rw [← hdoc] <;> exact ⟨by decide, by decide⟩

/-- With the insertion sort, `search` on the query `sierra tango` with the
top-K value 2 and the keyword count 5 reports document 1 and then
document 0. -/
theorem rank_search :
    ∃ out, searchQuery stablePartialSort Real.sqrt (rankCollection (Real.logb 2) Real.sqrt) 2 5
        ["sierra".toList, "tango".toList] = some out ∧
      out.map Prod.fst = [(1, Fl.fin 1), (0, Fl.fin (1 / Real.sqrt 2))] := by
  have hinfo : ∀ sp ∈ ([(1, Fl.fin 1), (0, Fl.fin (1 / Real.sqrt 2))] : List (ScorePair ℝ)),
      ∃ y, (rankCollection (Real.logb 2) Real.sqrt).docInfo stablePartialSort sp.1 5 =
        some y := by
    intro sp hsp
    have hmem : sp ∈ ([(0, Fl.fin (1 / Real.sqrt 2)), (1, Fl.fin 1),
        (2, Fl.fin (1 / (Real.sqrt 5 * Real.sqrt 2)))] : SMap Nat (Fl ℝ)) := by
      simp only [List.mem_cons, List.mem_singleton, List.not_mem_nil, or_false] at hsp ⊢
      rcases hsp with h | h
      · exact Or.inr (Or.inl h)
      · exact Or.inl h
    have hlt : sp.1 < rankDocs.length := by
      simp only [List.mem_cons, List.mem_singleton, List.not_mem_nil, or_false] at hsp
      rcases hsp with h | h <;> rw [h] <;> decide
    have hdoc : (rankCollection (Real.logb 2) Real.sqrt).documents[sp.1]? =
        some (rankDocs[sp.1]) := List.getElem?_eq_getElem hlt
    obtain ⟨h5, hn⟩ := rank_scored.2 sp hmem _ hdoc
    obtain ⟨y, hy, -⟩ := docInfo_defined stablePartialSort stablePartialSort_contract
      (Real.logb 2) Real.sqrt [] rankParas (rankCollection (Real.logb 2) Real.sqrt)
      (rankCollection_built (Real.logb 2) Real.sqrt) sp.1 5 _ hdoc h5 hn
    exact ⟨y, hy⟩
  obtain ⟨out, ho1, ho2, -⟩ := mapM_paired (fun (sp : ScorePair ℝ) =>
    (rankCollection (Real.logb 2) Real.sqrt).docInfo stablePartialSort sp.1 5) _ hinfo
  refine ⟨out, ?_, ho2⟩
  rw [searchQuery, rank_similarity]
  simp only [Option.some_bind, ne_eq, OfNat.ofNat_ne_zero, not_false_eq_true, if_true,
    rank_sorted]
  rw [mapM_range_bind _ _ 2 (by decide)]
  exact ho1

theorem ranking_order_witness :
    PartialSort stablePartialSort ∧
    (rankCollection (Real.logb 2) Real.sqrt).similarity Real.sqrt
      ["sierra".toList, "tango".toList] [] =
        some [(0, Fl.fin (1 / Real.sqrt 2)), (1, Fl.fin 1),
          (2, Fl.fin (1 / (Real.sqrt 5 * Real.sqrt 2)))] ∧
    (∀ e ∈ ([(0, Fl.fin (1 / Real.sqrt 2)), (1, Fl.fin 1),
        (2, Fl.fin (1 / (Real.sqrt 5 * Real.sqrt 2)))] : SMap Nat (Fl ℝ)),
      e.2.isFinite = true) ∧
    2 ≤ ([(0, Fl.fin (1 / Real.sqrt 2)), (1, Fl.fin 1),
        (2, Fl.fin (1 / (Real.sqrt 5 * Real.sqrt 2)))] : SMap Nat (Fl ℝ)).length ∧
    (∃ ranked rest : List (ScorePair ℝ), ranked.length = 2 ∧
      (ranked ++ rest).Perm [(0, Fl.fin (1 / Real.sqrt 2)), (1, Fl.fin 1),
          (2, Fl.fin (1 / (Real.sqrt 5 * Real.sqrt 2)))] ∧
      ranked.Pairwise (fun a b => b.2.val ≤ a.2.val) ∧
      (∀ a ∈ ranked, ∀ b ∈ rest, ¬ a.2.val < b.2.val) ∧
      ranked.Pairwise (fun a b => Fl.gt b.2 a.2 = false) ∧
      (∀ a ∈ ranked, ∀ b ∈ rest, Fl.gt b.2 a.2 = false) ∧
      (∀ out, searchQuery stablePartialSort Real.sqrt
          (rankCollection (Real.logb 2) Real.sqrt) 2 5 ["sierra".toList, "tango".toList] =
            some out →
        out.map Prod.fst = ranked ∧
        (rankCollection (Real.logb 2) Real.sqrt).search stablePartialSort Real.sqrt
          [["sierra".toList, "tango".toList]] 2 5 = some [out] ∧
        ∀ p ∈ out, (rankCollection (Real.logb 2) Real.sqrt).docInfo stablePartialSort
          p.1.1 5 = some p.2) ∧
      (∀ (lg : ℝ → ℝ) (sw : List Str) (paras : List Str),
        TextCollection.new lg Real.sqrt sw paras =
          some (rankCollection (Real.logb 2) Real.sqrt) →
        (∀ e ∈ ([(0, Fl.fin (1 / Real.sqrt 2)), (1, Fl.fin 1),
            (2, Fl.fin (1 / (Real.sqrt 5 * Real.sqrt 2)))] : SMap Nat (Fl ℝ)),
          ∀ doc, (rankCollection (Real.logb 2) Real.sqrt).documents[e.1]? = some doc →
            5 ≤ doc.terms.size ∧ 5 ≤ doc.terms.size) →
        ∃ out, searchQuery stablePartialSort Real.sqrt
          (rankCollection (Real.logb 2) Real.sqrt) 2 5 ["sierra".toList, "tango".toList] =
            some out)) ∧
    TextCollection.new (Real.logb 2) Real.sqrt [] rankParas =
      some (rankCollection (Real.logb 2) Real.sqrt) ∧
    (∀ e ∈ ([(0, Fl.fin (1 / Real.sqrt 2)), (1, Fl.fin 1),
        (2, Fl.fin (1 / (Real.sqrt 5 * Real.sqrt 2)))] : SMap Nat (Fl ℝ)),
      ∀ doc, (rankCollection (Real.logb 2) Real.sqrt).documents[e.1]? = some doc →
        5 ≤ doc.terms.size ∧ 5 ≤ doc.terms.size) ∧
    ∃ out, searchQuery stablePartialSort Real.sqrt (rankCollection (Real.logb 2) Real.sqrt) 2 5
        ["sierra".toList, "tango".toList] = some out ∧
      out.map Prod.fst = [(1, Fl.fin 1), (0, Fl.fin (1 / Real.sqrt 2))] :=
  ⟨stablePartialSort_contract, rank_similarity, rank_scored.1, by decide,
    ranking_order stablePartialSort stablePartialSort_contract Real.sqrt
      (rankCollection (Real.logb 2) Real.sqrt) 2 5 ["sierra".toList, "tango".toList] _
      rank_similarity rank_scored.1 (by decide),
    rankCollection_built (Real.logb 2) Real.sqrt, rank_scored.2, rank_search⟩

end Pasec

/-! ## Documents without terms -/

namespace Pasec

/-- C12 (the code at the failing input): the paragraph `the cat` has tokens
but no accepted term, so its document has an empty term map; for that
document `std::max_element` returns `end()`, which `maxTermVal` dereferences,
and the constructor, which calls `maxTermVal` for every document, is
undefined. -/
theorem empty_document_maxTermVal :
    loadDocuments [] shortParas = some (shortDocs, commonDict) ∧
    max_element (fun (p1 p2 : Str × Nat) => decide (p1.2 < p2.2)) [] = none ∧
    Document.maxTermVal { terms := [] } = none ∧
    dwCalc (Real.logb 2) shortDocs commonDict commonPlists = none ∧
    TextCollection.new (Real.logb 2) Real.sqrt [] shortParas = none :=
  ⟨by decide, rfl, rfl,
    dwCalc_none (Real.logb 2) shortDocs commonDict commonPlists { terms := [] }
      (by simp [shortDocs]) rfl,
    TextCollection.new_none_of_empty (Real.logb 2) Real.sqrt [] shortParas shortDocs commonDict
      (by decide) { terms := [] } (by simp [shortDocs]) rfl⟩

theorem Document.ofTokens_none_accepted (sw : List Str) (tokens : List Str) (dict : Dictionary)
    (h : ∀ w ∈ tokens, accepted sw w = false) :
    Document.ofTokens sw tokens dict = { dict := dict, terms := [], word_count := 0 } := by
  induction tokens using List.reverseRecOn with
  | nil => rfl
  | append_singleton toks w ih =>
    rw [Document.ofTokens_append, ih (fun x hx => h x (List.mem_append_left _ hx)),
      Document.step_rejected sw _ w (h w (by simp))]

/-- A paragraph with tokens none of which is accepted: the constructor
returns a document with an empty term map and leaves the dictionary as it
is. -/
theorem Document.new_none_accepted (sw : List Str) (str : Str) (dict : Dictionary)
    (htok : strtokAll str ≠ []) (hacc : acceptedTerms sw (strtokAll str) = []) :
    Document.new sw str dict = some ({ terms := [] }, dict) := by
  have h : ∀ w ∈ strtokAll str, accepted sw w = false := by
    intro w hw
    cases ha : accepted sw w with
    | false => rfl
    | true =>
      have : stripS w ∈ acceptedTerms sw (strtokAll str) :=
        (mem_acceptedTerms sw _ _).2 ⟨w, hw, ha, rfl⟩
      rw [hacc] at this
      simp at this
  rw [Document.new_of_tokens sw str dict htok, Document.ofTokens_none_accepted sw _ dict h]

/-- Such a paragraph still takes the next document slot. -/
theorem loadDocuments_none_accepted (sw : List Str) (paras : List Str) (str : Str)
    (docs : List Document) (dict : Dictionary)
    (h : loadDocuments sw paras = some (docs, dict))
    (htok : strtokAll str ≠ []) (hacc : acceptedTerms sw (strtokAll str) = []) :
    loadDocuments sw (paras ++ [str]) = some (docs ++ [{ terms := [] }], dict) := by
  rw [loadDocuments_append, h]
  simp only [Option.some_bind]
  rw [Document.new_none_accepted sw str dict htok hacc]
  rfl

theorem strtokFrom_delims (s : Str) (h : ∀ c ∈ s, c ∈ delim ∧ c ≠ Char.ofNat 0) :
    strtokFrom [] s = [] := by
  induction s with
  | nil => rfl
  | cons c cs ih =>
    have hc := h c (List.mem_cons_self _ _)
    simp only [strtokFrom, hc.2, if_false, hc.1, if_true]
    exact ih (fun x hx => h x (List.mem_cons_of_mem _ hx))

/-- A paragraph of delimiter characters only: the first `strtok` returns
`NULL` and the constructor is undefined, whatever the stopwords and the
dictionary. -/
theorem Document.new_delims (sw : List Str) (str : Str) (dict : Dictionary)
    (h : ∀ c ∈ str, c ∈ delim ∧ c ≠ Char.ofNat 0) : Document.new sw str dict = none := by
  unfold Document.new strtokAll
  rw [strtokFrom_delims str h]

/-- C13 (the code at the failing input): the paragraph `---` consists of
delimiter characters only, tokenization yields no token, and both the
`Document` constructor and the loading loop are undefined
(`std::string word(otoken)` with `otoken == NULL`), for every stopword list
and dictionary. -/
theorem delimiter_only_paragraph (sw : List Str) (dict : Dictionary) :
    strtokAll "---".toList = [] ∧ acceptedTerms sw (strtokAll "---".toList) = [] ∧
    Document.new sw "---".toList dict = none ∧
    loadDocuments sw ["---".toList] = none := by
  have h : Document.new sw "---".toList [] = none :=
    Document.new_delims sw _ [] (by decide)
  have e : strtokAll "---".toList = [] := by decide
  refine ⟨e, by rw [e]; rfl, Document.new_delims sw _ dict (by decide), ?_⟩
  unfold loadDocuments
  rw [List.foldlM_cons, h]
  rfl

end Pasec

/-! ## Keys of the similarity result -/

namespace Pasec

variable {F : Type} [LinearOrderedField F]

/-- The query `banana` on the scenario: both documents get an entry, each
with score 0. -/
theorem sample_similarity_banana :
    (sampleCollection (Real.logb 2) Real.sqrt).similarity Real.sqrt ["banana".toList] [] =
      some [(0, Fl.fin 0), (1, Fl.fin 0)] := by
  have h2 : Real.logb 2 2 = 1 := Real.logb_self_eq_one (by norm_num)
  have e : ∀ (a b : Fl ℝ) (h : 1 < [a, b].length), [a, b][1] = b := fun _ _ _ => rfl
  simp [sampleCollection, TextCollection.similarity, similarityWord, similarityPosting,
    sampleDocs, sampleDict, samplePlists, SMap.find, docWeights, idfOf, idf_calc, maxtf, l2norm,
    Fl.ofNat, Fl.mul, Fl.div, Fl.log2, Fl.sqrt, Fl.add, Fl.pow2, Fl.infOfSign, SMap.assign,
    SMap.size, h2, e]

/-- C14 (as claimed, refuted): in the scenario the query `banana` gives
documents 0 and 1 an entry with score 0; `banana` is the only query term and
its contribution to document 0 is 0. -/
theorem similarity_nonzero_counterexample :
    (sampleCollection (Real.logb 2) Real.sqrt).similarity Real.sqrt ["banana".toList] [] =
      some [(0, Fl.fin 0), (1, Fl.fin 0)] ∧
    (sampleCollection (Real.logb 2) Real.sqrt).contribution
      (Fl.sqrt Real.sqrt (Fl.ofNat ["banana".toList].length)) 0 "banana".toList = Fl.fin 0 := by
  refine ⟨sample_similarity_banana, ?_⟩
  have h2 : Real.logb 2 2 = 1 := Real.logb_self_eq_one (by norm_num)
  simp [sampleCollection, TextCollection.contribution, TextCollection.weight,
    TextCollection.norm, sampleDocs, sampleDict, samplePlists, SMap.find, docWeights, idfOf,
    idf_calc, maxtf, l2norm, Fl.ofNat, Fl.mul, Fl.div, Fl.log2, Fl.sqrt, Fl.add, Fl.pow2,
    Fl.infOfSign, SMap.size, h2]

/-- In a constructed collection a word that a document contains is in the
dictionary. -/
theorem TextCollection.hasTerm_dict (lg sq : F → F) (sw : List Str) (paras : List Str)
    (tc : TextCollection F) (h : TextCollection.new lg sq sw paras = some tc)
    (d : Nat) (t : Str) (ht : tc.hasTerm d t = true) :
    ∃ id, tc.dictionary.find t = some id ∧ id < tc.plists.length := by
  obtain ⟨hlen, -, hdoc⟩ := TextCollection.built_facts lg sq sw paras tc h
  unfold TextCollection.hasTerm at ht
  cases hd : tc.documents[d]? with
  | none => rw [hd] at ht; simp at ht
  | some doc =>
    rw [hd] at ht
    simp only [Option.some_bind] at ht
    obtain ⟨pos, hpos⟩ := Option.isSome_iff_exists.1 ht
    obtain ⟨-, id, hid, hlt⟩ := (hdoc d doc hd).2.2.2.2 t pos hpos
    exact ⟨id, hid, by rw [hlen]; exact hlt⟩

/-- A query none of whose words is in the dictionary leaves the result map
as it is, in every collection. -/
theorem similarity_unknown (sq : F → F) (tc : TextCollection F) (query : Query)
    (sim : SMap Nat (Fl F)) (h : ∀ w ∈ query, tc.dictionary.find w = none) :
    tc.similarity sq query sim = some sim := by
  unfold TextCollection.similarity
  simp only
  generalize Fl.sqrt sq (Fl.ofNat query.length) = qnorm
  induction query with
  | nil => rfl
  | cons w ws ih =>
    rw [List.foldlM_cons]
    have hw : similarityWord tc qnorm sim w = some sim := by
      unfold similarityWord
      rw [h w (List.mem_cons_self _ _)]
    rw [hw]
    exact ih (fun x hx => h x (List.mem_cons_of_mem _ hx))

/-- C17: Unknown query terms. In a constructed collection a query all of
whose terms are absent from the dictionary, the empty query included, leaves
the result map empty; and a query extended by a term absent from the
dictionary has the same documents in its result. -/
theorem similarity_unknown_terms (lg sq : F → F) (sw : List Str) (paras : List Str)
    (tc : TextCollection F) (h : TextCollection.new lg sq sw paras = some tc) :
    tc.similarity sq [] [] = some [] ∧
    (∀ query : Query, (∀ w ∈ query, tc.dictionary.find w = none) →
      tc.similarity sq query [] = some []) ∧
    (∀ (query query2 : Query) (w : Str), tc.dictionary.find w = none →
      (∀ t, t ∈ query2 ↔ t = w ∨ t ∈ query) →
      ∃ sim sim2, tc.similarity sq query [] = some sim ∧
        tc.similarity sq query2 [] = some sim2 ∧ ∀ d, d ∈ sim2.keys ↔ d ∈ sim.keys) := by
  refine ⟨rfl, fun query hq => similarity_unknown sq tc query [] hq, ?_⟩
  intro query query2 w hw hmem
  obtain ⟨sim, h1, -, h3⟩ := similarity_spec lg sq sw paras tc h query
  obtain ⟨sim2, g1, -, g3⟩ := similarity_spec lg sq sw paras tc h query2
  refine ⟨sim, sim2, h1, g1, ?_⟩
  have hno : ∀ d, tc.hasTerm d w = false := by
    intro d
    cases hh : tc.hasTerm d w with
    | false => rfl
    | true =>
      obtain ⟨id, hid, -⟩ := TextCollection.hasTerm_dict lg sq sw paras tc h d w hh
      rw [hw] at hid
      cases hid
  have hfil : ∀ d, query2.filter (tc.hasTerm d) = [] ↔ query.filter (tc.hasTerm d) = [] := by
    intro d
    simp only [List.filter_eq_nil_iff]
    constructor
    · intro hq t ht
      exact hq t ((hmem t).2 (Or.inr ht))
    · intro hq t ht
      rcases (hmem t).1 ht with htw | htq
      · subst htw
        simp [hno d]
      · exact hq t htq
  intro d
  rw [SMap.mem_keys_iff, SMap.mem_keys_iff, h3 d, g3 d, cosineRef, cosineRef]
  by_cases hn : query.filter (tc.hasTerm d) = []
  · rw [if_pos hn, if_pos ((hfil d).2 hn)]
  · rw [if_neg hn, if_neg (fun hx => hn ((hfil d).1 hx))]
    simp

theorem similarity_unknown_terms_witness :
    TextCollection.new (Real.logb 2) Real.sqrt [] sampleParas =
      some (sampleCollection (Real.logb 2) Real.sqrt) ∧
    (sampleCollection (Real.logb 2) Real.sqrt).similarity Real.sqrt [] [] = some [] ∧
    (∀ query : Query,
      (∀ w ∈ query, (sampleCollection (Real.logb 2) Real.sqrt).dictionary.find w = none) →
      (sampleCollection (Real.logb 2) Real.sqrt).similarity Real.sqrt query [] = some []) ∧
    (∀ (query query2 : Query) (w : Str),
      (sampleCollection (Real.logb 2) Real.sqrt).dictionary.find w = none →
      (∀ t, t ∈ query2 ↔ t = w ∨ t ∈ query) →
      ∃ sim sim2,
        (sampleCollection (Real.logb 2) Real.sqrt).similarity Real.sqrt query [] = some sim ∧
        (sampleCollection (Real.logb 2) Real.sqrt).similarity Real.sqrt query2 [] = some sim2 ∧
        ∀ d, d ∈ sim2.keys ↔ d ∈ sim.keys) :=
  ⟨sampleCollection_built (Real.logb 2) Real.sqrt,
    similarity_unknown_terms (Real.logb 2) Real.sqrt [] sampleParas
      (sampleCollection (Real.logb 2) Real.sqrt)
      (sampleCollection_built (Real.logb 2) Real.sqrt)⟩

end Pasec

/-! ## Lookups and posting lists -/

namespace Pasec

variable {F : Type} [LinearOrderedField F]

/-- C18: Lookups inside `similarity` cannot fail. In a constructed collection
(every document then has an accepted term) and for every query, `similarity`
returns; every identifier found in the dictionary is a valid index into
`plists`; every document identifier in that posting list is a valid index
into `documents`, `weights` and `dnorms`; and `weights[did]` has the query
term as a key. -/
theorem similarity_lookups_valid (lg sq : F → F) (sw : List Str) (paras : List Str)
    (tc : TextCollection F) (h : TextCollection.new lg sq sw paras = some tc) (query : Query) :
    (∀ doc ∈ tc.documents, doc.terms ≠ []) ∧
    (∃ sim, tc.similarity sq query [] = some sim) ∧
    ∀ word ∈ query, ∀ index, tc.dictionary.find word = some index →
      index < tc.plists.length ∧
      ∃ plist, tc.plists[index]? = some plist ∧
        ∀ posting ∈ plist,
          posting.1 < tc.documents.length ∧ posting.1 < tc.weights.length ∧
          posting.1 < tc.dnorms.length ∧
          ∃ wv w, tc.weights[posting.1]? = some wv ∧ wv.find word = some w := by
  obtain ⟨-, -, hne, hw, hn⟩ := TextCollection.built_stores lg sq sw paras tc h
  obtain ⟨hlen, hpl, hdoc⟩ := TextCollection.built_facts lg sq sw paras tc h
  obtain ⟨sim, h1, -, -⟩ := similarity_spec lg sq sw paras tc h query
  refine ⟨hne, ⟨sim, h1⟩, ?_⟩
  intro word _ index hid
  obtain ⟨pl, hpl1, hpl2, hpl3⟩ := hpl word index hid
  have hidx : index < tc.plists.length := by
    by_contra hge
    rw [List.getElem?_eq_none (by omega)] at hpl1
    cases hpl1
  refine ⟨hidx, pl, hpl1, ?_⟩
  intro p hp
  have hf := SMap.find_of_mem pl hpl2 (k := p.1) (v := p.2) hp
  rw [hpl3 p.1] at hf
  cases hd : tc.documents[p.1]? with
  | none => rw [hd] at hf; cases hf
  | some doc =>
    rw [hd] at hf
    simp only [Option.some_bind] at hf
    cases hpos : doc.terms.find word with
    | none => rw [hpos] at hf; cases hf
    | some pos =>
      have hlt : p.1 < tc.documents.length := by
        by_contra hge
        rw [List.getElem?_eq_none (by omega)] at hd
        cases hd
      obtain ⟨hwd, -, -⟩ := hdoc p.1 doc hd
      have hfw := SMap.find_map_entries (fun term : Str × List Nat =>
        Fl.div (Fl.mul (Fl.ofNat term.2.length)
          (idfOf (tc.plists.map (idf_calc lg tc.documents.length)) tc.dictionary term.1))
          (Fl.ofNat (maxtf doc) : Fl F)) doc.terms word
      rw [hpos] at hfw
      refine ⟨hlt, by rw [hw, List.length_map]; exact hlt,
        by rw [hn, hw, List.length_map, List.length_map]; exact hlt, _, _, hwd, hfw⟩

theorem similarity_lookups_valid_witness :
    TextCollection.new (Real.logb 2) Real.sqrt [] sampleParas =
      some (sampleCollection (Real.logb 2) Real.sqrt) ∧
    (∀ doc ∈ (sampleCollection (Real.logb 2) Real.sqrt).documents, doc.terms ≠ []) ∧
    (∃ sim, (sampleCollection (Real.logb 2) Real.sqrt).similarity Real.sqrt
      ["apple".toList, "zebra".toList] [] = some sim) ∧
    ∀ word ∈ ["apple".toList, "zebra".toList], ∀ index,
      (sampleCollection (Real.logb 2) Real.sqrt).dictionary.find word = some index →
      index < (sampleCollection (Real.logb 2) Real.sqrt).plists.length ∧
      ∃ plist, (sampleCollection (Real.logb 2) Real.sqrt).plists[index]? = some plist ∧
        ∀ posting ∈ plist,
          posting.1 < (sampleCollection (Real.logb 2) Real.sqrt).documents.length ∧
          posting.1 < (sampleCollection (Real.logb 2) Real.sqrt).weights.length ∧
          posting.1 < (sampleCollection (Real.logb 2) Real.sqrt).dnorms.length ∧
          ∃ wv w, (sampleCollection (Real.logb 2) Real.sqrt).weights[posting.1]? = some wv ∧
            wv.find word = some w :=
  ⟨sampleCollection_built (Real.logb 2) Real.sqrt,
    similarity_lookups_valid (Real.logb 2) Real.sqrt [] sampleParas
      (sampleCollection (Real.logb 2) Real.sqrt)
      (sampleCollection_built (Real.logb 2) Real.sqrt) ["apple".toList, "zebra".toList]⟩

theorem forall₂_mem_left {α β : Type} {R : α → β → Prop} {l1 : List α} {l2 : List β}
    (h : List.Forall₂ R l1 l2) : ∀ a ∈ l1, ∃ b ∈ l2, R a b := by
  induction h with
  | nil => intro a ha; simp at ha
  | cons hr _ ih =>
    intro a ha
    rcases List.mem_cons.1 ha with ha | ha
    · subst ha; exact ⟨_, List.mem_cons_self _ _, hr⟩
    · obtain ⟨b, hb, hab⟩ := ih a ha
      exact ⟨b, List.mem_cons_of_mem _ hb, hab⟩

/-- After loading, the dictionary keys are the terms of the documents. -/
theorem loadDocuments_dict_keys (sw : List Str) (paras : List Str) (docs : List Document)
    (dict : Dictionary) (h : loadDocuments sw paras = some (docs, dict)) (t : Str) :
    t ∈ dict.keys ↔ ∃ doc ∈ docs, t ∈ doc.terms.keys := by
  obtain ⟨hrep, hall⟩ := loadDocuments_inv sw paras docs dict h
  constructor
  · intro ht
    obtain ⟨k, hk⟩ := (SMap.mem_keys_iff dict t).1 ht
    have hL : t ∈ firstSeen (corpusTerms sw paras) := (hrep.mem_iff t).2 (by rw [hk]; simp)
    rw [firstSeen, mem_firstSeenFrom] at hL
    rcases hL with hL | hL
    · simp at hL
    · obtain ⟨para, hpara, hacc⟩ := (mem_corpusTerms sw paras t).1 hL
      obtain ⟨doc, hdoc, -, hterms⟩ := forall₂_mem_left hall para hpara
      refine ⟨doc, hdoc, ?_⟩
      have := (hterms.find_ne_none_iff t).2 hacc
      cases hf : doc.terms.find t with
      | none => exact absurd hf this
      | some pos => exact (SMap.mem_keys_iff _ t).2 ⟨pos, hf⟩
  · rintro ⟨doc, hdoc, ht⟩
    obtain ⟨pos, hpos⟩ := (SMap.mem_keys_iff _ t).1 ht
    obtain ⟨-, -, hdocs⟩ := loadDocuments_facts sw paras docs dict h
    obtain ⟨-, id, hid, -⟩ := (hdocs doc hdoc).2 t pos hpos
    exact (SMap.mem_keys_iff _ t).2 ⟨id, hid⟩

theorem SMap.size_le_of_keys_lt (pl : SMap Nat Nat) (hwf : pl.WF) (N : Nat)
    (h : ∀ j ∈ pl.keys, j < N) : pl.size ≤ N := by
  have hnd : pl.keys.Nodup := by
    unfold SMap.keys List.Nodup
    rw [List.pairwise_map]
    exact List.Pairwise.imp (fun hlt => ne_of_lt hlt) hwf
  have hsub : pl.keys ⊆ List.range N := fun j hj => List.mem_range.2 (h j hj)
  have := (List.subperm_of_subset hnd hsub).length_le
  simpa [SMap.keys, SMap.size] using this

/-- In a constructed collection every posting list has at least one entry
and at most as many as there are documents. -/
theorem TextCollection.built_plist_size (lg sq : F → F) (sw : List Str) (paras : List Str)
    (tc : TextCollection F) (h : TextCollection.new lg sq sw paras = some tc)
    (i : Nat) (plist : PostingList) (hi : tc.plists[i]? = some plist) :
    1 ≤ plist.size ∧ plist.size ≤ tc.documents.length := by
  obtain ⟨hl, -, -, -, -⟩ := TextCollection.built_stores lg sq sw paras tc h
  obtain ⟨hlen, hpl, -⟩ := TextCollection.built_facts lg sq sw paras tc h
  obtain ⟨hrep, -⟩ := loadDocuments_inv sw paras _ _ hl
  have hkeys := loadDocuments_dict_keys sw paras _ _ hl
  have hilt : i < (firstSeen (corpusTerms sw paras)).length := by
    rw [← hrep.2.1, ← hlen]
    by_contra hge
    rw [List.getElem?_eq_none (by omega)] at hi
    cases hi
  have hfind := (hrep.2.2 _ i).2 (List.getElem?_eq_getElem hilt)
  obtain ⟨pl, hpl1, hpl2, hpl3⟩ := hpl _ i hfind
  rw [hi] at hpl1
  cases hpl1
  obtain ⟨doc, hdoc, hk⟩ := (hkeys _).1 ((SMap.mem_keys_iff _ _).2 ⟨i, hfind⟩)
  obtain ⟨j, hj⟩ := List.getElem?_of_mem hdoc
  obtain ⟨pos, hpos⟩ := (SMap.mem_keys_iff _ _).1 hk
  have hfj : plist.find j = some pos.length := by rw [hpl3 j, hj]; simp [hpos]
  refine ⟨?_, ?_⟩
  · cases hp : plist with
    | nil => rw [hp] at hfj; simp [SMap.find] at hfj
    | cons a b => simp [SMap.size]
  · apply SMap.size_le_of_keys_lt plist hpl2
    intro k hk2
    obtain ⟨v, hv⟩ := (SMap.mem_keys_iff plist k).1 hk2
    rw [hpl3 k] at hv
    by_contra hge
    rw [List.getElem?_eq_none (by omega)] at hv
    cases hv

/-- The logarithm of `N / df` is not negative when `1 ≤ df ≤ N`. -/
theorem logb_quotient_nonneg (N df : Nat) (h1 : 1 ≤ df) (h2 : df ≤ N) :
    (1 : ℝ) ≤ (N : ℝ) / (df : ℝ) ∧ 0 ≤ Real.logb 2 ((N : ℝ) / (df : ℝ)) := by
  have hs : (0 : ℝ) < (df : ℝ) := Nat.cast_pos.2 (by omega)
  have hq : (1 : ℝ) ≤ (N : ℝ) / (df : ℝ) := by
    rw [le_div_iff₀ hs, one_mul]
    exact Nat.cast_le.2 h2
  exact ⟨hq, Real.logb_nonneg (by norm_num) hq⟩

/-- C15: Non-empty posting lists. A constructed collection has one posting
list per dictionary entry; every posting list has at least one and at most
`N` entries, `N` the number of documents, so the quotient `N / df` is taken
with `df` not zero and `idf = log2 (N / df)` is a finite value that is not
negative; and the dictionary keys are exactly the keys of the term maps of
the documents. -/
theorem posting_lists_nonempty (sw : List Str) (paras : List Str) (tc : TextCollection ℝ)
    (h : TextCollection.new (Real.logb 2) Real.sqrt sw paras = some tc) :
    tc.plists.length = tc.dictionary.size ∧
    (∀ (i : Nat) (plist : PostingList), tc.plists[i]? = some plist →
      1 ≤ plist.size ∧ plist.size ≤ tc.documents.length ∧
      idf_calc (Real.logb 2) tc.documents.length plist =
        Fl.fin (Real.logb 2 ((tc.documents.length : ℝ) / (plist.size : ℝ))) ∧
      0 ≤ Real.logb 2 ((tc.documents.length : ℝ) / (plist.size : ℝ))) ∧
    (∀ t, t ∈ tc.dictionary.keys ↔ ∃ doc ∈ tc.documents, t ∈ doc.terms.keys) := by
  obtain ⟨hl, -, -, -, -⟩ := TextCollection.built_stores (Real.logb 2) Real.sqrt sw paras tc h
  obtain ⟨hlen, -, -⟩ := TextCollection.built_facts (Real.logb 2) Real.sqrt sw paras tc h
  refine ⟨hlen, ?_, loadDocuments_dict_keys sw paras _ _ hl⟩
  intro i plist hi
  obtain ⟨h1, h2⟩ :=
    TextCollection.built_plist_size (Real.logb 2) Real.sqrt sw paras tc h i plist hi
  obtain ⟨hq, hlog⟩ := logb_quotient_nonneg tc.documents.length plist.size h1 h2
  have hs : (0 : ℝ) < (plist.size : ℝ) := Nat.cast_pos.2 (by omega)
  refine ⟨h1, h2, ?_, hlog⟩
  rw [idf_calc, Fl.ofNat, Fl.ofNat, Fl.mul_fin, Fl.div_fin _ _ (ne_of_gt hs),
    Fl.log2_fin _ _ (by rw [one_mul]; exact lt_of_lt_of_le zero_lt_one hq), one_mul]

theorem posting_lists_nonempty_witness :
    TextCollection.new (Real.logb 2) Real.sqrt [] sampleParas =
      some (sampleCollection (Real.logb 2) Real.sqrt) ∧
    (sampleCollection (Real.logb 2) Real.sqrt).plists.length =
      (sampleCollection (Real.logb 2) Real.sqrt).dictionary.size ∧
    (∀ (i : Nat) (plist : PostingList),
      (sampleCollection (Real.logb 2) Real.sqrt).plists[i]? = some plist →
      1 ≤ plist.size ∧
      plist.size ≤ (sampleCollection (Real.logb 2) Real.sqrt).documents.length ∧
      idf_calc (Real.logb 2) (sampleCollection (Real.logb 2) Real.sqrt).documents.length plist =
        Fl.fin (Real.logb 2
          (((sampleCollection (Real.logb 2) Real.sqrt).documents.length : ℝ) /
            (plist.size : ℝ))) ∧
      0 ≤ Real.logb 2
          (((sampleCollection (Real.logb 2) Real.sqrt).documents.length : ℝ) /
            (plist.size : ℝ))) ∧
    (∀ t, t ∈ (sampleCollection (Real.logb 2) Real.sqrt).dictionary.keys ↔
      ∃ doc ∈ (sampleCollection (Real.logb 2) Real.sqrt).documents, t ∈ doc.terms.keys) :=
  ⟨sampleCollection_built (Real.logb 2) Real.sqrt,
    posting_lists_nonempty [] sampleParas (sampleCollection (Real.logb 2) Real.sqrt)
      (sampleCollection_built (Real.logb 2) Real.sqrt)⟩

end Pasec

/-! ## Norms -/

namespace Pasec

theorem sumsq_eq (l : DocWeights ℝ) (hfin : ∀ e ∈ l, e.2 = Fl.fin e.2.val) : ∀ (a0 : ℝ),
    l.foldl (fun sum term => Fl.add sum (Fl.pow2 term.2)) (Fl.fin a0) =
      Fl.fin (a0 + (l.map (fun e => e.2.val ^ 2)).sum) := by
  induction l with
  | nil => intro a0; simp
  | cons e es ih =>
    intro a0
    have he := hfin e (List.mem_cons_self _ _)
    rw [List.foldl_cons, he, Fl.pow2, Fl.mul_fin, Fl.add_fin,
      ih (fun e2 he2 => hfin e2 (List.mem_cons_of_mem _ he2))]
    simp only [List.map_cons, List.sum_cons, Fl.val]
    congr 1
    ring

theorem sum_sq_nonneg (l : DocWeights ℝ) : 0 ≤ (l.map (fun e => e.2.val ^ 2)).sum := by
  induction l with
  | nil => simp
  | cons e es ih =>
    simp only [List.map_cons, List.sum_cons]
    exact add_nonneg (sq_nonneg _) ih

theorem sum_sq_eq_zero_iff (l : DocWeights ℝ) :
    (l.map (fun e => e.2.val ^ 2)).sum = 0 ↔ ∀ e ∈ l, e.2.val = 0 := by
  induction l with
  | nil => simp
  | cons e es ih =>
    simp only [List.map_cons, List.sum_cons, List.mem_cons, forall_eq_or_imp]
    constructor
    · intro h
      have h1 : e.2.val ^ 2 = 0 := by
        have := sum_sq_nonneg es
        have := sq_nonneg e.2.val
        linarith
      have h2 : (es.map (fun e => e.2.val ^ 2)).sum = 0 := by
        rw [h1] at h
        linarith
      exact ⟨pow_eq_zero_iff (by norm_num) |>.1 h1, ih.1 h2⟩
    · rintro ⟨h1, h2⟩
      rw [h1, ih.2 h2]
      simp

/-- The weight vector of a document of a constructed collection holds finite
values only, and they are not negative. -/
theorem TextCollection.built_weights_fin (sw : List Str) (paras : List Str)
    (tc : TextCollection ℝ)
    (h : TextCollection.new (Real.logb 2) Real.sqrt sw paras = some tc)
    (d : Nat) (doc : Document) (hd : tc.documents[d]? = some doc) :
    ∃ wv, tc.weights[d]? = some wv ∧ wv.WF ∧ wv.keys = doc.terms.keys ∧
      (∀ e ∈ wv, e.2 = Fl.fin e.2.val ∧ 0 ≤ e.2.val ∧ tc.weight d e.1 = e.2) := by
  obtain ⟨-, -, hdoc⟩ := TextCollection.built_facts (Real.logb 2) Real.sqrt sw paras tc h
  obtain ⟨hw, -, hwf, -, -⟩ := hdoc d doc hd
  have hwf2 : SMap.WF (docWeights (tc.plists.map (idf_calc (Real.logb 2) tc.documents.length))
      tc.dictionary doc) := by
    unfold SMap.WF docWeights
    rw [List.pairwise_map]
    exact hwf
  refine ⟨_, hw, hwf2, SMap.keys_map_entries _ _, ?_⟩
  intro e he
  have hfe := SMap.find_of_mem _ hwf2 (k := e.1) (v := e.2) he
  have hwe : tc.weight d e.1 = e.2 := by
    rw [TextCollection.weight, hw]
    simp only [Option.some_bind]
    rw [hfe]
    rfl
  obtain ⟨term, hterm, hte⟩ := List.mem_map.1 he
  have hf := SMap.find_of_mem doc.terms hwf (k := term.1) (v := term.2) hterm
  obtain ⟨id, pl, -, hpl, -, h4, h5, h6⟩ :=
    TextCollection.built_weight (Real.logb 2) Real.sqrt sw paras tc h d doc term.1 term.2 hd hf
  have hk : e.1 = term.1 := by rw [← hte]
  have hval : e.2 = Fl.fin ((term.2.length : ℝ) *
      Real.logb 2 (1 * (tc.documents.length : ℝ) / (pl.size : ℝ)) / (maxtf doc : ℝ)) := by
    have : tc.weight d term.1 = Fl.fin ((term.2.length : ℝ) *
        Real.logb 2 (1 * (tc.documents.length : ℝ) / (pl.size : ℝ)) / (maxtf doc : ℝ)) := by
      rw [TextCollection.weight, h6]
      rfl
    rw [← hwe, hk, this]
  obtain ⟨h1, h2⟩ :=
    TextCollection.built_plist_size (Real.logb 2) Real.sqrt sw paras tc h id pl hpl
  obtain ⟨-, hlog⟩ := logb_quotient_nonneg tc.documents.length pl.size h1 h2
  refine ⟨by rw [hval]; rfl, ?_, hwe⟩
  rw [hval, one_mul]
  simp only [Fl.val]
  exact div_nonneg (mul_nonneg (Nat.cast_nonneg _) hlog) (Nat.cast_nonneg _)

/-- The norm of a document of a constructed collection is the square root of
the sum of the squares of its weights. -/
theorem TextCollection.built_norm_eq (sw : List Str) (paras : List Str)
    (tc : TextCollection ℝ)
    (h : TextCollection.new (Real.logb 2) Real.sqrt sw paras = some tc)
    (d : Nat) (wv : DocWeights ℝ) (hw : tc.weights[d]? = some wv)
    (hfin : ∀ e ∈ wv, e.2 = Fl.fin e.2.val) :
    tc.dnorms[d]? = some (Fl.fin (Real.sqrt ((wv.map (fun e => e.2.val ^ 2)).sum))) ∧
    tc.norm d = Fl.fin (Real.sqrt ((wv.map (fun e => e.2.val ^ 2)).sum)) := by
  obtain ⟨-, -, -, -, hn⟩ := TextCollection.built_stores (Real.logb 2) Real.sqrt sw paras tc h
  have hdn : tc.dnorms[d]? = some (l2norm Real.sqrt wv) := by
    rw [hn, List.getElem?_map, hw]
    rfl
  have hl2 : l2norm Real.sqrt wv = Fl.fin (Real.sqrt ((wv.map (fun e => e.2.val ^ 2)).sum)) := by
    rw [l2norm, sumsq_eq wv hfin 0, zero_add, Fl.sqrt_fin _ _ (sum_sq_nonneg wv)]
  refine ⟨by rw [hdn, hl2], ?_⟩
  rw [TextCollection.norm, hdn, hl2]
  rfl

/-- C16: Norm characterisation. In a constructed collection the weights of a
document are finite values, its norm is the square root of the sum of their
squares, the norm is not negative, and it is zero exactly when every weight
in the weight vector is zero. -/
theorem norm_characterisation (sw : List Str) (paras : List Str) (tc : TextCollection ℝ)
    (h : TextCollection.new (Real.logb 2) Real.sqrt sw paras = some tc)
    (d : Nat) (doc : Document) (hd : tc.documents[d]? = some doc) :
    ∃ wv, tc.weights[d]? = some wv ∧ (∀ e ∈ wv, e.2 = Fl.fin e.2.val) ∧
      tc.dnorms[d]? = some (Fl.fin (Real.sqrt ((wv.map (fun e => e.2.val ^ 2)).sum))) ∧
      tc.norm d = Fl.fin (Real.sqrt ((wv.map (fun e => e.2.val ^ 2)).sum)) ∧
      0 ≤ (tc.norm d).val ∧
      (tc.norm d = Fl.fin 0 ↔ ∀ e ∈ wv, e.2 = Fl.fin 0) := by
  obtain ⟨wv, hw, -, -, hfin⟩ := TextCollection.built_weights_fin sw paras tc h d doc hd
  obtain ⟨hdn, hnorm⟩ := TextCollection.built_norm_eq sw paras tc h d wv hw
    (fun e he => (hfin e he).1)
  refine ⟨wv, hw, fun e he => (hfin e he).1, hdn, hnorm, ?_, ?_⟩
  · rw [hnorm]
    exact Real.sqrt_nonneg _
  · rw [hnorm]
    constructor
    · intro h0
      have h1 : Real.sqrt ((wv.map (fun e => e.2.val ^ 2)).sum) = 0 := Fl.fin.inj h0
      have h2 := (Real.sqrt_eq_zero (sum_sq_nonneg wv)).1 h1
      intro e he
      rw [(hfin e he).1, (sum_sq_eq_zero_iff wv).1 h2 e he]
    · intro hall
      have h2 : (wv.map (fun e => e.2.val ^ 2)).sum = 0 :=
        (sum_sq_eq_zero_iff wv).2 (fun e he => by rw [hall e he]; rfl)
      rw [h2, Real.sqrt_zero]

theorem norm_characterisation_witness :
    TextCollection.new (Real.logb 2) Real.sqrt [] sampleParas =
      some (sampleCollection (Real.logb 2) Real.sqrt) ∧
    ∃ wv, (sampleCollection (Real.logb 2) Real.sqrt).weights[0]? = some wv ∧
      (∀ e ∈ wv, e.2 = Fl.fin e.2.val) ∧
      (sampleCollection (Real.logb 2) Real.sqrt).dnorms[0]? =
        some (Fl.fin (Real.sqrt ((wv.map (fun e => e.2.val ^ 2)).sum))) ∧
      (sampleCollection (Real.logb 2) Real.sqrt).norm 0 =
        Fl.fin (Real.sqrt ((wv.map (fun e => e.2.val ^ 2)).sum)) ∧
      0 ≤ ((sampleCollection (Real.logb 2) Real.sqrt).norm 0).val ∧
      ((sampleCollection (Real.logb 2) Real.sqrt).norm 0 = Fl.fin 0 ↔
        ∀ e ∈ wv, e.2 = Fl.fin 0) :=
  ⟨sampleCollection_built (Real.logb 2) Real.sqrt,
    norm_characterisation [] sampleParas (sampleCollection (Real.logb 2) Real.sqrt)
      (sampleCollection_built (Real.logb 2) Real.sqrt) 0
      { terms := [("apple".toList, [0, 1]), ("banana".toList, [2])] } rfl⟩

end Pasec

/-! ## Signs of the contributions -/

namespace Pasec

/-- The weight of a term of a document of a constructed collection, by the
number of documents that contain the term: positive when some document lacks
the term, zero when every document has it. -/
theorem TextCollection.built_weight_sign (sw : List Str) (paras : List Str)
    (tc : TextCollection ℝ)
    (h : TextCollection.new (Real.logb 2) Real.sqrt sw paras = some tc)
    (d : Nat) (t : Str) (ht : tc.hasTerm d t = true) :
    1 ≤ tc.df t ∧ tc.df t ≤ tc.documents.length ∧
    ∃ x, tc.weight d t = Fl.fin x ∧ 0 ≤ x ∧
      (tc.df t < tc.documents.length → 0 < x) ∧
      (tc.df t = tc.documents.length → x = 0) := by
  obtain ⟨doc, hd, hk⟩ := (hasTerm_iff tc d t).1 ht
  obtain ⟨pos, hpos⟩ := (SMap.mem_keys_iff _ _).1 hk
  obtain ⟨-, -, hdoc⟩ := TextCollection.built_facts (Real.logb 2) Real.sqrt sw paras tc h
  obtain ⟨hne, -⟩ := (hdoc d doc hd).2.2.2.2 t pos hpos
  obtain ⟨id, pl, hid, hpl, -, h4, h5, h6⟩ :=
    TextCollection.built_weight (Real.logb 2) Real.sqrt sw paras tc h d doc t pos hd hpos
  obtain ⟨h1, h2⟩ :=
    TextCollection.built_plist_size (Real.logb 2) Real.sqrt sw paras tc h id pl hpl
  have hdf : tc.df t = pl.size := by
    simp [TextCollection.df, hid, hpl]
  have hw : tc.weight d t = Fl.fin ((pos.length : ℝ) *
      Real.logb 2 (1 * (tc.documents.length : ℝ) / (pl.size : ℝ)) / (maxtf doc : ℝ)) := by
    rw [TextCollection.weight, h6]
    rfl
  have htf : (0 : ℝ) < (pos.length : ℝ) := Nat.cast_pos.2 (List.length_pos.2 hne)
  have hmx : (0 : ℝ) < (maxtf doc : ℝ) := Nat.cast_pos.2 h5
  have hs : (0 : ℝ) < (pl.size : ℝ) := Nat.cast_pos.2 h4
  obtain ⟨-, hlog⟩ := logb_quotient_nonneg tc.documents.length pl.size h1 h2
  rw [hdf]
  refine ⟨h1, h2, _, hw, ?_, ?_, ?_⟩
  · rw [one_mul]
    exact div_nonneg (mul_nonneg (le_of_lt htf) hlog) (le_of_lt hmx)
  · intro hlt
    have hq : (1 : ℝ) < 1 * (tc.documents.length : ℝ) / (pl.size : ℝ) := by
      rw [one_mul, one_lt_div hs]
      exact Nat.cast_lt.2 hlt
    exact div_pos (mul_pos htf (Real.logb_pos (by norm_num) hq)) hmx
  · intro heq
    rw [heq, one_mul, div_self (ne_of_gt (by rw [← heq]; exact hs))]
    simp


/-- A document of a constructed collection that holds a term with a positive
weight has a positive norm. -/
theorem TextCollection.built_norm_pos (sw : List Str) (paras : List Str)
    (tc : TextCollection ℝ)
    (h : TextCollection.new (Real.logb 2) Real.sqrt sw paras = some tc)
    (d : Nat) (t : Str) (ht : tc.hasTerm d t = true) (x : ℝ)
    (hx : tc.weight d t = Fl.fin x) (hpos : 0 < x) :
    ∃ n, tc.norm d = Fl.fin n ∧ 0 < n := by
  obtain ⟨doc, hd, hk⟩ := (hasTerm_iff tc d t).1 ht
  obtain ⟨wv, hwv, -, hkeys, hfin⟩ := TextCollection.built_weights_fin sw paras tc h d doc hd
  obtain ⟨-, hnorm⟩ := TextCollection.built_norm_eq sw paras tc h d wv hwv
    (fun e he => (hfin e he).1)
  refine ⟨_, hnorm, ?_⟩
  rw [← hkeys] at hk
  obtain ⟨e, he, hek⟩ := List.mem_map.1 hk
  have hev : e.2.val = x := by
    have := (hfin e he).2.2
    rw [hek, hx] at this
    rw [← this]
    rfl
  apply Real.sqrt_pos.2
  rcases (sum_sq_nonneg wv).lt_or_eq with hlt | heq
  · exact hlt
  · have := (sum_sq_eq_zero_iff wv).1 heq.symm e he
    rw [hev] at this
    linarith


/-- C14 (amended): in a constructed collection `similarity` returns, and a
document identifier is a key of the result exactly when the term map of the
document holds a term of the query (such a term is in the dictionary). The
contribution of a shared term is positive when the term occurs in fewer
documents than the collection has, and zero when it occurs in all of them and
the norm of the document is not zero. So the score of an entry is positive
when some shared query term is missing from some document, and zero when
every shared query term occurs in every document and the norm is not zero. -/
theorem similarity_keys_share_term (sw : List Str) (paras : List Str) (tc : TextCollection ℝ)
    (h : TextCollection.new (Real.logb 2) Real.sqrt sw paras = some tc) (query : Query) :
    ∃ sim, tc.similarity Real.sqrt query [] = some sim ∧
      (∀ d, d ∈ sim.keys ↔
        ∃ doc, tc.documents[d]? = some doc ∧
          ∃ t ∈ query, t ∈ doc.terms.keys ∧ t ∈ tc.dictionary.keys) ∧
      (∀ d t, t ∈ query → tc.hasTerm d t = true →
        1 ≤ tc.df t ∧ tc.df t ≤ tc.documents.length ∧
        (tc.df t < tc.documents.length →
          ∃ c, tc.contribution (Fl.sqrt Real.sqrt (Fl.ofNat query.length)) d t = Fl.fin c ∧
            0 < c) ∧
        (tc.df t = tc.documents.length → tc.norm d ≠ Fl.fin 0 →
          tc.contribution (Fl.sqrt Real.sqrt (Fl.ofNat query.length)) d t = Fl.fin 0)) ∧
      (∀ d s, sim.find d = some s →
        ((∃ t ∈ query, tc.hasTerm d t = true ∧ tc.df t < tc.documents.length) →
          ∃ v, s = Fl.fin v ∧ 0 < v) ∧
        ((∀ t ∈ query, tc.hasTerm d t = true → tc.df t = tc.documents.length) →
          tc.norm d ≠ Fl.fin 0 → s = Fl.fin 0)) := by
  obtain ⟨sim, h1, -, h3⟩ := similarity_spec (Real.logb 2) Real.sqrt sw paras tc h query
  have hsqrt : ∀ t ∈ query, 0 < Real.sqrt (query.length : ℝ) := by
    intro t htq
    exact Real.sqrt_pos.2 (Nat.cast_pos.2 (List.length_pos.2 (List.ne_nil_of_mem htq)))
  have hnfin : ∀ d t, tc.hasTerm d t = true → ∃ n, tc.norm d = Fl.fin n := by
    intro d t ht
    obtain ⟨doc, hd, -⟩ := (hasTerm_iff tc d t).1 ht
    exact (TextCollection.built_finite (Real.logb 2) Real.sqrt sw paras tc h d doc hd).2
  refine ⟨sim, h1, ?_, ?_, ?_⟩
  · intro d
    rw [SMap.mem_keys_iff, h3 d, cosineRef]
    constructor
    · rintro ⟨v, hv⟩
      split_ifs at hv with hnil
      obtain ⟨t, ht⟩ := List.exists_mem_of_ne_nil _ hnil
      obtain ⟨htq, htd⟩ := List.mem_filter.1 ht
      obtain ⟨doc, hdoc, hk⟩ := (hasTerm_iff tc d t).1 htd
      obtain ⟨id, hid, -⟩ :=
        TextCollection.hasTerm_dict (Real.logb 2) Real.sqrt sw paras tc h d t htd
      exact ⟨doc, hdoc, t, htq, hk, (SMap.mem_keys_iff _ t).2 ⟨id, hid⟩⟩
    · rintro ⟨doc, hdoc, t, htq, hk, -⟩
      have : query.filter (tc.hasTerm d) ≠ [] :=
        List.ne_nil_of_mem (List.mem_filter.2 ⟨htq, (hasTerm_iff tc d t).2 ⟨doc, hdoc, hk⟩⟩)
      rw [if_neg this]
      exact ⟨_, rfl⟩
  · intro d t htq ht
    obtain ⟨hdf1, hdf2, x, hx, -, hxpos, hxzero⟩ :=
      TextCollection.built_weight_sign sw paras tc h d t ht
    refine ⟨hdf1, hdf2, ?_, ?_⟩
    · intro hlt
      obtain ⟨n, hn, hnpos⟩ :=
        TextCollection.built_norm_pos sw paras tc h d t ht x hx (hxpos hlt)
      refine ⟨_, contribution_fin sw paras tc h query d n hn (ne_of_gt hnpos) t htq ht, ?_⟩
      rw [hx]
      exact div_pos (hxpos hlt) (mul_pos hnpos (hsqrt t htq))
    · intro heq hn0
      obtain ⟨n, hn⟩ := hnfin d t ht
      have hne : n ≠ 0 := fun h0 => hn0 (by rw [hn, h0])
      rw [contribution_fin sw paras tc h query d n hn hne t htq ht, hx, hxzero heq]
      simp [Fl.val]
  · intro d s hs
    rw [h3 d] at hs
    refine ⟨?_, ?_⟩
    · rintro ⟨t, htq, ht, hlt⟩
      obtain ⟨-, -, x, hx, -, hxpos, -⟩ := TextCollection.built_weight_sign sw paras tc h d t ht
      obtain ⟨n, hn, hnpos⟩ :=
        TextCollection.built_norm_pos sw paras tc h d t ht x hx (hxpos hlt)
      have hden : 0 < n * Real.sqrt (query.length : ℝ) := mul_pos hnpos (hsqrt t htq)
      refine ⟨_, cosineRef_fin sw paras tc h query d n hn (ne_of_gt hnpos) s hs, ?_⟩
      have hnn : ∀ y ∈ (query.filter (tc.hasTerm d)).map (fun t =>
          (tc.weight d t).val / (n * Real.sqrt (query.length : ℝ))), 0 ≤ y := by
        intro y hy
        obtain ⟨t2, ht2, hy2⟩ := List.mem_map.1 hy
        obtain ⟨-, -, x2, hx2, hx2nn, -, -⟩ :=
          TextCollection.built_weight_sign sw paras tc h d t2 (List.mem_filter.1 ht2).2
        rw [← hy2, hx2]
        exact div_nonneg hx2nn (le_of_lt hden)
      have hmem : x / (n * Real.sqrt (query.length : ℝ)) ∈
          (query.filter (tc.hasTerm d)).map (fun t =>
            (tc.weight d t).val / (n * Real.sqrt (query.length : ℝ))) := by
        refine List.mem_map.2 ⟨t, List.mem_filter.2 ⟨htq, ht⟩, ?_⟩
        rw [hx]
        rfl
      exact lt_of_lt_of_le (div_pos (hxpos hlt) hden) (List.single_le_sum hnn _ hmem)
    · intro hall hn0
      have hnil : query.filter (tc.hasTerm d) ≠ [] := by
        intro hnil
        rw [cosineRef, if_pos hnil] at hs
        cases hs
      obtain ⟨t0, ht0⟩ := List.exists_mem_of_ne_nil _ hnil
      obtain ⟨n, hn⟩ := hnfin d t0 (List.mem_filter.1 ht0).2
      have hne : n ≠ 0 := fun h0 => hn0 (by rw [hn, h0])
      rw [cosineRef_fin sw paras tc h query d n hn hne s hs]
      congr 1
      apply List.sum_eq_zero
      intro y hy
      obtain ⟨t2, ht2, hy2⟩ := List.mem_map.1 hy
      obtain ⟨htq2, htd2⟩ := List.mem_filter.1 ht2
      obtain ⟨-, -, x2, hx2, -, -, hx2zero⟩ :=
        TextCollection.built_weight_sign sw paras tc h d t2 htd2
      rw [← hy2, hx2, hx2zero (hall t2 htq2 htd2)]
      simp [Fl.val]

theorem similarity_keys_share_term_witness :
    TextCollection.new (Real.logb 2) Real.sqrt [] sampleParas =
      some (sampleCollection (Real.logb 2) Real.sqrt) ∧
    ∃ sim, (sampleCollection (Real.logb 2) Real.sqrt).similarity Real.sqrt
        ["apple".toList, "banana".toList] [] = some sim ∧
      (∀ d, d ∈ sim.keys ↔
        ∃ doc, (sampleCollection (Real.logb 2) Real.sqrt).documents[d]? = some doc ∧
          ∃ t ∈ ["apple".toList, "banana".toList], t ∈ doc.terms.keys ∧
            t ∈ (sampleCollection (Real.logb 2) Real.sqrt).dictionary.keys) ∧
      (∀ d t, t ∈ ["apple".toList, "banana".toList] →
        (sampleCollection (Real.logb 2) Real.sqrt).hasTerm d t = true →
        1 ≤ (sampleCollection (Real.logb 2) Real.sqrt).df t ∧
        (sampleCollection (Real.logb 2) Real.sqrt).df t ≤
          (sampleCollection (Real.logb 2) Real.sqrt).documents.length ∧
        ((sampleCollection (Real.logb 2) Real.sqrt).df t <
            (sampleCollection (Real.logb 2) Real.sqrt).documents.length →
          ∃ c, (sampleCollection (Real.logb 2) Real.sqrt).contribution
              (Fl.sqrt Real.sqrt (Fl.ofNat ["apple".toList, "banana".toList].length)) d t =
                Fl.fin c ∧ 0 < c) ∧
        ((sampleCollection (Real.logb 2) Real.sqrt).df t =
            (sampleCollection (Real.logb 2) Real.sqrt).documents.length →
          (sampleCollection (Real.logb 2) Real.sqrt).norm d ≠ Fl.fin 0 →
          (sampleCollection (Real.logb 2) Real.sqrt).contribution
            (Fl.sqrt Real.sqrt (Fl.ofNat ["apple".toList, "banana".toList].length)) d t =
              Fl.fin 0)) ∧
      (∀ d s, sim.find d = some s →
        ((∃ t ∈ ["apple".toList, "banana".toList],
            (sampleCollection (Real.logb 2) Real.sqrt).hasTerm d t = true ∧
            (sampleCollection (Real.logb 2) Real.sqrt).df t <
              (sampleCollection (Real.logb 2) Real.sqrt).documents.length) →
          ∃ v, s = Fl.fin v ∧ 0 < v) ∧
        ((∀ t ∈ ["apple".toList, "banana".toList],
            (sampleCollection (Real.logb 2) Real.sqrt).hasTerm d t = true →
            (sampleCollection (Real.logb 2) Real.sqrt).df t =
              (sampleCollection (Real.logb 2) Real.sqrt).documents.length) →
          (sampleCollection (Real.logb 2) Real.sqrt).norm d ≠ Fl.fin 0 → s = Fl.fin 0)) :=
  ⟨sampleCollection_built (Real.logb 2) Real.sqrt,
    similarity_keys_share_term [] sampleParas (sampleCollection (Real.logb 2) Real.sqrt)
      (sampleCollection_built (Real.logb 2) Real.sqrt) ["apple".toList, "banana".toList]⟩

end Pasec

/-! ## The cosine bound -/

namespace Pasec

/-- The sum of the weights of distinct terms of a document is at most the
norm of the document times the square root of their number. -/
theorem sum_weights_le (wv : DocWeights ℝ) (hwf : wv.WF) (S : List Str) (hS : S.Nodup)
    (hsub : ∀ t ∈ S, t ∈ wv.keys) (w : Str → ℝ) (hw : ∀ e ∈ wv, w e.1 = e.2.val) :
    ((S.map w).sum) ^ 2 ≤ (S.length : ℝ) * (wv.map (fun e => e.2.val ^ 2)).sum := by
  have hknd : wv.keys.Nodup := by
    unfold SMap.keys List.Nodup
    rw [List.pairwise_map]
    exact List.Pairwise.imp (fun hlt => ne_of_lt hlt) hwf
  have h1 : (S.map w).sum = S.toFinset.sum w := (List.sum_toFinset w hS).symm
  have h2 : (wv.map (fun e => e.2.val ^ 2)).sum = wv.keys.toFinset.sum (fun k => w k ^ 2) := by
    rw [List.sum_toFinset _ hknd, SMap.keys, List.map_map]
    congr 1
    apply List.map_congr_left
    intro e he
    simp only [Function.comp_apply]
    rw [hw e he]
  have h3 : S.toFinset ⊆ wv.keys.toFinset := by
    intro t ht
    exact List.mem_toFinset.2 (hsub t (List.mem_toFinset.1 ht))
  have h4 : S.toFinset.sum (fun k => w k ^ 2) ≤ wv.keys.toFinset.sum (fun k => w k ^ 2) :=
    Finset.sum_le_sum_of_subset_of_nonneg h3 (fun _ _ _ => sq_nonneg _)
  have h5 : (S.toFinset.sum w) ^ 2 ≤ (S.toFinset.card : ℝ) * S.toFinset.sum (fun k => w k ^ 2) :=
    sq_sum_le_card_mul_sum_sq
  rw [List.toFinset_card_of_nodup hS] at h5
  rw [h1, h2]
  exact le_trans h5 (mul_le_mul_of_nonneg_left h4 (Nat.cast_nonneg _))

/-- C19: Similarity scores are bounded like a cosine. In a constructed
collection every stored weight is a finite value that is not negative, and for
every query (a set, so without repeated terms) and every document `d` of the
similarity result whose norm is not zero, the score is a finite value between
0 and 1. -/
theorem similarity_bounded (sw : List Str) (paras : List Str) (tc : TextCollection ℝ)
    (h : TextCollection.new (Real.logb 2) Real.sqrt sw paras = some tc) (query : Query)
    (hq : query.Nodup) :
    (∀ (d : Nat) (wv : DocWeights ℝ), tc.weights[d]? = some wv →
      ∀ e ∈ wv, e.2 = Fl.fin e.2.val ∧ 0 ≤ e.2.val) ∧
    ∃ sim, tc.similarity Real.sqrt query [] = some sim ∧
      ∀ d s, sim.find d = some s → tc.norm d ≠ Fl.fin 0 →
        0 < (tc.norm d).val ∧ s = Fl.fin s.val ∧ 0 ≤ s.val ∧ s.val ≤ 1 := by
  obtain ⟨-, -, -, hw, -⟩ := TextCollection.built_stores (Real.logb 2) Real.sqrt sw paras tc h
  refine ⟨?_, ?_⟩
  · intro d wv hwv e he
    have hlt : d < tc.documents.length := by
      by_contra hge
      rw [hw, List.getElem?_map, List.getElem?_eq_none (by omega)] at hwv
      cases hwv
    obtain ⟨wv2, hw2, -, -, hfin⟩ :=
      TextCollection.built_weights_fin sw paras tc h d _ (List.getElem?_eq_getElem hlt)
    rw [hwv] at hw2
    cases hw2
    exact ⟨(hfin e he).1, (hfin e he).2.1⟩
  · obtain ⟨sim, h1, -, h3⟩ := similarity_spec (Real.logb 2) Real.sqrt sw paras tc h query
    refine ⟨sim, h1, ?_⟩
    intro d s hs hn0
    rw [h3 d] at hs
    have hnil : query.filter (tc.hasTerm d) ≠ [] := by
      intro hnil
      rw [cosineRef, if_pos hnil] at hs
      cases hs
    obtain ⟨t0, ht0⟩ := List.exists_mem_of_ne_nil _ hnil
    obtain ⟨doc, hdoc, -⟩ := (hasTerm_iff tc d t0).1 (List.mem_filter.1 ht0).2
    obtain ⟨wv, hwv, hwf, hkeys, hfin⟩ :=
      TextCollection.built_weights_fin sw paras tc h d doc hdoc
    obtain ⟨-, hnorm⟩ := TextCollection.built_norm_eq sw paras tc h d wv hwv
      (fun e he => (hfin e he).1)
    have hnpos : 0 < Real.sqrt ((wv.map (fun e => e.2.val ^ 2)).sum) := by
      rcases (Real.sqrt_nonneg ((wv.map (fun e => e.2.val ^ 2)).sum)).lt_or_eq with hlt | heq
      · exact hlt
      · exact absurd (by rw [hnorm, ← heq]) hn0
    have hsval := cosineRef_fin sw paras tc h query d _ hnorm (ne_of_gt hnpos) s hs
    have hqlen : 0 < query.length :=
      List.length_pos.2 (List.ne_nil_of_mem (List.mem_filter.1 ht0).1)
    have hqr : (0 : ℝ) < (query.length : ℝ) := Nat.cast_pos.2 hqlen
    have hr : 0 < Real.sqrt (query.length : ℝ) := Real.sqrt_pos.2 hqr
    have hden : 0 < Real.sqrt ((wv.map (fun e => e.2.val ^ 2)).sum) *
        Real.sqrt (query.length : ℝ) := mul_pos hnpos hr
    have hSnd : (query.filter (tc.hasTerm d)).Nodup := hq.filter _
    have hSsub : ∀ t ∈ query.filter (tc.hasTerm d), t ∈ wv.keys := by
      intro t ht
      obtain ⟨doc2, hdoc2, hk⟩ := (hasTerm_iff tc d t).1 (List.mem_filter.1 ht).2
      rw [hdoc] at hdoc2
      cases hdoc2
      rw [hkeys]
      exact hk
    have hwnn : ∀ t ∈ query.filter (tc.hasTerm d), 0 ≤ (tc.weight d t).val := by
      intro t ht
      obtain ⟨e, he, hek⟩ := List.mem_map.1 (hSsub t ht)
      rw [← hek, (hfin e he).2.2]
      exact (hfin e he).2.1
    have hsum_div : ((query.filter (tc.hasTerm d)).map (fun t =>
          (tc.weight d t).val / (Real.sqrt ((wv.map (fun e => e.2.val ^ 2)).sum) *
            Real.sqrt (query.length : ℝ)))).sum =
        ((query.filter (tc.hasTerm d)).map (fun t => (tc.weight d t).val)).sum /
          (Real.sqrt ((wv.map (fun e => e.2.val ^ 2)).sum) * Real.sqrt (query.length : ℝ)) := by
      generalize query.filter (tc.hasTerm d) = S
      induction S with
      | nil => simp
      | cons x xs ih => simp only [List.map_cons, List.sum_cons, ih, add_div]
    have hA0 : 0 ≤ ((query.filter (tc.hasTerm d)).map (fun t => (tc.weight d t).val)).sum :=
      List.sum_nonneg (by
        intro x hx
        obtain ⟨t, ht, hxt⟩ := List.mem_map.1 hx
        rw [← hxt]
        exact hwnn t ht)
    have hcs := sum_weights_le wv hwf _ hSnd hSsub (fun t => (tc.weight d t).val)
      (fun e he => by show (tc.weight d e.1).val = e.2.val; rw [(hfin e he).2.2])
    have hlen : ((query.filter (tc.hasTerm d)).length : ℝ) ≤ (query.length : ℝ) :=
      Nat.cast_le.2 (List.length_filter_le _ _)
    have hsq : ((query.filter (tc.hasTerm d)).map (fun t => (tc.weight d t).val)).sum ^ 2 ≤
        (Real.sqrt ((wv.map (fun e => e.2.val ^ 2)).sum) * Real.sqrt (query.length : ℝ)) ^ 2 := by
      rw [mul_pow, Real.sq_sqrt (sum_sq_nonneg wv), Real.sq_sqrt (le_of_lt hqr), mul_comm]
      exact le_trans hcs (mul_le_mul_of_nonneg_right hlen (sum_sq_nonneg wv))
    have hle : ((query.filter (tc.hasTerm d)).map (fun t => (tc.weight d t).val)).sum ≤
        Real.sqrt ((wv.map (fun e => e.2.val ^ 2)).sum) * Real.sqrt (query.length : ℝ) := by
      by_contra hgt
      have hgt2 := not_le.1 hgt
      have := mul_self_lt_mul_self (le_of_lt hden) hgt2
      rw [sq, sq] at hsq
      linarith
    rw [hsval, hsum_div]
    refine ⟨by rw [hnorm]; exact hnpos, rfl, ?_, ?_⟩
    · exact div_nonneg hA0 (le_of_lt hden)
    · exact (div_le_one hden).2 hle

theorem similarity_bounded_witness :
    TextCollection.new (Real.logb 2) Real.sqrt [] sampleParas =
      some (sampleCollection (Real.logb 2) Real.sqrt) ∧
    ["apple".toList, "cherry".toList].Nodup ∧
    (∀ (d : Nat) (wv : DocWeights ℝ),
      (sampleCollection (Real.logb 2) Real.sqrt).weights[d]? = some wv →
      ∀ e ∈ wv, e.2 = Fl.fin e.2.val ∧ 0 ≤ e.2.val) ∧
    ∃ sim, (sampleCollection (Real.logb 2) Real.sqrt).similarity Real.sqrt
        ["apple".toList, "cherry".toList] [] = some sim ∧
      ∀ d s, sim.find d = some s →
        (sampleCollection (Real.logb 2) Real.sqrt).norm d ≠ Fl.fin 0 →
        0 < ((sampleCollection (Real.logb 2) Real.sqrt).norm d).val ∧
        s = Fl.fin s.val ∧ 0 ≤ s.val ∧ s.val ≤ 1 :=
  ⟨sampleCollection_built (Real.logb 2) Real.sqrt, by decide,
    similarity_bounded [] sampleParas (sampleCollection (Real.logb 2) Real.sqrt)
      (sampleCollection_built (Real.logb 2) Real.sqrt) ["apple".toList, "cherry".toList]
      (by decide)⟩

end Pasec

/-! ## Queries -/

namespace Pasec

variable {F : Type} [LinearOrderedField F]

/-- Tokens are not empty and hold neither a delimiter nor the terminator. -/
theorem strtokFrom_clean (s : Str) : ∀ (cur : Str),
    (∀ c ∈ cur, c ∉ delim ∧ c ≠ Char.ofNat 0) →
    ∀ tok ∈ strtokFrom cur s, tok ≠ [] ∧ ∀ c ∈ tok, c ∉ delim ∧ c ≠ Char.ofNat 0 := by
  induction s with
  | nil =>
    intro cur hcur tok htok
    simp only [strtokFrom] at htok
    split_ifs at htok with h0
    · simp at htok
    · simp only [List.mem_singleton] at htok
      subst htok
      exact ⟨by simpa using h0, fun c hc => hcur c (List.mem_reverse.1 hc)⟩
  | cons c cs ih =>
    intro cur hcur tok htok
    simp only [strtokFrom] at htok
    split_ifs at htok with h1 h2 h3 h4
    · simp at htok
    · simp only [List.mem_singleton] at htok
      subst htok
      exact ⟨by simpa using h2, fun c hc => hcur c (List.mem_reverse.1 hc)⟩
    · exact ih [] (by simp) tok htok
    · rcases List.mem_cons.1 htok with htok | htok
      · subst htok
        exact ⟨by simpa using h4, fun c hc => hcur c (List.mem_reverse.1 hc)⟩
      · exact ih [] (by simp) tok htok
    · refine ih (c :: cur) ?_ tok htok
      intro x hx
      rcases List.mem_cons.1 hx with hx | hx
      · subst hx; exact ⟨h3, h1⟩
      · exact hcur x hx

/-- A string without delimiter and terminator is one token. -/
theorem strtokFrom_token (s : Str) : ∀ (cur : Str),
    (∀ c ∈ s, c ∉ delim ∧ c ≠ Char.ofNat 0) →
    strtokFrom cur s = if cur.reverse ++ s = [] then [] else [cur.reverse ++ s] := by
  induction s with
  | nil =>
    intro cur _
    simp only [strtokFrom, List.append_nil, List.reverse_eq_nil_iff]
  | cons c cs ih =>
    intro cur hs
    have hc := hs c (List.mem_cons_self _ _)
    simp only [strtokFrom, hc.2, if_false, hc.1]
    rw [ih (c :: cur) (fun x hx => hs x (List.mem_cons_of_mem _ hx))]
    simp

theorem strtokAll_token (para w : Str) (h : w ∈ strtokAll para) : strtokAll w = [w] := by
  obtain ⟨hne, hclean⟩ := strtokFrom_clean para [] (by simp) w h
  unfold strtokAll
  rw [strtokFrom_token w [] hclean]
  simp [hne]

theorem Query.mem_insert (query : Query) (word : Str) : word ∈ Query.insert query word := by
  induction query with
  | nil => simp [Query.insert]
  | cons w ws ih =>
    simp only [Query.insert]
    split_ifs with h1 h2
    · exact List.mem_cons_self _ _
    · subst h2; exact List.mem_cons_self _ _
    · exact List.mem_cons_of_mem _ ih

theorem Query.mem_insert_iff (query : Query) (word t : Str) :
    t ∈ Query.insert query word ↔ t = word ∨ t ∈ query := by
  induction query with
  | nil => simp [Query.insert]
  | cons w ws ih =>
    simp only [Query.insert]
    split_ifs with h1 h2
    · simp
    · subst h2; simp
    · simp only [List.mem_cons, ih]; tauto

/-- The call `query.insert` keeps a `std::set` strictly increasing. -/
theorem Query.insert_sorted (query : Query) (word : Str)
    (h : query.Pairwise (fun a b => a < b)) :
    (Query.insert query word).Pairwise (fun a b => a < b) := by
  induction query with
  | nil => simp [Query.insert]
  | cons w ws ih =>
    rw [List.pairwise_cons] at h
    simp only [Query.insert]
    split_ifs with h1 h2
    · refine List.pairwise_cons.2 ⟨?_, List.pairwise_cons.2 h⟩
      intro x hx
      rcases List.mem_cons.1 hx with hx | hx
      · subst hx; exact h1
      · exact lt_trans h1 (h.1 x hx)
    · exact List.pairwise_cons.2 h
    · refine List.pairwise_cons.2 ⟨?_, ih h.2⟩
      intro x hx
      rcases (Query.mem_insert_iff ws word x).1 hx with hx | hx
      · subst hx
        exact lt_of_le_of_ne (not_lt.1 h1) (fun e => h2 e.symm)
      · exact h.1 x hx

/-- Every query built from a line is a set: strictly increasing, so without
repeated terms. -/
theorem Query.ofLine_nodup (line : Str) (query : Query) (h : Query.ofLine line = some query) :
    query.Pairwise (fun a b => a < b) ∧ query.Nodup := by
  have key : ∀ (tokens : List Str) (q0 : Query), q0.Pairwise (fun a b => a < b) →
      (tokens.foldl Query.step q0).Pairwise (fun a b => a < b) := by
    intro tokens
    induction tokens with
    | nil => intro q0 h0; exact h0
    | cons t ts ih =>
      intro q0 h0
      rw [List.foldl_cons]
      apply ih
      unfold Query.step
      split_ifs
      · exact Query.insert_sorted q0 _ h0
      · exact h0
  unfold Query.ofLine at h
  split at h
  · cases h
  · simp only [Option.some.injEq] at h
    subst h
    have hs := key (strtokAll line) [] List.Pairwise.nil
    exact ⟨hs, List.Pairwise.imp (fun hlt => ne_of_lt hlt) hs⟩

theorem forall₂_getElem? {α β : Type} {R : α → β → Prop} {l1 : List α} {l2 : List β}
    (h : List.Forall₂ R l1 l2) : ∀ (j : Nat) (a : α), l1[j]? = some a →
      ∃ b, l2[j]? = some b ∧ R a b := by
  induction h with
  | nil => intro j a ha; simp at ha
  | cons hr _ ih =>
    intro j a ha
    cases j with
    | zero =>
      simp only [List.getElem?_cons_zero, Option.some.injEq] at ha
      subst ha
      exact ⟨_, List.getElem?_cons_zero, hr⟩
    | succ j =>
      simp only [List.getElem?_cons_succ] at ha
      simpa using ih j a ha

/-- C20: Query and document normalisation agree on accepted tokens. For a
token `w` that the document filter accepts, the loop of `Document::Document`
records the occurrence under `stripS w` and the loop of `QueryCollection`
inserts `stripS w`; hence, in a constructed collection, for an accepted token
`w` of paragraph `j` the query built from the line `w` is the set holding
`stripS w`, this term is in the dictionary, and document `j` is a key of the
similarity result. -/
theorem query_document_normalisation (lg sq : F → F) (sw : List Str) (paras : List Str)
    (tc : TextCollection F) (h : TextCollection.new lg sq sw paras = some tc) :
    (∀ w, accepted sw w = true → ∀ (st : DocState) (query : Query),
      Query.step query w = query.insert (stripS w) ∧ stripS w ∈ Query.step query w ∧
      ∃ pos, (Document.step sw st w).terms.find (stripS w) = some pos ∧
        st.word_count ∈ pos) ∧
    (∀ (j : Nat) (para w : Str), paras[j]? = some para → w ∈ strtokAll para →
      accepted sw w = true →
      Query.ofLine w = some [stripS w] ∧ stripS w ∈ tc.dictionary.keys ∧
      (∃ doc, tc.documents[j]? = some doc ∧ stripS w ∈ doc.terms.keys) ∧
      ∃ sim, tc.similarity sq [stripS w] [] = some sim ∧ j ∈ sim.keys) := by
  have hlen3 : ∀ w, accepted sw w = true → 3 < w.length := by
    intro w ha
    simp only [accepted, Bool.and_eq_true, decide_eq_true_eq] at ha
    exact ha.1
  refine ⟨?_, ?_⟩
  · intro w ha st query
    have hstep : Query.step query w = query.insert (stripS w) := by
      unfold Query.step
      rw [if_pos (hlen3 w ha)]
    refine ⟨hstep, by rw [hstep]; exact Query.mem_insert _ _, ?_⟩
    rw [Document.step_accepted sw st w ha]
    exact ⟨_, SMap.find_assign_self _ _ _, by simp⟩
  · intro j para w hj hw ha
    obtain ⟨hl, -, -, -, -⟩ := TextCollection.built_stores lg sq sw paras tc h
    obtain ⟨-, hall⟩ := loadDocuments_inv sw paras _ _ hl
    obtain ⟨doc, hdoc, -, hterms⟩ := forall₂_getElem? hall j para hj
    have hacc : stripS w ∈ acceptedTerms sw (strtokAll para) :=
      (mem_acceptedTerms sw _ _).2 ⟨w, hw, ha, rfl⟩
    have hfind := (hterms.find_ne_none_iff (stripS w)).2 hacc
    have hkey : stripS w ∈ doc.terms.keys := by
      cases hf : doc.terms.find (stripS w) with
      | none => exact absurd hf hfind
      | some pos => exact (SMap.mem_keys_iff _ _).2 ⟨pos, hf⟩
    have hhas : tc.hasTerm j (stripS w) = true := (hasTerm_iff tc j _).2 ⟨doc, hdoc, hkey⟩
    obtain ⟨id, hid, -⟩ := TextCollection.hasTerm_dict lg sq sw paras tc h j _ hhas
    obtain ⟨sim, h1, -, h3⟩ := similarity_spec lg sq sw paras tc h [stripS w]
    refine ⟨?_, (SMap.mem_keys_iff _ _).2 ⟨id, hid⟩, ⟨doc, hdoc, hkey⟩, sim, h1, ?_⟩
    · unfold Query.ofLine
      rw [strtokAll_token para w hw]
      simp only [List.foldl_cons, List.foldl_nil, Query.step, if_pos (hlen3 w ha)]
      rfl
    · rw [SMap.mem_keys_iff, h3 j, cosineRef]
      have : [stripS w].filter (tc.hasTerm j) ≠ [] := by simp [List.filter, hhas]
      rw [if_neg this]
      exact ⟨_, rfl⟩

theorem query_document_normalisation_witness :
    TextCollection.new (Real.logb 2) Real.sqrt [] sampleParas =
      some (sampleCollection (Real.logb 2) Real.sqrt) ∧
    (∀ w, accepted [] w = true → ∀ (st : DocState) (query : Query),
      Query.step query w = query.insert (stripS w) ∧ stripS w ∈ Query.step query w ∧
      ∃ pos, (Document.step [] st w).terms.find (stripS w) = some pos ∧
        st.word_count ∈ pos) ∧
    (∀ (j : Nat) (para w : Str), sampleParas[j]? = some para → w ∈ strtokAll para →
      accepted [] w = true →
      Query.ofLine w = some [stripS w] ∧
      stripS w ∈ (sampleCollection (Real.logb 2) Real.sqrt).dictionary.keys ∧
      (∃ doc, (sampleCollection (Real.logb 2) Real.sqrt).documents[j]? = some doc ∧
        stripS w ∈ doc.terms.keys) ∧
      ∃ sim, (sampleCollection (Real.logb 2) Real.sqrt).similarity Real.sqrt
          [stripS w] [] = some sim ∧ j ∈ sim.keys) :=
  ⟨sampleCollection_built (Real.logb 2) Real.sqrt,
    query_document_normalisation (Real.logb 2) Real.sqrt [] sampleParas
      (sampleCollection (Real.logb 2) Real.sqrt)
      (sampleCollection_built (Real.logb 2) Real.sqrt)⟩

end Pasec
